import Mathlib

/-!
# Donation splitting (`src/main.cpp`): embedding and verified properties

The program reads one donation and a list of orders, ranks the orders, sorts them by rank and
walks the sorted list handing the donation's quantity out (`splitDonationToOrders`).

Conventions of the embedding:

* `unsigned int` values are natural numbers below `2 ^ 32`; unsigned subtraction is written with an
  explicit `% 2 ^ 32` (`usub`).
* `int` values are integers between `INT_MIN` and `INT_MAX`; signed overflow is undefined
  behaviour in C++ and is reported as `Failure.undefinedBehaviour`.
* A `std::vector<Order *>` is the list of the records its pointers refer to; the in-place
  mutation of the records is explicit state passing.
* Operations that the C++ standard leaves undefined (an iterator outside the vector, a
  floating-point value that does not fit the target integer type) return
  `Failure.undefinedBehaviour`; a thrown `runtime_error` is `Failure.unableToOpenFile` or
  `Failure.wronglyFormattedLine`.
* Library code that is not part of the repository is a parameter of the embedding: the stream
  extraction `ss >> id >> ... >> timestamp` (`extract`), the rounding of the floating-point
  unit (`Fpu`) and the implementation of `std::sort` (`sortImpl`).  `libstdcxxSort` is the
  implementation of `std::sort` of GNU libstdc++.
-/

namespace DonationSplit

/-! ## Outcomes -/

/-- Ways in which a run does not produce a result: the two `runtime_error`s thrown by the
readers (a file that cannot be opened, a line that is not a `Data line`), or behaviour the C++
standard leaves undefined. -/
inductive Failure where
  | unableToOpenFile
  | wronglyFormattedLine (line : String)
  | undefinedBehaviour
deriving DecidableEq, Repr

/-! ## Machine integers -/

/-- Number of values of `unsigned int` (32 bits). -/
def UINT_RANGE : Nat := 2 ^ 32

/-- Smallest `int`. -/
def INT_MIN : Int := -2147483648

/-- Largest `int`. -/
def INT_MAX : Int := 2147483647

/-- Unsigned 32-bit subtraction `a - b` (wraps modulo `2 ^ 32`). -/
def usub (a b : Nat) : Nat := (a + UINT_RANGE - b % UINT_RANGE) % UINT_RANGE

/-- Value of an `int` expression whose mathematical value is `z`: defined only when `z` is
representable (signed overflow is undefined behaviour). -/
def checkedInt (z : Int) : Except Failure Int :=
  if INT_MIN ≤ z ∧ z ≤ INT_MAX then .ok z else .error .undefinedBehaviour

/-! ## Floating-point values -/

/-- Value of a `double`: a finite number, an infinity or a NaN.  The sign of a zero is not
recorded: the only place where the program could observe it is the division `1 / distance`, and
`distance` is the `sqrt` of a sum of two `pow(_, 2)` results, which is never a negative zero. -/
inductive Dbl where
  | fin (q : ℚ)
  | pinf
  | ninf
  | nan
deriving DecidableEq

/-! ## Record model (`Location`, `Data`, `Donation`, `Order`) -/

/-- Source `struct Location`. -/
structure Location where
  x : Dbl
  y : Dbl
deriving DecidableEq

/-- Source `struct Data`: the fields shared by the donation and the orders. -/
structure Data where
  id : Nat
  productId : Nat
  quantity : Nat
  timestamp : Int
  location : Location
deriving DecidableEq

/-- Source `struct Donation : Data`. -/
abbrev Donation := Data

/-- Source `struct Order : Data` with the extra field `int rank = -1`. -/
structure Order extends Data where
  rank : Int := -1
deriving DecidableEq

/-- Well-formedness of the `unsigned int` quantity of every order of a list. -/
def QuantitiesInRange (orders : List Order) : Prop :=
  ∀ o ∈ orders, o.quantity < UINT_RANGE

/-- Total requested quantity of a list of orders (as a natural number, no wrap-around). -/
def totalQuantity (orders : List Order) : Nat :=
  (orders.map (fun o => o.quantity)).sum

/-! ## Step 4 of `splitDonationToOrders`: allocation loop and truncation -/

/-- State after the allocation loop: the donation, the counter `lastIndex` and the vector of
orders (all of them, the visited ones mutated). -/
structure AllocState where
  donation : Donation
  lastIndex : Nat
  orders : List Order
deriving DecidableEq

/-- The loop `for (Order *order: orders) { ... }` of step 4, started with the given donation and
value of `lastIndex`, on the remaining part of the vector. -/
def allocLoop (donation : Donation) (lastIndex : Nat) : List Order → AllocState
  | [] => ⟨donation, lastIndex, []⟩
  | order :: rest =>
    if order.quantity < donation.quantity then
      -- donation->quantity -= order->quantity; order->quantity = 0; lastIndex++
      let st := allocLoop { donation with quantity := usub donation.quantity order.quantity }
        (lastIndex + 1) rest
      { st with orders := { order with quantity := 0 } :: st.orders }
    else
      -- order->quantity -= donation->quantity; donation->quantity = 0; break
      ⟨{ donation with quantity := 0 }, lastIndex,
        { order with quantity := usub order.quantity donation.quantity } :: rest⟩

/-- The call `v.erase(v.begin() + first, v.end())`.  `v.begin() + first` has to be an iterator of
`v` (at most `v.end()`); otherwise the behaviour is undefined. -/
def eraseFrom {α : Type} (v : List α) (first : Nat) : Except Failure (List α) :=
  if first ≤ v.length then .ok (v.take first) else .error .undefinedBehaviour

/-- Step 4 of `splitDonationToOrders`: `int lastIndex = 1`, the allocation loop, then
`orders.erase(orders.begin() + lastIndex, orders.end())`.  Returns the donation and the
processed orders handed to `saveResults`. -/
def splitStep4 (donation : Donation) (orders : List Order) :
    Except Failure (Donation × List Order) :=
  let st := allocLoop donation 1 orders
  match eraseFrom st.orders st.lastIndex with
  | .ok processed => .ok (st.donation, processed)
  | .error e => .error e

/-- Quantity that the processed orders received: the sum over the processed orders of original
quantity minus final quantity (the processed list is a prefix of the ranked list). -/
def fulfilledAmount (ranked processed : List Order) : Int :=
  ((ranked.zip processed).map (fun p => (p.1.quantity : Int) - (p.2.quantity : Int))).sum

/-- One unsigned subtraction executed by the allocation loop, with the values of its operands. -/
inductive Subtraction where
  /-- Statement `donation->quantity -= order->quantity` (fulfilling branch). -/
  | donationMinusOrder (donationQuantity orderQuantity : Nat)
  /-- Statement `order->quantity -= donation->quantity` (stopping branch). -/
  | orderMinusDonation (orderQuantity donationQuantity : Nat)
deriving DecidableEq

/-- Minuend of a subtraction. -/
def Subtraction.minuend : Subtraction → Nat
  | .donationMinusOrder d _ => d
  | .orderMinusDonation o _ => o

/-- Subtrahend of a subtraction. -/
def Subtraction.subtrahend : Subtraction → Nat
  | .donationMinusOrder _ o => o
  | .orderMinusDonation _ d => d

/-- The unsigned subtractions executed by the allocation loop, in execution order (same walk as
`allocLoop`, recording the operands instead of the records). -/
def allocSubtractions (donation : Donation) : List Order → List Subtraction
  | [] => []
  | order :: rest =>
    if order.quantity < donation.quantity then
      .donationMinusOrder donation.quantity order.quantity ::
        allocSubtractions { donation with quantity := usub donation.quantity order.quantity } rest
    else
      [.orderMinusDonation order.quantity donation.quantity]

/-- Position in the vector of the order at which the allocation loop takes the stopping branch
(the order whose processing sets the donation's quantity to 0); `none` when the loop runs to the
end of the vector. -/
def stopIndex (donation : Donation) : List Order → Option Nat
  | [] => none
  | order :: rest =>
    if order.quantity < donation.quantity then
      (stopIndex { donation with quantity := usub donation.quantity order.quantity } rest).map
        (fun k => k + 1)
    else some 0

/-! ## Floating-point arithmetic

The special cases (zeros, infinities, NaN) are fixed by IEEE 754 and Annex F of the C standard
and are part of the definitions; the rounding of the other results is a parameter. -/

/-- Rounding behaviour of the floating-point unit and of the math library on non-zero finite
arguments; the results may be any `double` (overflow gives an infinity, underflow a zero). -/
structure Fpu where
  /-- The `double` returned for an exact non-zero result of `+`, `-`, `*`, `/`. -/
  round : ℚ → Dbl
  /-- The result of `sqrt` on a positive finite argument. -/
  sqrt : ℚ → Dbl
  /-- The result of `pow(x, 2)` on a non-zero finite argument. -/
  square : ℚ → Dbl

/-- The `double` for an exact rational result: zero is exact, the rest is rounded. -/
def Dbl.ofExact (fp : Fpu) (q : ℚ) : Dbl := if q = 0 then .fin 0 else fp.round q

/-- Source `a - b` on `double`. -/
def Dbl.sub (fp : Fpu) : Dbl → Dbl → Dbl
  | .fin x, .fin y => Dbl.ofExact fp (x - y)
  | .nan, _ => .nan
  | _, .nan => .nan
  | .pinf, .pinf => .nan
  | .ninf, .ninf => .nan
  | .pinf, _ => .pinf
  | .ninf, _ => .ninf
  | .fin _, .pinf => .ninf
  | .fin _, .ninf => .pinf

/-- Source `a + b` on `double`. -/
def Dbl.add (fp : Fpu) : Dbl → Dbl → Dbl
  | .fin x, .fin y => Dbl.ofExact fp (x + y)
  | .nan, _ => .nan
  | _, .nan => .nan
  | .pinf, .ninf => .nan
  | .ninf, .pinf => .nan
  | .pinf, _ => .pinf
  | .ninf, _ => .ninf
  | .fin _, .pinf => .pinf
  | .fin _, .ninf => .ninf

/-- Source `a * b` on `double`. -/
def Dbl.mul (fp : Fpu) : Dbl → Dbl → Dbl
  | .fin x, .fin y => Dbl.ofExact fp (x * y)
  | .nan, _ => .nan
  | _, .nan => .nan
  | .fin x, .pinf => if x = 0 then .nan else if 0 < x then .pinf else .ninf
  | .fin x, .ninf => if x = 0 then .nan else if 0 < x then .ninf else .pinf
  | .pinf, .fin y => if y = 0 then .nan else if 0 < y then .pinf else .ninf
  | .ninf, .fin y => if y = 0 then .nan else if 0 < y then .ninf else .pinf
  | .pinf, .pinf => .pinf
  | .ninf, .ninf => .pinf
  | .pinf, .ninf => .ninf
  | .ninf, .pinf => .ninf

/-- Source `a / b` on `double`; a zero divisor is the positive zero (see `Dbl`): a non-zero
finite value divided by it is an infinity, `0 / 0` is NaN. -/
def Dbl.div (fp : Fpu) : Dbl → Dbl → Dbl
  | .fin x, .fin y =>
    if y = 0 then (if x = 0 then .nan else if 0 < x then .pinf else .ninf)
    else Dbl.ofExact fp (x / y)
  | .nan, _ => .nan
  | _, .nan => .nan
  | .fin _, .pinf => .fin 0
  | .fin _, .ninf => .fin 0
  | .pinf, .fin y => if 0 ≤ y then .pinf else .ninf
  | .ninf, .fin y => if 0 ≤ y then .ninf else .pinf
  | .pinf, .pinf => .nan
  | .pinf, .ninf => .nan
  | .ninf, .pinf => .nan
  | .ninf, .ninf => .nan

/-- Source `pow(x, 2)`. -/
def Dbl.pow2 (fp : Fpu) : Dbl → Dbl
  | .fin x => if x = 0 then .fin 0 else fp.square x
  | .pinf => .pinf
  | .ninf => .pinf
  | .nan => .nan

/-- Source `sqrt(x)`. -/
def Dbl.sqrt (fp : Fpu) : Dbl → Dbl
  | .fin x => if x = 0 then .fin 0 else if x < 0 then .nan else fp.sqrt x
  | .pinf => .pinf
  | .ninf => .nan
  | .nan => .nan

/-- The integer nearest to `q`, halfway cases away from zero. -/
def roundHalfAway (q : ℚ) : Int :=
  if 0 ≤ q then ⌊q + 1 / 2⌋ else -⌊-q + 1 / 2⌋

/-- Source `round(x)` of `<cmath>`: the nearest integer value, halfway cases away from zero
(exact: the result is representable); infinities and NaN are returned unchanged. -/
def Dbl.round : Dbl → Dbl
  | .fin x => .fin (roundHalfAway x)
  | .pinf => .pinf
  | .ninf => .ninf
  | .nan => .nan

/-- Truncation of a rational toward zero. -/
def truncToZero (q : ℚ) : Int := if 0 ≤ q then ⌊q⌋ else ⌈q⌉

/-- Source `static_cast<int>(x)` for a `double` `x`: the value truncated toward zero; the
behaviour is undefined if the truncated value cannot be represented in `int`, in particular for
infinities and NaN. -/
def Dbl.toInt : Dbl → Except Failure Int
  | .fin x => checkedInt (truncToZero x)
  | _ => .error .undefinedBehaviour

/-! ### The binary64 format

The `double` of the platform is the IEEE 754 binary64 format: 53 significant bits, exponents
from -1022 to 1023, round to nearest with halfway cases to the even significand.  IEEE 754
requires `+`, `-`, `*`, `/` and `sqrt` to return the correctly rounded result.  For `pow` the
C library only promises a small error; `binary64Fpu` takes `pow(x, 2)` as the correctly rounded
square (what GCC emits from `-O1` on, where the call becomes `x * x`), and `AccurateFpu` allows
it one unit in the last place. -/

/-- Exponent of the binade of a non-zero rational: the `e` with `2 ^ e ≤ |q| < 2 ^ (e + 1)`. -/
def binade (q : ℚ) : ℤ := Int.log 2 |q|

/-- The integer nearest to `q`, halfway cases to the even integer. -/
def roundHalfEven (q : ℚ) : ℤ :=
  if q - ⌊q⌋ < 1 / 2 then ⌊q⌋
  else if 1 / 2 < q - ⌊q⌋ then ⌊q⌋ + 1
  else if ⌊q⌋ % 2 = 0 then ⌊q⌋ else ⌊q⌋ + 1

/-- Exponent of the unit in the last place of the binary64 values of binade `e`; below binade
-1022 the values are subnormal and keep the spacing `2 ^ (-1074)`. -/
def quantumExp (e : ℤ) : ℤ := max e (-1022) - 52

/-- The binary64 value nearest to `q` (halfway cases to even) for an unbounded exponent range
above. -/
def nearestBinary64 (q : ℚ) : ℚ :=
  roundHalfEven (q / 2 ^ quantumExp (binade q)) * 2 ^ quantumExp (binade q)

/-- Rounding of an exact non-zero result to binary64: the nearest value, an infinity on
overflow. -/
def roundBinary64 (q : ℚ) : Dbl :=
  if (2 : ℚ) ^ (1024 : ℤ) ≤ |nearestBinary64 q| then (if 0 < q then .pinf else .ninf)
  else .fin (nearestBinary64 q)

/-- The integer nearest to the square root of `s` (halfway cases to even), for `0 ≤ s`. -/
def nearestSqrt (s : ℚ) : ℤ :=
  if s < ((Nat.sqrt ⌊s⌋₊ : ℚ) + 1 / 2) ^ 2 then (Nat.sqrt ⌊s⌋₊ : ℤ)
  else if ((Nat.sqrt ⌊s⌋₊ : ℚ) + 1 / 2) ^ 2 < s then (Nat.sqrt ⌊s⌋₊ : ℤ) + 1
  else if Nat.sqrt ⌊s⌋₊ % 2 = 0 then (Nat.sqrt ⌊s⌋₊ : ℤ) else (Nat.sqrt ⌊s⌋₊ : ℤ) + 1

/-- Correctly rounded binary64 square root of a positive rational: the binade of the root is
half the binade of the argument, rounded down. -/
def sqrtBinary64 (q : ℚ) : Dbl :=
  .fin (nearestSqrt (q / 2 ^ (2 * quantumExp (binade q / 2))) * 2 ^ quantumExp (binade q / 2))

/-- Correctly rounded binary64 square. -/
def squareBinary64 (q : ℚ) : Dbl := roundBinary64 (q * q)

/-- The floating-point unit of the platform: IEEE 754 binary64 with correctly rounded
operations. -/
def binary64Fpu : Fpu where
  round := roundBinary64
  sqrt := sqrtBinary64
  square := squareBinary64

/-- Accuracy that IEEE 754 and the C library guarantee away from overflow and underflow: the
results of the arithmetic operations and of `sqrt` are finite with relative error at most
`2 ^ (-53)` (half a unit in the last place), the result of `pow(x, 2)` is finite with relative
error at most `2 ^ (-52)`.  For the square root `r` of `q` the bound is stated on the squares. -/
def AccurateFpu (fp : Fpu) : Prop :=
  (∀ q : ℚ, (2 : ℚ) ^ (-1000 : ℤ) ≤ |q| → |q| ≤ 2 ^ (1000 : ℤ) →
    ∃ r : ℚ, fp.round q = .fin r ∧ |r - q| ≤ 2 ^ (-53 : ℤ) * |q|) ∧
  (∀ q : ℚ, (2 : ℚ) ^ (-1000 : ℤ) ≤ q → q ≤ 2 ^ (1000 : ℤ) →
    ∃ r : ℚ, fp.sqrt q = .fin r ∧ 0 ≤ r ∧
      (1 - 2 ^ (-53 : ℤ)) ^ 2 * q ≤ r ^ 2 ∧ r ^ 2 ≤ (1 + 2 ^ (-53 : ℤ)) ^ 2 * q) ∧
  (∀ q : ℚ, (2 : ℚ) ^ (-500 : ℤ) ≤ |q| → |q| ≤ 2 ^ (500 : ℤ) →
    ∃ r : ℚ, fp.square q = .fin r ∧ |r - q * q| ≤ 2 ^ (-52 : ℤ) * (q * q))

/-- A coordinate difference whose square neither overflows nor underflows: zero, or of
magnitude between `2 ^ (-400)` and `2 ^ 400`. -/
def SafeDifference (a : ℚ) : Prop :=
  a = 0 ∨ ((2 : ℚ) ^ (-400 : ℤ) ≤ |a| ∧ |a| ≤ 2 ^ (400 : ℤ))

/-! ## Rank calculation (`calculateDistance`, `timeDif`, `calculateRanks`) -/

/-- Source `constexpr int DISTANCE_COEFFICIENT = 5000`. -/
def DISTANCE_COEFFICIENT : Int := 5000

/-- Source `constexpr int TIME_COEFFICIENT = 1`. -/
def TIME_COEFFICIENT : Int := 1

/-- Source `calculateDistance`: `sqrt(pow(loc1.x - loc2.x, 2) + pow(loc1.y - loc2.y, 2))`. -/
def calculateDistance (fp : Fpu) (loc1 loc2 : Location) : Dbl :=
  Dbl.sqrt fp (Dbl.add fp (Dbl.pow2 fp (Dbl.sub fp loc1.x loc2.x))
    (Dbl.pow2 fp (Dbl.sub fp loc1.y loc2.y)))

/-- Whether `timeDif` prints its warning ("Order timestamp is greater that donation
timestamp..."). -/
def timeDifWarns (time1 time2 : Int) : Bool := decide (time1 < time2)

/-- Source `timeDif`: `return time1 - time2` on `int` (the warning does not change the value). -/
def timeDif (time1 time2 : Int) : Except Failure Int := checkedInt (time1 - time2)

/-- The distance term of the rank:
`static_cast<int>(round(1 / distance * DISTANCE_COEFFICIENT))`. -/
def distanceTerm (fp : Fpu) (distance : Dbl) : Except Failure Int :=
  Dbl.toInt (Dbl.round (Dbl.mul fp (Dbl.div fp (.fin 1) distance)
    (.fin (DISTANCE_COEFFICIENT : ℚ))))

/-- Body of the loop of `calculateRanks` for one order. -/
def calculateRank (fp : Fpu) (donation : Donation) (order : Order) : Except Failure Order := do
  let distance := calculateDistance fp order.location donation.location
  let tDif ← timeDif donation.timestamp order.timestamp
  let dTerm ← distanceTerm fp distance
  let tTerm ← checkedInt (tDif * TIME_COEFFICIENT)
  let rank ← checkedInt (dTerm + tTerm)
  pure { order with rank := rank }

/-- Source `calculateRanks`: sets the rank of every order, in vector order. -/
def calculateRanks (fp : Fpu) (orders : List Order) (donation : Donation) :
    Except Failure (List Order) :=
  orders.mapM (calculateRank fp donation)

/-! ## Reading the input (`readDonation`, `readOrders`)

A file is `none` when it cannot be opened, otherwise the list of its lines.  `extract` is the
stream extraction `ss >> id >> productId >> quantity >> latitude >> longitude >> timestamp` of
one line: `none` when it fails, otherwise the record built from the six values. -/

/-- Source `readDonation`: the first line of the file has to be a `Data line`; further lines
are ignored. -/
def readDonation (extract : String → Option Data) (file : Option (List String)) :
    Except Failure Donation :=
  match file with
  | none => .error .unableToOpenFile
  | some lines =>
    match extract (lines.headD "") with
    | none => .error (.wronglyFormattedLine (lines.headD ""))
    | some d => .ok d

/-- The loop `while (getline(file, line))` of `readOrders`. -/
def readOrderLines (extract : String → Option Data) (prodId : Nat) :
    List String → Except Failure (List Order)
  | [] => .ok []
  | line :: rest =>
    match extract line with
    | none => .error (.wronglyFormattedLine line)
    | some d =>
      match readOrderLines extract prodId rest with
      | .error e => .error e
      | .ok orders => if prodId = d.productId then .ok ({ toData := d } :: orders) else .ok orders

/-- Source `readOrders`. -/
def readOrders (extract : String → Option Data) (file : Option (List String)) (prodId : Nat) :
    Except Failure (List Order) :=
  match file with
  | none => .error .unableToOpenFile
  | some lines => readOrderLines extract prodId lines

/-! ## Step 3: sorting by rank

`std::sort` is library code.  The C++ standard requires its comparison object to be a strict
weak ordering and promises a sorted permutation, nothing about equal elements
(`std::stable_sort` is the stable one). -/

/-- The comparison `[](const Order *a, const Order *b) { return a->rank > b->rank; }`. -/
def rankGreater (a b : Order) : Bool := decide (a.rank > b.rank)

/-- Requirement of `std::sort` on its comparison object: a strict weak ordering, that is
`comp` is irreflexive and transitive and the equivalence `!comp(a, b) && !comp(b, a)` is
transitive. -/
def StrictWeakOrdering {α : Type} (comp : α → α → Bool) : Prop :=
  (∀ a, comp a a = false) ∧
  (∀ a b c, comp a b = true → comp b c = true → comp a c = true) ∧
  (∀ a b c, (comp a b = false ∧ comp b a = false) → (comp b c = false ∧ comp c b = false) →
    (comp a c = false ∧ comp c a = false))

/-- Postcondition of `std::sort(first, last, comp)`: the range holds a permutation of its
former content and no element is `comp`-before an element on its left. -/
def StdSortPost {α : Type} (comp : α → α → Bool) (input output : List α) : Prop :=
  output.Perm input ∧ output.Pairwise (fun a b => comp b a = false)

/-- An implementation of `std::sort` that meets the standard's postcondition whenever the
comparison object meets the requirement. -/
def ConformingSort (sortImpl : {α : Type} → (α → α → Bool) → List α → List α) : Prop :=
  ∀ {α : Type} (comp : α → α → Bool), StrictWeakOrdering comp →
    ∀ v : List α, StdSortPost comp v (sortImpl comp v)

/-- Step 3 of `splitDonationToOrders`: `sort(orders.begin(), orders.end(), rankGreater)`. -/
def sortOrders (sortImpl : {α : Type} → (α → α → Bool) → List α → List α)
    (orders : List Order) : List Order :=
  sortImpl rankGreater orders

/-- Order of occurrence: `a` precedes `b` in `l` when some occurrence of `a` is followed, later,
by one of `b`. -/
def Precedes {α : Type} (l : List α) (a b : α) : Prop := List.Sublist [a, b] l

/-! ## `std::sort` of GNU libstdc++ (`bits/stl_algo.h`, `bits/stl_heap.h`)

The vector is a list, iterators are positions in it.  A sub-range `[first, last)` that an
algorithm works on is passed as a list of its own.  The scans that the library runs without a
bound check (they rely on the comparison being a strict weak ordering) stop at the ends of the
vector here. -/

/-- Library constant `_S_threshold = 16`. -/
def S_threshold : Nat := 16

/-- Library `std::iter_swap(v.begin() + i, v.begin() + j)`. -/
def iterSwap {α : Type} (v : List α) (i j : Nat) : List α :=
  match v[i]?, v[j]? with
  | some a, some b => (v.set i b).set j a
  | _, _ => v

/-- The comparison `comp(v.begin() + i, v.begin() + j)` of two positions. -/
def compAt {α : Type} (comp : α → α → Bool) (v : List α) (i j : Nat) : Bool :=
  match v[i]?, v[j]? with
  | some a, some b => comp a b
  | _, _ => false

/-- Library `__move_median_to_first(result, a, b, c, comp)`. -/
def moveMedianToFirst {α : Type} (comp : α → α → Bool) (v : List α) (result a b c : Nat) :
    List α :=
  if compAt comp v a b then
    if compAt comp v b c then iterSwap v result b
    else if compAt comp v a c then iterSwap v result c
    else iterSwap v result a
  else if compAt comp v a c then iterSwap v result a
  else if compAt comp v b c then iterSwap v result c
  else iterSwap v result b

/-- Loop `while (comp(first, pivot)) ++first;` of `__unguarded_partition`. -/
def scanForward {α : Type} (comp : α → α → Bool) (v : List α) (pivot : Nat) : Nat → Nat → Nat
  | 0, first => first
  | fuel + 1, first =>
    if compAt comp v first pivot then scanForward comp v pivot fuel (first + 1) else first

/-- Loop `while (comp(pivot, last)) --last;` of `__unguarded_partition`. -/
def scanBackward {α : Type} (comp : α → α → Bool) (v : List α) (pivot : Nat) : Nat → Nat → Nat
  | 0, last => last
  | fuel + 1, last =>
    if compAt comp v pivot last then scanBackward comp v pivot fuel (last - 1) else last

/-- Library `__unguarded_partition(first, last, pivot, comp)`: returns the cut position and the
vector; the first argument bounds the number of iterations of the outer loop. -/
def unguardedPartition {α : Type} (comp : α → α → Bool) (pivot : Nat) :
    Nat → List α → Nat → Nat → Nat × List α
  | 0, v, first, _ => (first, v)
  | fuel + 1, v, first, last =>
    let first1 := scanForward comp v pivot v.length first
    let last1 := scanBackward comp v pivot v.length (last - 1)
    if ¬ first1 < last1 then (first1, v)
    else unguardedPartition comp pivot fuel (iterSwap v first1 last1) (first1 + 1) last1

/-- Library `__unguarded_partition_pivot(first, last, comp)` on the range `v`. -/
def unguardedPartitionPivot {α : Type} (comp : α → α → Bool) (v : List α) : Nat × List α :=
  let mid := v.length / 2
  let v1 := moveMedianToFirst comp v 0 1 mid (v.length - 1)
  unguardedPartition comp 0 v1.length v1 1 v1.length

/-- Library `__push_heap(first, holeIndex, topIndex, value, comp)`; the first argument bounds the
number of iterations. -/
def pushHeap {α : Type} (comp : α → α → Bool) (topIndex : Nat) (value : α) :
    Nat → List α → Nat → List α
  | 0, v, holeIndex => v.set holeIndex value
  | fuel + 1, v, holeIndex =>
    match v[(holeIndex - 1) / 2]? with
    | some p =>
      if holeIndex > topIndex ∧ comp p value = true then
        pushHeap comp topIndex value fuel (v.set holeIndex p) ((holeIndex - 1) / 2)
      else v.set holeIndex value
    | none => v.set holeIndex value

/-- The `while (secondChild < (len - 1) / 2)` loop of `__adjust_heap`: returns the vector,
`holeIndex` and `secondChild`. -/
def adjustHeapDown {α : Type} (comp : α → α → Bool) (len : Nat) :
    Nat → List α → Nat → Nat → List α × Nat × Nat
  | 0, v, holeIndex, secondChild => (v, holeIndex, secondChild)
  | fuel + 1, v, holeIndex, secondChild =>
    if secondChild < (len - 1) / 2 then
      let child := 2 * (secondChild + 1)
      let child := if compAt comp v child (child - 1) then child - 1 else child
      match v[child]? with
      | some x => adjustHeapDown comp len fuel (v.set holeIndex x) child child
      | none => (v, holeIndex, secondChild)
    else (v, holeIndex, secondChild)

/-- Library `__adjust_heap(first, holeIndex, len, value, comp)`. -/
def adjustHeap {α : Type} (comp : α → α → Bool) (v : List α) (holeIndex len : Nat)
    (value : α) : List α :=
  let down := adjustHeapDown comp len len v holeIndex holeIndex
  let last :=
    if len % 2 = 0 ∧ down.2.2 = (len - 2) / 2 then
      match down.1[2 * (down.2.2 + 1) - 1]? with
      | some x => (down.1.set down.2.1 x, 2 * (down.2.2 + 1) - 1)
      | none => (down.1, down.2.1)
    else (down.1, down.2.1)
  pushHeap comp holeIndex value len last.1 last.2

/-- Library `__pop_heap(first, first + last, first + result, comp)`. -/
def popHeap {α : Type} (comp : α → α → Bool) (v : List α) (last result : Nat) : List α :=
  match v[result]?, v[0]? with
  | some value, some top => adjustHeap comp (v.set result top) 0 last value
  | _, _ => v

/-- The loop of `__make_heap`, from `parent` down to 0. -/
def makeHeapLoop {α : Type} (comp : α → α → Bool) (len : Nat) : Nat → List α → List α
  | 0, v =>
    match v[0]? with
    | some value => adjustHeap comp v 0 len value
    | none => v
  | parent + 1, v =>
    match v[parent + 1]? with
    | some value => makeHeapLoop comp len parent (adjustHeap comp v (parent + 1) len value)
    | none => makeHeapLoop comp len parent v

/-- Library `__make_heap(first, last, comp)` on the range `v`. -/
def makeHeap {α : Type} (comp : α → α → Bool) (v : List α) : List α :=
  if v.length < 2 then v else makeHeapLoop comp v.length ((v.length - 2) / 2) v

/-- Library `__sort_heap(first, first + last, comp)`. -/
def sortHeap {α : Type} (comp : α → α → Bool) : Nat → List α → List α
  | 0, v => v
  | last + 1, v => if last + 1 > 1 then sortHeap comp last (popHeap comp v last last) else v

/-- Library `__partial_sort(first, last, last, comp)` on the range `v`: `__heap_select` (here only
`__make_heap`, its loop over `[middle, last)` being empty) and `__sort_heap`. -/
def partialSortAll {α : Type} (comp : α → α → Bool) (v : List α) : List α :=
  sortHeap comp v.length (makeHeap comp v)

/-- Library `__introsort_loop(first, last, depth_limit, comp)` on the range `v`. -/
def introsortLoop {α : Type} (comp : α → α → Bool) : Nat → List α → List α
  | 0, v => if v.length > S_threshold then partialSortAll comp v else v
  | depthLimit + 1, v =>
    if v.length > S_threshold then
      let cut := unguardedPartitionPivot comp v
      introsortLoop comp depthLimit (cut.2.take cut.1) ++
        introsortLoop comp depthLimit (cut.2.drop cut.1)
    else v

/-- Library `__unguarded_linear_insert(last, comp)`: `before` is the part of the vector in front of
the element `val`; the elements at its end that `val` is `comp`-before move one place up. -/
def unguardedLinearInsert {α : Type} (comp : α → α → Bool) (before : List α) (val : α) :
    List α :=
  before.rdropWhile (comp val) ++ val :: before.rtakeWhile (comp val)

/-- One iteration of the loop of `__insertion_sort`. -/
def insertionStep {α : Type} (comp : α → α → Bool) (before : List α) (val : α) : List α :=
  match before with
  | [] => [val]
  | first :: _ =>
    if comp val first then val :: before else unguardedLinearInsert comp before val

/-- Library `__insertion_sort(first, last, comp)` on the range `v`. -/
def insertionSort {α : Type} (comp : α → α → Bool) : List α → List α
  | [] => []
  | first :: rest => rest.foldl (insertionStep comp) [first]

/-- Library `__unguarded_insertion_sort(first, last, comp)`, where `before` is the part of the vector
in front of the range `rest`. -/
def unguardedInsertionSort {α : Type} (comp : α → α → Bool) (before rest : List α) : List α :=
  rest.foldl (unguardedLinearInsert comp) before

/-- Library `__final_insertion_sort(first, last, comp)`. -/
def finalInsertionSort {α : Type} (comp : α → α → Bool) (v : List α) : List α :=
  if v.length > S_threshold then
    unguardedInsertionSort comp (insertionSort comp (v.take S_threshold)) (v.drop S_threshold)
  else insertionSort comp v

/-- Halving loop behind `std::__lg`; the first argument bounds the number of iterations. -/
def lgLoop : Nat → Nat → Nat
  | 0, _ => 0
  | fuel + 1, n => if 2 ≤ n then lgLoop fuel (n / 2) + 1 else 0

/-- Library `std::__lg(n)`: the position of the highest set bit of `n`. -/
def lg (n : Nat) : Nat := lgLoop n n

/-- Library `std::sort(first, last, comp)` of libstdc++ (`std::__sort`). -/
def libstdcxxSort {α : Type} (comp : α → α → Bool) (v : List α) : List α :=
  if v.isEmpty then v
  else finalInsertionSort comp (introsortLoop comp (lg v.length * 2) v)

/-! ## `splitDonationToOrders` -/

/-- Source `splitDonationToOrders`, steps 1 to 4: the value is the donation and the processed
orders that step 5 hands to `saveResults`, or the failure that ends the run before step 5. -/
def splitDonationToOrders (fp : Fpu) (extract : String → Option Data)
    (sortImpl : {α : Type} → (α → α → Bool) → List α → List α)
    (donationFile ordersFile : Option (List String)) :
    Except Failure (Donation × List Order) := do
  let donation ← readDonation extract donationFile
  let orders ← readOrders extract ordersFile donation.productId
  let ranked ← calculateRanks fp orders donation
  splitStep4 donation (sortOrders sortImpl ranked)

/-! ## Stream extraction of GNU libstdc++ (`bits/istream.tcc`, `bits/locale_facets.tcc`)

The concrete `extract` of the readers: `operator>>` on an `istringstream` in the "C" locale with
the default flags (`skipws`, `dec`).  The remaining input is a list of characters; an extraction
returns `none` when it sets `failbit`. -/

/-- Whitespace of the "C" locale (`isspace`). -/
def isSpaceChar (c : Char) : Bool :=
  c = ' ' ∨ c = '\t' ∨ c = '\n' ∨ c = '\x0b' ∨ c = '\x0c' ∨ c = '\r'

/-- The sentry of a formatted extraction: skips leading whitespace. -/
def skipWhitespace (s : List Char) : List Char := s.dropWhile isSpaceChar

/-- Library `_M_find(lit_zero, 10, c)`: the value of a decimal digit. -/
def digitValue (c : Char) : Option Nat :=
  if '0' ≤ c ∧ c ≤ '9' then some (c.toNat - '0'.toNat) else none

/-- State of the loops of `_M_extract_int`. -/
structure IntScan where
  result : Nat
  overflow : Bool
  sepPos : Nat
  rest : List Char

/-- The digit loop of `_M_extract_int` in the "C" locale, base 10; `max` is the largest
magnitude and `modulus` the number of values of the unsigned type holding `result`. -/
def scanDigits (max modulus : Nat) : List Char → Nat → Bool → Nat → IntScan
  | [], result, overflow, sepPos => ⟨result, overflow, sepPos, []⟩
  | c :: cs, result, overflow, sepPos =>
    match digitValue c with
    | none => ⟨result, overflow, sepPos, c :: cs⟩
    | some digit =>
      if result > max / 10 then scanDigits max modulus cs result true sepPos
      else
        scanDigits max modulus cs ((result * 10 + digit) % modulus)
          (overflow || decide (result * 10 > max - digit)) (sepPos + 1)

/-- The leading-zero loop of `_M_extract_int` for base 10: returns `found_zero`, `sep_pos`
and the remaining characters. -/
def scanZeros : List Char → Bool → Nat → Bool × Nat × List Char
  | '0' :: cs, _, sepPos => scanZeros cs true (sepPos + 1)
  | s, foundZero, sepPos => (foundZero, sepPos, s)

/-- Library `_M_extract_int` for base 10 in the "C" locale, after the sentry: `none` when
`failbit` is set, otherwise the sign, the magnitude and the remaining characters. -/
def extractIntMagnitude (maxPos maxNeg modulus : Nat) (s : List Char) :
    Option (Bool × Nat × List Char) :=
  let negative := s.head? = some '-'
  let afterSign := if s.head? = some '-' ∨ s.head? = some '+' then s.tail else s
  let zeros := scanZeros afterSign false 0
  let scan := scanDigits (if negative then maxNeg else maxPos) modulus zeros.2.2 0 false
    zeros.2.1
  if scan.sepPos = 0 ∧ zeros.1 = false then none
  else if scan.overflow then none
  else some (negative, scan.result, scan.rest)

/-- Source `ss >> x` for `unsigned int x`. -/
def extractUnsigned (s : List Char) : Option (Nat × List Char) :=
  match skipWhitespace s with
  | [] => none
  | t =>
    match extractIntMagnitude 4294967295 4294967295 4294967296 t with
    | none => none
    | some (negative, result, rest) =>
      some (if negative then (4294967296 - result) % 4294967296 else result, rest)

/-- Source `ss >> x` for `int x`: a `long` is extracted and has to lie in the range of `int`. -/
def extractInt (s : List Char) : Option (Int × List Char) :=
  match skipWhitespace s with
  | [] => none
  | t =>
    match extractIntMagnitude 9223372036854775807 9223372036854775808 18446744073709551616 t with
    | none => none
    | some (negative, result, rest) =>
      let l : Int := if negative then -(result : Int) else (result : Int)
      if l < -2147483648 ∨ 2147483647 < l then none else some (l, rest)

/-- State of the loop of `_M_extract_float`. -/
structure FloatScan where
  xtrc : List Char
  foundMantissa : Bool
  foundDec : Bool
  foundSci : Bool

/-- The main loop of `_M_extract_float` in the "C" locale: returns the collected characters
and the remaining input. -/
def scanFloat : List Char → FloatScan → List Char × List Char
  | [], st => (st.xtrc, [])
  | c :: cs, st =>
    if (digitValue c).isSome then
      scanFloat cs { st with xtrc := st.xtrc ++ [c], foundMantissa := true }
    else if c = '.' ∧ st.foundDec = false ∧ st.foundSci = false then
      scanFloat cs { st with xtrc := st.xtrc ++ ['.'], foundDec := true }
    else if (c = 'e' ∨ c = 'E') ∧ st.foundSci = false ∧ st.foundMantissa = true then
      match cs with
      | [] => (st.xtrc ++ ['e'], [])
      | d :: ds =>
        if d = '+' ∨ d = '-' then
          scanFloat ds { st with xtrc := st.xtrc ++ ['e', d], foundSci := true }
        else scanFloat (d :: ds) { st with xtrc := st.xtrc ++ ['e'], foundSci := true }
    else (st.xtrc, c :: cs)

/-- Library `_M_extract_float` in the "C" locale, after the sentry. -/
def extractFloatChars (s : List Char) : List Char × List Char :=
  let sign := if s.head? = some '+' ∨ s.head? = some '-' then s.take 1 else []
  let afterSign := if s.head? = some '+' ∨ s.head? = some '-' then s.tail else s
  let afterZeros := afterSign.dropWhile (fun c => c = '0')
  let foundZero := decide (afterZeros.length < afterSign.length)
  scanFloat afterZeros
    ⟨sign ++ (if foundZero then ['0'] else []), foundZero, false, false⟩

/-- A decimal floating literal: sign, the digits of the mantissa read as a natural number and
the power of ten that scales it. -/
structure DecimalLiteral where
  negative : Bool
  mantissa : Nat
  exponent : Int
deriving DecidableEq, Repr

/-- Reads a run of decimal digits: value, number of digits, rest. -/
def readDigits : List Char → Nat → Nat → Nat × Nat × List Char
  | [], value, count => (value, count, [])
  | c :: cs, value, count =>
    match digitValue c with
    | some d => readDigits cs (value * 10 + d) (count + 1)
    | none => (value, count, c :: cs)

/-- Library `strtod` on the characters collected by `_M_extract_float`, required to use all
of them: `[sign] digits [. digits] [e [sign] digits]` with at least one mantissa digit. -/
def parseDecimal (s : List Char) : Option DecimalLiteral :=
  let negative := s.head? = some '-'
  let afterSign := if s.head? = some '+' ∨ s.head? = some '-' then s.tail else s
  let intPart := readDigits afterSign 0 0
  let fracPart :=
    match intPart.2.2 with
    | '.' :: cs => readDigits cs intPart.1 0
    | cs => (intPart.1, 0, cs)
  if intPart.2.1 + fracPart.2.1 = 0 then none
  else
    match fracPart.2.2 with
    | [] => some ⟨negative, fracPart.1, -(fracPart.2.1 : Int)⟩
    | 'e' :: cs =>
      let expNegative := cs.head? = some '-'
      let afterExpSign := if cs.head? = some '+' ∨ cs.head? = some '-' then cs.tail else cs
      let expPart := readDigits afterExpSign 0 0
      if expPart.2.1 = 0 ∨ expPart.2.2 ≠ [] then none
      else some ⟨negative, fracPart.1,
        (if expNegative then -(expPart.1 : Int) else (expPart.1 : Int)) - (fracPart.2.1 : Int)⟩
    | _ => none

/-- Source `ss >> x` for `double x`, up to the conversion of the literal to a `double`. -/
def extractDecimal (s : List Char) : Option (DecimalLiteral × List Char) :=
  match skipWhitespace s with
  | [] => none
  | t =>
    match parseDecimal (extractFloatChars t).1 with
    | none => none
    | some lit => some (lit, (extractFloatChars t).2)

/-- The six values of a `Data line` before the conversion of the coordinates. -/
structure RawLine where
  id : Nat
  productId : Nat
  quantity : Nat
  x : DecimalLiteral
  y : DecimalLiteral
  timestamp : Int
deriving DecidableEq, Repr

/-- The extraction `ss >> id >> productId >> quantity >> latitude >> longitude >> timestamp`. -/
def scanLine (line : String) : Option RawLine :=
  match extractUnsigned line.data with
  | none => none
  | some (id, s1) =>
    match extractUnsigned s1 with
    | none => none
    | some (productId, s2) =>
      match extractUnsigned s2 with
      | none => none
      | some (quantity, s3) =>
        match extractDecimal s3 with
        | none => none
        | some (x, s4) =>
          match extractDecimal s4 with
          | none => none
          | some (y, s5) =>
            match extractInt s5 with
            | none => none
            | some (timestamp, _) => some ⟨id, productId, quantity, x, y, timestamp⟩

/-- The exact value of a decimal literal. -/
def DecimalLiteral.value (l : DecimalLiteral) : ℚ :=
  (if l.negative then -1 else 1) * (l.mantissa : ℚ) * (10 : ℚ) ^ l.exponent

/-- The `double` that `strtod` returns for a literal; an infinity (`HUGE_VAL`) makes the
extraction set `failbit`. -/
def DecimalLiteral.toDbl (fp : Fpu) (l : DecimalLiteral) : Option Dbl :=
  match Dbl.ofExact fp l.value with
  | .fin q => some (.fin q)
  | _ => none

/-- The stream extraction of one line with the record built from the six values
(`Data(id, productId, quantity, timestamp, latitude, longitude)`). -/
def extractLine (fp : Fpu) (line : String) : Option Data :=
  match scanLine line with
  | none => none
  | some raw =>
    match raw.x.toDbl fp, raw.y.toDbl fp with
    | some x, some y =>
      some { id := raw.id, productId := raw.productId, quantity := raw.quantity,
             timestamp := raw.timestamp, location := ⟨x, y⟩ }
    | _, _ => none

/-! ## Concrete records used in the examples -/

/-- A record at the origin with the given id, product, quantity and timestamp. -/
def mkData (id productId quantity : Nat) (timestamp : Int) : Data :=
  { id := id, productId := productId, quantity := quantity, timestamp := timestamp,
    location := ⟨.fin 0, .fin 0⟩ }

/-- An order at the origin with the given id, quantity and rank (product 1, timestamp 0). -/
def mkOrder (id quantity : Nat) (rank : Int) : Order :=
  { mkData id 1 quantity 0 with rank := rank }

/-- Seventeen orders of equal rank, ids 0 to 16 in input order. -/
def tiedOrders : List Order := (List.range 17).map (fun i => mkOrder i 1 0)

/-- A record at `(x, 0)` with the given id, product, quantity and timestamp. -/
def mkDataAt (id productId quantity : Nat) (timestamp : Int) (x : ℚ) : Data :=
  { id := id, productId := productId, quantity := quantity, timestamp := timestamp,
    location := ⟨.fin x, .fin 0⟩ }

/-- A record at `(x, y)` with the given id, product, quantity and timestamp. -/
def mkDataXY (id productId quantity : Nat) (timestamp : Int) (x y : ℚ) : Data :=
  { id := id, productId := productId, quantity := quantity, timestamp := timestamp,
    location := ⟨.fin x, .fin y⟩ }

/-- The `double` nearest to `10000 / 7`, written `1428.5714285714287` in decimal:
`6282923587291429 * 2 ^ (-42)`.  `5000` divided by it is just below `3.5`. -/
def halfwayDistance : ℚ := 6282923587291429 / 4398046511104

/-- A stream extraction for the examples: it knows four lines. -/
def sampleExtract (line : String) : Option Data :=
  if line = "1 1 15 0 0 100" then some (mkDataAt 1 1 15 100 0)
  else if line = "2 1 5 1 0 40" then some (mkDataAt 2 1 5 40 1)
  else if line = "3 1 20 2 0 50" then some (mkDataAt 3 1 20 50 2)
  else if line = "4 7 9 1 0 10" then some (mkDataAt 4 7 9 10 1)
  else none

/-! ## Machine arithmetic lemmas -/

theorem usub_of_le {a b : Nat} (hb : b ≤ a) (ha : a < UINT_RANGE) : usub a b = a - b := by
  unfold usub UINT_RANGE at *
  omega

theorem totalQuantity_cons (o : Order) (rest : List Order) :
    totalQuantity (o :: rest) = o.quantity + totalQuantity rest := by
  simp [totalQuantity]

theorem quantitiesInRange_cons {o : Order} {rest : List Order}
    (h : QuantitiesInRange (o :: rest)) : o.quantity < UINT_RANGE ∧ QuantitiesInRange rest :=
  ⟨h o (List.mem_cons_self o rest), fun x hx => h x (List.mem_cons_of_mem o hx)⟩

/-! ## The allocation loop in closed form -/

/-- When the remaining orders request less than the donation holds, the loop visits all of them,
zeroes each, and leaves the difference in the donation; `lastIndex` is advanced once per order. -/
theorem allocLoop_of_total_lt (orders : List Order) :
    ∀ (donation : Donation) (lastIndex : Nat),
      QuantitiesInRange orders → donation.quantity < UINT_RANGE →
      totalQuantity orders < donation.quantity →
      allocLoop donation lastIndex orders =
        ⟨{ donation with quantity := donation.quantity - totalQuantity orders },
          lastIndex + orders.length, orders.map (fun o => { o with quantity := 0 })⟩ := by
  induction orders with
  | nil => intro donation lastIndex _ _ _; simp [allocLoop, totalQuantity]
  | cons o rest ih =>
    intro donation lastIndex hr hd ht
    obtain ⟨_, hrest⟩ := quantitiesInRange_cons hr
    rw [totalQuantity_cons] at ht
    have ho : o.quantity < donation.quantity := by omega
    have hsub : usub donation.quantity o.quantity = donation.quantity - o.quantity :=
      usub_of_le (Nat.le_of_lt ho) hd
    have hstep := ih { donation with quantity := donation.quantity - o.quantity }
      (lastIndex + 1) hrest (by show donation.quantity - o.quantity < UINT_RANGE; omega)
      (by show totalQuantity rest < donation.quantity - o.quantity; omega)
    simp only [allocLoop, if_pos ho, hsub, hstep, totalQuantity_cons, List.length_cons,
      List.map_cons, Nat.sub_add_eq]
    congr 1
    omega

/-- When the walk reaches an order `o` that the remaining supply does not exceed (the orders
`pre` before it were all served), the loop stops there: the orders of `pre` are zeroed, `o` keeps
the unmet part, the orders after it are untouched and the donation is emptied. -/
theorem allocLoop_of_stop (pre : List Order) (o : Order) (post : List Order) :
    ∀ (donation : Donation) (lastIndex : Nat),
      QuantitiesInRange (pre ++ o :: post) → donation.quantity < UINT_RANGE →
      (pre ≠ [] → totalQuantity pre < donation.quantity) →
      donation.quantity ≤ totalQuantity pre + o.quantity →
      allocLoop donation lastIndex (pre ++ o :: post) =
        ⟨{ donation with quantity := 0 }, lastIndex + pre.length,
          pre.map (fun p => { p with quantity := 0 }) ++
            { o with quantity := o.quantity - (donation.quantity - totalQuantity pre) } ::
              post⟩ := by
  induction pre with
  | nil =>
    intro donation lastIndex hr hd _ hle
    have hoR : o.quantity < UINT_RANGE := (quantitiesInRange_cons hr).1
    have hle2 : donation.quantity ≤ o.quantity := by simpa [totalQuantity] using hle
    have hno : ¬ o.quantity < donation.quantity := by omega
    simp [allocLoop, if_neg hno, usub_of_le hle2 hoR, totalQuantity]
  | cons p pre ih =>
    intro donation lastIndex hr hd hpre hle
    obtain ⟨_, hrest⟩ := quantitiesInRange_cons hr
    have ht := hpre (List.cons_ne_nil p pre)
    rw [totalQuantity_cons] at ht hle
    have hp : p.quantity < donation.quantity := by omega
    have hsub : usub donation.quantity p.quantity = donation.quantity - p.quantity :=
      usub_of_le (Nat.le_of_lt hp) hd
    have hstep := ih { donation with quantity := donation.quantity - p.quantity }
      (lastIndex + 1) hrest (by show donation.quantity - p.quantity < UINT_RANGE; omega)
      (by
        intro _
        show totalQuantity pre < donation.quantity - p.quantity
        omega)
      (by show donation.quantity - p.quantity ≤ totalQuantity pre + o.quantity; omega)
    show allocLoop donation lastIndex (p :: (pre ++ o :: post)) = _
    rw [allocLoop, if_pos hp, hsub, hstep]
    simp only [totalQuantity_cons, List.length_cons, List.map_cons, Nat.sub_add_eq,
      List.cons_append]
    congr 1
    omega

/-- Step 4 on a list whose walk stops at `o`: the processed list is the served orders followed
by `o`, and the truncation index `1 + pre.length` lies inside the vector. -/
theorem splitStep4_of_stop (pre : List Order) (o : Order) (post : List Order)
    (donation : Donation) (hr : QuantitiesInRange (pre ++ o :: post))
    (hd : donation.quantity < UINT_RANGE)
    (hpre : pre ≠ [] → totalQuantity pre < donation.quantity)
    (hle : donation.quantity ≤ totalQuantity pre + o.quantity) :
    splitStep4 donation (pre ++ o :: post) =
      .ok ({ donation with quantity := 0 },
        pre.map (fun p => { p with quantity := 0 }) ++
          [{ o with quantity := o.quantity - (donation.quantity - totalQuantity pre) }]) := by
  have hlen : 1 + pre.length ≤
      (pre.map (fun p : Order => { p with quantity := 0 }) ++
        { o with quantity := o.quantity - (donation.quantity - totalQuantity pre) } ::
          post).length := by
    simp only [List.length_append, List.length_map, List.length_cons]
    omega
  have htake : (pre.map (fun p : Order => { p with quantity := 0 }) ++
        { o with quantity := o.quantity - (donation.quantity - totalQuantity pre) } ::
          post).take (1 + pre.length) =
      pre.map (fun p => { p with quantity := 0 }) ++
        [{ o with quantity := o.quantity - (donation.quantity - totalQuantity pre) }] := by
    rw [List.take_append_eq_append_take]
    simp [List.take_of_length_le, Nat.add_sub_cancel]
  simp only [splitStep4, allocLoop_of_stop pre o post donation 1 hr hd hpre hle, eraseFrom,
    if_pos hlen, htake]

/-- Step 4 on a list that requests less than the donation holds: the counter ends one past the
size of the vector, so the truncation is undefined. -/
theorem splitStep4_of_total_lt (donation : Donation) (orders : List Order)
    (hr : QuantitiesInRange orders) (hd : donation.quantity < UINT_RANGE)
    (ht : totalQuantity orders < donation.quantity) :
    splitStep4 donation orders = .error .undefinedBehaviour := by
  have hlen : ¬ 1 + orders.length ≤
      (orders.map (fun o : Order => { o with quantity := 0 })).length := by
    simp
  simp only [splitStep4, allocLoop_of_total_lt orders donation 1 hr hd ht, eraseFrom,
    if_neg hlen]

/-- A non-empty list that requests at least what the donation holds has a first order at which
the walk stops. -/
theorem exists_stop (orders : List Order) :
    ∀ (supply : Nat), orders ≠ [] → supply ≤ totalQuantity orders →
      ∃ pre o post, orders = pre ++ o :: post ∧
        (pre ≠ [] → totalQuantity pre < supply) ∧ supply ≤ totalQuantity pre + o.quantity := by
  induction orders with
  | nil => intro _ h; exact absurd rfl h
  | cons a rest ih =>
    intro supply _ hle
    rw [totalQuantity_cons] at hle
    by_cases ha : supply ≤ a.quantity
    · exact ⟨[], a, rest, rfl, fun h => absurd rfl h, by simpa [totalQuantity] using ha⟩
    · have hrest : rest ≠ [] := by
        rintro rfl
        simp [totalQuantity] at hle
        omega
      obtain ⟨pre, o, post, heq, hpre, hstop⟩ := ih (supply - a.quantity) hrest (by omega)
      refine ⟨a :: pre, o, post, by simp [heq], ?_, ?_⟩
      · intro _
        rw [totalQuantity_cons]
        by_cases hp : pre = []
        · subst hp
          simp [totalQuantity]
          omega
        · have := hpre hp
          omega
      · rw [totalQuantity_cons]
        omega

/-- Amount received by a served prefix followed by the stopping order. -/
theorem fulfilledAmount_of_stop (pre : List Order) (o : Order) (post : List Order)
    (left : Nat) :
    fulfilledAmount (pre ++ o :: post)
      (pre.map (fun p => { p with quantity := 0 }) ++ [{ o with quantity := left }]) =
      (totalQuantity pre : Int) + ((o.quantity : Int) - (left : Int)) := by
  induction pre with
  | nil => simp [fulfilledAmount, totalQuantity]
  | cons p pre ih =>
    simp only [fulfilledAmount, List.cons_append, List.map_cons, List.zip_cons_cons,
      List.sum_cons, totalQuantity_cons] at ih ⊢
    rw [ih]
    push_cast
    ring

theorem totalQuantity_append (l₁ l₂ : List Order) :
    totalQuantity (l₁ ++ l₂) = totalQuantity l₁ + totalQuantity l₂ := by
  simp [totalQuantity]

/-! ## Claims about step 4 -/

/-- C1 (conservation).  For a donation and a ranked list with quantities in `unsigned int` range,
step 4 yields a donation and a processed list with
`final donation quantity + Σ (original - final) = original donation quantity`
exactly when the list is non-empty and requests at least the donation's quantity (the walk
stops); for every other input the truncation `erase(begin() + lastIndex, end())` is undefined and
no processed list exists. -/
theorem conservation_after_step4_iff (donation : Donation) (orders : List Order)
    (hd : donation.quantity < UINT_RANGE) (hr : QuantitiesInRange orders) :
    (∃ d processed, splitStep4 donation orders = .ok (d, processed) ∧
        (d.quantity : Int) + fulfilledAmount orders processed = (donation.quantity : Int)) ↔
      (orders ≠ [] ∧ donation.quantity ≤ totalQuantity orders) := by
  constructor
  · rintro ⟨d, processed, hok, _⟩
    by_cases hlt : totalQuantity orders < donation.quantity
    · rw [splitStep4_of_total_lt donation orders hr hd hlt] at hok
      exact absurd hok (by simp)
    · refine ⟨?_, by omega⟩
      rintro rfl
      simp [splitStep4, allocLoop, eraseFrom] at hok
  · rintro ⟨hne, hle⟩
    obtain ⟨pre, o, post, heq, hpre, hstop⟩ := exists_stop orders donation.quantity hne hle
    subst heq
    refine ⟨_, _, splitStep4_of_stop pre o post donation hr hd hpre hstop, ?_⟩
    rw [fulfilledAmount_of_stop]
    by_cases hp : pre = []
    · subst hp
      simp only [totalQuantity, List.map_nil, List.sum_nil, Nat.sub_zero, Nat.zero_add] at hstop ⊢
      push_cast
      omega
    · have := hpre hp
      push_cast
      omega

/-- C1 at the input donation quantity 10, one order of quantity 5: the loop ends with donation
quantity 5 and `lastIndex = 2` on a vector of size 1, the truncation is undefined, and so there is
no processed list for which conservation could hold. -/
theorem conservation_after_step4_iff_witness :
    allocLoop (mkData 1 1 10 0) 1 [mkOrder 2 5 0] = ⟨mkData 1 1 5 0, 2, [mkOrder 2 0 0]⟩ ∧
    splitStep4 (mkData 1 1 10 0) [mkOrder 2 5 0] = .error .undefinedBehaviour ∧
    ¬ ∃ d processed, splitStep4 (mkData 1 1 10 0) [mkOrder 2 5 0] = .ok (d, processed) ∧
        (d.quantity : Int) + fulfilledAmount [mkOrder 2 5 0] processed =
          ((mkData 1 1 10 0).quantity : Int) := by
  refine ⟨rfl, rfl, fun h => ?_⟩
  have hiff := conservation_after_step4_iff (mkData 1 1 10 0) [mkOrder 2 5 0]
    (by decide) (by intro o ho; simp at ho; subst ho; decide)
  have h2 := (hiff.mp h).2
  revert h2
  decide

/-- C2 (cut point when supply runs out).  If `i` is the first index with
`q_0 + ... + q_i ≥ S`, step 4 is defined, the processed list is exactly the orders `0..i` in
ranked order (the first `i` with quantity 0, order `i` with unmet quantity
`q_i - (S - (q_0 + ... + q_{i-1}))`), and the donation's final quantity is 0. -/
theorem cut_point_when_supply_runs_out (donation : Donation) (orders : List Order) (i : Nat)
    (hd : donation.quantity < UINT_RANGE) (hr : QuantitiesInRange orders)
    (hi : i < orders.length)
    (hreach : donation.quantity ≤ totalQuantity (orders.take (i + 1)))
    (hfirst : ∀ j, j < i → totalQuantity (orders.take (j + 1)) < donation.quantity) :
    splitStep4 donation orders =
      .ok ({ donation with quantity := 0 },
        (orders.take i).map (fun o => { o with quantity := 0 }) ++
          [{ orders[i] with
              quantity := orders[i].quantity -
                (donation.quantity - totalQuantity (orders.take i)) }]) := by
  have hsplit : orders.take i ++ orders[i] :: orders.drop (i + 1) = orders := by
    rw [← List.drop_eq_getElem_cons hi, List.take_append_drop]
  have htake : orders.take (i + 1) = orders.take i ++ [orders[i]] := by
    rw [List.take_succ, List.getElem?_eq_getElem hi]
    rfl
  have hle : donation.quantity ≤ totalQuantity (orders.take i) + orders[i].quantity := by
    rw [htake, totalQuantity_append] at hreach
    simpa [totalQuantity] using hreach
  have hpre : orders.take i ≠ [] → totalQuantity (orders.take i) < donation.quantity := by
    intro hne
    cases i with
    | zero => simp at hne
    | succ j => exact hfirst j (Nat.lt_succ_self j)
  have h := splitStep4_of_stop (orders.take i) orders[i] (orders.drop (i + 1)) donation
    (by rw [hsplit]; exact hr) hd hpre hle
  rwa [hsplit] at h

/-- C2 at the boundary of the spec: donation quantity 10 and a single order of quantity 10 give
the processed list [order with remaining 0] and donation remaining 0. -/
theorem cut_point_when_supply_runs_out_witness :
    splitStep4 (mkData 1 1 10 0) [mkOrder 2 10 0] = .ok (mkData 1 1 0 0, [mkOrder 2 0 0]) :=
  cut_point_when_supply_runs_out (mkData 1 1 10 0) [mkOrder 2 10 0] 0 (by decide)
    (by intro o ho; simp at ho; subst ho; decide) (by decide) (by decide)
    (fun j hj => absurd hj (Nat.not_lt_zero j))

/-- C3 (exhausted sequence).  For a list that requests less than the donation holds, the loop
zeroes every order and leaves `S - total > 0` in the donation, but the counter `lastIndex` ends
at `size + 1`: `begin() + lastIndex` is not an iterator of the vector, the truncation is
undefined, and step 4 yields no processed list. -/
theorem exhausted_sequence_truncation_undefined (donation : Donation) (orders : List Order)
    (hd : donation.quantity < UINT_RANGE) (hr : QuantitiesInRange orders)
    (ht : totalQuantity orders < donation.quantity) :
    allocLoop donation 1 orders =
        ⟨{ donation with quantity := donation.quantity - totalQuantity orders },
          1 + orders.length, orders.map (fun o => { o with quantity := 0 })⟩ ∧
      0 < donation.quantity - totalQuantity orders ∧
      (allocLoop donation 1 orders).orders.length < (allocLoop donation 1 orders).lastIndex ∧
      eraseFrom (allocLoop donation 1 orders).orders (allocLoop donation 1 orders).lastIndex =
        .error .undefinedBehaviour ∧
      splitStep4 donation orders = .error .undefinedBehaviour := by
  have hloop := allocLoop_of_total_lt orders donation 1 hr hd ht
  refine ⟨hloop, by omega, ?_, ?_, splitStep4_of_total_lt donation orders hr hd ht⟩
  · rw [hloop]
    simp
  · rw [hloop]
    simp [eraseFrom]

/-- C3 at donation quantity 20 with orders of quantity 5 and 7: both are zeroed, 8 is left,
`lastIndex = 3` on a vector of size 2. -/
theorem exhausted_sequence_truncation_undefined_witness :
    allocLoop (mkData 1 1 20 0) 1 [mkOrder 2 5 0, mkOrder 3 7 0] =
        ⟨mkData 1 1 8 0, 3, [mkOrder 2 0 0, mkOrder 3 0 0]⟩ ∧
      splitStep4 (mkData 1 1 20 0) [mkOrder 2 5 0, mkOrder 3 7 0] =
        .error .undefinedBehaviour := by
  have h := exhausted_sequence_truncation_undefined (mkData 1 1 20 0)
    [mkOrder 2 5 0, mkOrder 3 7 0] (by decide)
    (by intro o ho; simp at ho; rcases ho with rfl | rfl <;> decide) (by decide)
  exact ⟨h.1, h.2.2.2.2⟩

/-- C4 (empty demand).  With no orders the loop leaves the donation untouched and
`lastIndex = 1`, but the vector is empty, so `erase(begin() + 1, end())` is undefined: step 4
yields no processed list for any donation. -/
theorem empty_demand_truncation_undefined (donation : Donation) :
    allocLoop donation 1 [] = ⟨donation, 1, []⟩ ∧
      eraseFrom ([] : List Order) 1 = .error .undefinedBehaviour ∧
      splitStep4 donation [] = .error .undefinedBehaviour :=
  ⟨rfl, rfl, rfl⟩

/-- C10 (no wrap-around).  Every unsigned subtraction of the allocation loop has a minuend not
smaller than its subtrahend (strictly larger in the fulfilling branch), so the 32-bit result is
the exact difference; the donation's final quantity and every order's final quantity are at most
their original values. -/
theorem quantities_never_wrap (orders : List Order) :
    ∀ (donation : Donation) (lastIndex : Nat),
      donation.quantity < UINT_RANGE → QuantitiesInRange orders →
      (∀ s ∈ allocSubtractions donation orders,
          s.subtrahend ≤ s.minuend ∧ s.minuend < UINT_RANGE ∧
          usub s.minuend s.subtrahend + s.subtrahend = s.minuend ∧
          (∀ d o, s = .donationMinusOrder d o → o < d)) ∧
        (allocLoop donation lastIndex orders).donation.quantity ≤ donation.quantity ∧
        List.Forall₂ (fun final original : Order => final.quantity ≤ original.quantity)
          (allocLoop donation lastIndex orders).orders orders := by
  induction orders with
  | nil =>
    intro donation lastIndex _ _
    simp [allocSubtractions, allocLoop]
  | cons o rest ih =>
    intro donation lastIndex hd hr
    obtain ⟨hoR, hrest⟩ := quantitiesInRange_cons hr
    by_cases ho : o.quantity < donation.quantity
    · have hsub : usub donation.quantity o.quantity = donation.quantity - o.quantity :=
        usub_of_le (Nat.le_of_lt ho) hd
      obtain ⟨h1, h2, h3⟩ := ih { donation with quantity := donation.quantity - o.quantity }
        (lastIndex + 1) (by show donation.quantity - o.quantity < UINT_RANGE; omega) hrest
      simp only [allocSubtractions, allocLoop, if_pos ho, hsub]
      refine ⟨?_, ?_, ?_⟩
      · intro s hs
        rcases List.mem_cons.mp hs with rfl | hs
        · refine ⟨Nat.le_of_lt ho, hd, ?_, ?_⟩
          · simp only [Subtraction.minuend, Subtraction.subtrahend, hsub]
            omega
          · intro d o' h
            cases h
            exact ho
        · exact h1 s hs
      · exact Nat.le_trans h2 (Nat.sub_le _ _)
      · exact List.Forall₂.cons (Nat.zero_le _) h3
    · have hle : donation.quantity ≤ o.quantity := Nat.le_of_not_lt ho
      simp only [allocSubtractions, allocLoop, if_neg ho, usub_of_le hle hoR]
      refine ⟨?_, Nat.zero_le _, ?_⟩
      · intro s hs
        rw [List.mem_singleton] at hs
        subst hs
        refine ⟨hle, hoR, ?_, ?_⟩
        · simp only [Subtraction.minuend, Subtraction.subtrahend, usub_of_le hle hoR]
          omega
        · intro d o' h
          cases h
      · exact List.Forall₂.cons (Nat.sub_le _ _) (List.forall₂_same.mpr fun _ _ => Nat.le_refl _)

/-- C10 at donation quantity 15 with orders of quantity 5 and 20: the loop computes `15 - 5` and
`20 - 10`, and ends with donation 0 and orders 0 and 10. -/
theorem quantities_never_wrap_witness :
    allocSubtractions (mkData 1 1 15 0) [mkOrder 2 5 0, mkOrder 3 20 0] =
        [.donationMinusOrder 15 5, .orderMinusDonation 20 10] ∧
      (allocLoop (mkData 1 1 15 0) 1 [mkOrder 2 5 0, mkOrder 3 20 0]).donation.quantity ≤ 15 ∧
      List.Forall₂ (fun final original : Order => final.quantity ≤ original.quantity)
        (allocLoop (mkData 1 1 15 0) 1 [mkOrder 2 5 0, mkOrder 3 20 0]).orders
        [mkOrder 2 5 0, mkOrder 3 20 0] := by
  have h := quantities_never_wrap [mkOrder 2 5 0, mkOrder 3 20 0] (mkData 1 1 15 0) 1
    (by decide) (by intro o ho; simp at ho; rcases ho with rfl | rfl <;> decide)
  exact ⟨rfl, h.2.1, h.2.2⟩

/-! ## Strict weak orderings and sortedness -/

theorem StrictWeakOrdering.asymm {α : Type} {comp : α → α → Bool}
    (h : StrictWeakOrdering comp) {a b : α} (hab : comp a b = true) : comp b a = false := by
  cases hba : comp b a with
  | false => rfl
  | true =>
    have := h.2.1 a b a hab hba
    rw [h.1 a] at this
    exact absurd this (by simp)

/-- The complement of a strict weak ordering is transitive. -/
theorem StrictWeakOrdering.negTrans {α : Type} {comp : α → α → Bool}
    (h : StrictWeakOrdering comp) {a b c : α} (hab : comp a b = false)
    (hbc : comp b c = false) : comp a c = false := by
  cases hac : comp a c with
  | false => rfl
  | true =>
    cases hba : comp b a with
    | true =>
      have := h.2.1 b a c hba hac
      rw [hbc] at this
      exact absurd this (by simp)
    | false =>
      cases hcb : comp c b with
      | true =>
        have := h.2.1 a c b hac hcb
        rw [hab] at this
        exact absurd this (by simp)
      | false =>
        have := (h.2.2 a b c ⟨hab, hba⟩ ⟨hbc, hcb⟩).1
        rw [hac] at this
        exact absurd this (by simp)

/-- The comparison of step 3 meets the requirement of `std::sort`. -/
theorem rankGreater_strictWeakOrdering : StrictWeakOrdering rankGreater := by
  refine ⟨?_, ?_, ?_⟩
  · intro a
    simp [rankGreater]
  · intro a b c hab hbc
    simp only [rankGreater, decide_eq_true_eq] at *
    omega
  · intro a b c hab hbc
    simp only [rankGreater, decide_eq_false_iff_not] at *
    constructor <;> omega

theorem rdropWhile_append_rtakeWhile {α : Type} (p : α → Bool) (l : List α) :
    l.rdropWhile p ++ l.rtakeWhile p = l := by
  have h := congrArg List.reverse (List.takeWhile_append_dropWhile p l.reverse)
  rw [List.reverse_append, List.reverse_reverse] at h
  exact h

theorem unguardedLinearInsert_perm {α : Type} (comp : α → α → Bool) (before : List α)
    (val : α) : (unguardedLinearInsert comp before val).Perm (val :: before) := by
  unfold unguardedLinearInsert
  have h := rdropWhile_append_rtakeWhile (comp val) before
  calc before.rdropWhile (comp val) ++ val :: before.rtakeWhile (comp val)
      |>.Perm (val :: (before.rdropWhile (comp val) ++ before.rtakeWhile (comp val))) :=
        List.perm_middle
    _ = val :: before := by rw [h]

theorem unguardedLinearInsert_sorted {α : Type} {comp : α → α → Bool}
    (h : StrictWeakOrdering comp) (before : List α) (val : α)
    (hs : before.Pairwise (fun a b => comp b a = false)) :
    (unguardedLinearInsert comp before val).Pairwise (fun a b => comp b a = false) := by
  unfold unguardedLinearInsert
  have happ := rdropWhile_append_rtakeWhile (comp val) before
  rw [← happ, List.pairwise_append] at hs
  obtain ⟨hkeep, hshift, hcross⟩ := hs
  have hval : ∀ k ∈ before.rdropWhile (comp val), comp val k = false := by
    intro k hk
    have hne : before.rdropWhile (comp val) ≠ [] := List.ne_nil_of_mem hk
    have hlast := List.rdropWhile_last_not (comp val) before hne
    have hlast' : comp val ((before.rdropWhile (comp val)).getLast hne) = false := by
      simpa using hlast
    have hsplit := List.dropLast_append_getLast hne
    rw [← hsplit, List.mem_append] at hk
    rcases hk with hk | hk
    · rw [← hsplit, List.pairwise_append] at hkeep
      have := hkeep.2.2 k hk _ (List.mem_singleton_self _)
      exact h.negTrans hlast' this
    · rw [List.mem_singleton] at hk
      rw [hk]
      exact hlast'
  rw [List.pairwise_append]
  refine ⟨hkeep, ?_, ?_⟩
  · rw [List.pairwise_cons]
    refine ⟨fun s hs => ?_, hshift⟩
    exact h.asymm (List.mem_rtakeWhile_imp hs)
  · intro k hk b hb
    rcases List.mem_cons.mp hb with rfl | hb
    · exact hval k hk
    · exact hcross k hk b hb

theorem insertionStep_perm {α : Type} (comp : α → α → Bool) (before : List α) (val : α) :
    (insertionStep comp before val).Perm (val :: before) := by
  cases before with
  | nil => exact List.Perm.refl _
  | cons first rest =>
    simp only [insertionStep]
    split
    · exact List.Perm.refl _
    · exact unguardedLinearInsert_perm comp _ val

theorem insertionStep_sorted {α : Type} {comp : α → α → Bool} (h : StrictWeakOrdering comp)
    (before : List α) (val : α) (hs : before.Pairwise (fun a b => comp b a = false)) :
    (insertionStep comp before val).Pairwise (fun a b => comp b a = false) := by
  cases before with
  | nil => simp [insertionStep]
  | cons first rest =>
    simp only [insertionStep]
    split
    · rename_i hfirst
      rw [List.pairwise_cons]
      refine ⟨fun b hb => ?_, hs⟩
      cases hbv : comp b val with
      | false => rfl
      | true =>
        have hbf := h.2.1 b val first hbv hfirst
        rcases List.mem_cons.mp hb with rfl | hb
        · rw [h.1 b] at hbf
          exact absurd hbf (by simp)
        · rw [(List.pairwise_cons.mp hs).1 b hb] at hbf
          exact absurd hbf (by simp)
    · exact unguardedLinearInsert_sorted h _ val hs

theorem foldl_insert_perm {α : Type} (step : List α → α → List α)
    (hstep : ∀ acc v, (step acc v).Perm (v :: acc)) :
    ∀ (rest acc : List α), (rest.foldl step acc).Perm (acc ++ rest) := by
  intro rest
  induction rest with
  | nil => intro acc; simp
  | cons v rest ih =>
    intro acc
    rw [List.foldl_cons]
    refine (ih (step acc v)).trans ?_
    refine ((hstep acc v).append_right rest).trans ?_
    simpa using (@List.perm_middle _ v acc rest).symm

theorem foldl_insert_sorted {α : Type} {comp : α → α → Bool} (step : List α → α → List α)
    (hstep : ∀ acc v, acc.Pairwise (fun a b => comp b a = false) →
      (step acc v).Pairwise (fun a b => comp b a = false)) :
    ∀ (rest acc : List α), acc.Pairwise (fun a b => comp b a = false) →
      (rest.foldl step acc).Pairwise (fun a b => comp b a = false) := by
  intro rest
  induction rest with
  | nil => intro acc h; simpa using h
  | cons v rest ih =>
    intro acc h
    rw [List.foldl_cons]
    exact ih _ (hstep acc v h)

theorem insertionSort_perm {α : Type} (comp : α → α → Bool) (v : List α) :
    (insertionSort comp v).Perm v := by
  cases v with
  | nil => exact List.Perm.refl _
  | cons first rest =>
    simpa [insertionSort] using foldl_insert_perm _ (insertionStep_perm comp) rest [first]

theorem insertionSort_sorted {α : Type} {comp : α → α → Bool} (h : StrictWeakOrdering comp)
    (v : List α) : (insertionSort comp v).Pairwise (fun a b => comp b a = false) := by
  cases v with
  | nil => simp [insertionSort]
  | cons first rest =>
    exact foldl_insert_sorted _ (insertionStep_sorted h) rest [first] (by simp)

theorem finalInsertionSort_perm {α : Type} (comp : α → α → Bool) (v : List α) :
    (finalInsertionSort comp v).Perm v := by
  unfold finalInsertionSort
  split
  · refine (foldl_insert_perm _ (unguardedLinearInsert_perm comp) _ _).trans ?_
    refine ((insertionSort_perm comp _).append_right _).trans ?_
    rw [List.take_append_drop]
  · exact insertionSort_perm comp v

theorem finalInsertionSort_sorted {α : Type} {comp : α → α → Bool}
    (h : StrictWeakOrdering comp) (v : List α) :
    (finalInsertionSort comp v).Pairwise (fun a b => comp b a = false) := by
  unfold finalInsertionSort
  split
  · exact foldl_insert_sorted _ (unguardedLinearInsert_sorted h) _ _ (insertionSort_sorted h _)
  · exact insertionSort_sorted h v

/-! ## The libstdc++ algorithms permute the vector -/

theorem cons_set_perm {α : Type} (a b : α) :
    ∀ (t : List α) (j : Nat), t[j]? = some b → (b :: t.set j a).Perm (a :: t) := by
  intro t
  induction t with
  | nil => intro j h; simp at h
  | cons x t ih =>
    intro j h
    cases j with
    | zero =>
      simp only [List.getElem?_cons_zero, Option.some.injEq] at h
      subst h
      simpa using List.Perm.swap a x t
    | succ j =>
      simp only [List.getElem?_cons_succ] at h
      simp only [List.set_cons_succ]
      exact (List.Perm.swap x b _).trans (((ih j h).cons x).trans (List.Perm.swap a x t))

/-- Exchanging the content of two positions is a permutation. -/
theorem set_set_perm {α : Type} (a b : α) :
    ∀ (v : List α) (i j : Nat), v[i]? = some a → v[j]? = some b →
      ((v.set i b).set j a).Perm v := by
  intro v
  induction v with
  | nil => intro i j h; simp at h
  | cons x t ih =>
    intro i j hi hj
    cases i with
    | zero =>
      simp only [List.getElem?_cons_zero, Option.some.injEq] at hi
      subst hi
      cases j with
      | zero =>
        simp only [List.getElem?_cons_zero, Option.some.injEq] at hj
        subst hj
        simp
      | succ j =>
        simp only [List.getElem?_cons_succ] at hj
        simpa using cons_set_perm x b t j hj
    | succ i =>
      simp only [List.getElem?_cons_succ] at hi
      cases j with
      | zero =>
        simp only [List.getElem?_cons_zero, Option.some.injEq] at hj
        subst hj
        simpa using cons_set_perm x a t i hi
      | succ j =>
        simp only [List.getElem?_cons_succ] at hj
        simpa using (ih i j hi hj).cons x

/-- Moving the content of position `j` into the hole `i` and the held value into `j` gives a
permutation of the vector with the held value in the hole. -/
theorem set_hole_perm {α : Type} (v : List α) (i j : Nat) (p x : α) (hi : i < v.length)
    (hj : v[j]? = some p) : ((v.set i p).set j x).Perm (v.set i x) := by
  by_cases hij : i = j
  · subst hij
    rw [List.set_set]
  · have h1 : (v.set i x)[i]? = some x := List.getElem?_set_self hi
    have h2 : (v.set i x)[j]? = some p := by rw [List.getElem?_set_ne hij]; exact hj
    have := set_set_perm x p (v.set i x) i j h1 h2
    rwa [List.set_set] at this

theorem set_of_getElem? {α : Type} (a : α) :
    ∀ (v : List α) (i : Nat), v[i]? = some a → v.set i a = v := by
  intro v
  induction v with
  | nil => intro i h; simp at h
  | cons x t ih =>
    intro i h
    cases i with
    | zero =>
      simp only [List.getElem?_cons_zero, Option.some.injEq] at h
      subst h
      rfl
    | succ i =>
      simp only [List.getElem?_cons_succ] at h
      simp [ih i h]

theorem lt_length_of_getElem? {α : Type} {v : List α} {i : Nat} {a : α}
    (h : v[i]? = some a) : i < v.length := by
  obtain ⟨hlt, _⟩ := List.getElem?_eq_some.mp h
  exact hlt

theorem iterSwap_perm {α : Type} (v : List α) (i j : Nat) : (iterSwap v i j).Perm v := by
  unfold iterSwap
  split
  · rename_i a b ha hb
    exact set_set_perm a b v i j ha hb
  · exact List.Perm.refl _

theorem moveMedianToFirst_perm {α : Type} (comp : α → α → Bool) (v : List α)
    (result a b c : Nat) : (moveMedianToFirst comp v result a b c).Perm v := by
  unfold moveMedianToFirst
  repeat' split
  all_goals exact iterSwap_perm _ _ _

theorem unguardedPartition_perm {α : Type} (comp : α → α → Bool) (pivot : Nat) :
    ∀ (fuel : Nat) (v : List α) (first last : Nat),
      (unguardedPartition comp pivot fuel v first last).2.Perm v := by
  intro fuel
  induction fuel with
  | zero => intro v first last; exact List.Perm.refl _
  | succ fuel ih =>
    intro v first last
    simp only [unguardedPartition]
    split
    · exact List.Perm.refl _
    · exact (ih _ _ _).trans (iterSwap_perm _ _ _)

theorem unguardedPartitionPivot_perm {α : Type} (comp : α → α → Bool) (v : List α) :
    (unguardedPartitionPivot comp v).2.Perm v := by
  unfold unguardedPartitionPivot
  exact (unguardedPartition_perm comp 0 _ _ _ _).trans (moveMedianToFirst_perm comp v _ _ _ _)

theorem pushHeap_perm {α : Type} (comp : α → α → Bool) (topIndex : Nat) (value : α) :
    ∀ (fuel : Nat) (v : List α) (holeIndex : Nat), holeIndex < v.length →
      (pushHeap comp topIndex value fuel v holeIndex).Perm (v.set holeIndex value) := by
  intro fuel
  induction fuel with
  | zero => intro v holeIndex _; exact List.Perm.refl _
  | succ fuel ih =>
    intro v holeIndex hlt
    simp only [pushHeap]
    split
    · rename_i p hp
      split
      · have hparent : (holeIndex - 1) / 2 < (v.set holeIndex p).length := by
          rw [List.length_set]
          exact lt_length_of_getElem? hp
        exact (ih _ _ hparent).trans (set_hole_perm v holeIndex _ p value hlt hp)
      · exact List.Perm.refl _
    · exact List.Perm.refl _

theorem adjustHeapDown_perm {α : Type} (comp : α → α → Bool) (len : Nat) (value : α) :
    ∀ (fuel : Nat) (v : List α) (holeIndex secondChild : Nat), holeIndex < v.length →
      (adjustHeapDown comp len fuel v holeIndex secondChild).2.1 <
          (adjustHeapDown comp len fuel v holeIndex secondChild).1.length ∧
        ((adjustHeapDown comp len fuel v holeIndex secondChild).1.set
          (adjustHeapDown comp len fuel v holeIndex secondChild).2.1 value).Perm
          (v.set holeIndex value) := by
  intro fuel
  induction fuel with
  | zero => intro v holeIndex secondChild hlt; exact ⟨hlt, List.Perm.refl _⟩
  | succ fuel ih =>
    intro v holeIndex secondChild hlt
    simp only [adjustHeapDown]
    split
    · split
      · rename_i x hx
        have hchild := lt_length_of_getElem? hx
        have hlen : ∀ c, c < v.length → c < (v.set holeIndex x).length := by
          intro c hc
          rw [List.length_set]
          exact hc
        obtain ⟨h1, h2⟩ := ih (v.set holeIndex x) _ _ (hlen _ hchild)
        exact ⟨h1, h2.trans (set_hole_perm v holeIndex _ x value hlt hx)⟩
      · exact ⟨hlt, List.Perm.refl _⟩
    · exact ⟨hlt, List.Perm.refl _⟩

theorem adjustHeap_perm {α : Type} (comp : α → α → Bool) (v : List α) (holeIndex len : Nat)
    (value : α) (hlt : holeIndex < v.length) :
    (adjustHeap comp v holeIndex len value).Perm (v.set holeIndex value) := by
  obtain ⟨h1, h2⟩ := adjustHeapDown_perm comp len value len v holeIndex holeIndex hlt
  unfold adjustHeap
  simp only
  split
  · split
    · rename_i x hx
      have hpos : 2 * ((adjustHeapDown comp len len v holeIndex holeIndex).2.2 + 1) - 1 <
          ((adjustHeapDown comp len len v holeIndex holeIndex).1.set
            (adjustHeapDown comp len len v holeIndex holeIndex).2.1 x).length := by
        rw [List.length_set]
        exact lt_length_of_getElem? hx
      exact (pushHeap_perm comp holeIndex value len _ _ hpos).trans
        ((set_hole_perm _ _ _ x value h1 hx).trans h2)
    · exact (pushHeap_perm comp holeIndex value len _ _ h1).trans h2
  · exact (pushHeap_perm comp holeIndex value len _ _ h1).trans h2

theorem popHeap_perm {α : Type} (comp : α → α → Bool) (v : List α) (last result : Nat) :
    (popHeap comp v last result).Perm v := by
  unfold popHeap
  split
  · rename_i value top hvalue htop
    have h0 : 0 < (v.set result top).length := by
      rw [List.length_set]
      exact lt_length_of_getElem? htop
    exact (adjustHeap_perm comp _ 0 last value h0).trans
      (set_set_perm value top v result 0 hvalue htop)
  · exact List.Perm.refl _

theorem makeHeapLoop_perm {α : Type} (comp : α → α → Bool) (len : Nat) :
    ∀ (parent : Nat) (v : List α), (makeHeapLoop comp len parent v).Perm v := by
  intro parent
  induction parent with
  | zero =>
    intro v
    simp only [makeHeapLoop]
    split
    · rename_i value hvalue
      have := adjustHeap_perm comp v 0 len value (lt_length_of_getElem? hvalue)
      rwa [set_of_getElem? value v 0 hvalue] at this
    · exact List.Perm.refl _
  | succ parent ih =>
    intro v
    simp only [makeHeapLoop]
    split
    · rename_i value hvalue
      have := adjustHeap_perm comp v (parent + 1) len value (lt_length_of_getElem? hvalue)
      rw [set_of_getElem? value v (parent + 1) hvalue] at this
      exact (ih _).trans this
    · exact ih v

theorem makeHeap_perm {α : Type} (comp : α → α → Bool) (v : List α) :
    (makeHeap comp v).Perm v := by
  unfold makeHeap
  split
  · exact List.Perm.refl _
  · exact makeHeapLoop_perm comp _ _ v

theorem sortHeap_perm {α : Type} (comp : α → α → Bool) :
    ∀ (last : Nat) (v : List α), (sortHeap comp last v).Perm v := by
  intro last
  induction last with
  | zero => intro v; exact List.Perm.refl _
  | succ last ih =>
    intro v
    simp only [sortHeap]
    split
    · exact (ih _).trans (popHeap_perm comp v last last)
    · exact List.Perm.refl _

theorem partialSortAll_perm {α : Type} (comp : α → α → Bool) (v : List α) :
    (partialSortAll comp v).Perm v :=
  (sortHeap_perm comp _ _).trans (makeHeap_perm comp v)

theorem introsortLoop_perm {α : Type} (comp : α → α → Bool) :
    ∀ (depthLimit : Nat) (v : List α), (introsortLoop comp depthLimit v).Perm v := by
  intro depthLimit
  induction depthLimit with
  | zero =>
    intro v
    simp only [introsortLoop]
    split
    · exact partialSortAll_perm comp v
    · exact List.Perm.refl _
  | succ depthLimit ih =>
    intro v
    simp only [introsortLoop]
    split
    · refine ((ih _).append (ih _)).trans ?_
      rw [List.take_append_drop]
      exact unguardedPartitionPivot_perm comp v
    · exact List.Perm.refl _

theorem libstdcxxSort_perm {α : Type} (comp : α → α → Bool) (v : List α) :
    (libstdcxxSort comp v).Perm v := by
  unfold libstdcxxSort
  split
  · exact List.Perm.refl _
  · exact (finalInsertionSort_perm comp _).trans (introsortLoop_perm comp _ v)

theorem libstdcxxSort_sorted {α : Type} {comp : α → α → Bool} (h : StrictWeakOrdering comp)
    (v : List α) : (libstdcxxSort comp v).Pairwise (fun a b => comp b a = false) := by
  unfold libstdcxxSort
  split
  · rename_i hemp
    rw [List.isEmpty_iff] at hemp
    rw [hemp]
    exact List.Pairwise.nil
  · exact finalInsertionSort_sorted h _

/-- The `std::sort` of libstdc++ meets the postcondition of the C++ standard. -/
theorem libstdcxxSort_conforming : ConformingSort (fun comp v => libstdcxxSort comp v) :=
  fun comp h v => ⟨libstdcxxSort_perm comp v, libstdcxxSort_sorted h v⟩

/-! ## Claims about step 3 -/

theorem sortOrders_sorted (sortImpl : {α : Type} → (α → α → Bool) → List α → List α)
    (hsort : ConformingSort sortImpl) (orders : List Order) :
    (sortOrders sortImpl orders).Pairwise (fun a b : Order => b.rank ≤ a.rank) := by
  have h := (hsort rankGreater rankGreater_strictWeakOrdering orders).2
  refine h.imp ?_
  intro a b hab
  simpa [rankGreater] using hab

theorem sortOrders_perm (sortImpl : {α : Type} → (α → α → Bool) → List α → List α)
    (hsort : ConformingSort sortImpl) (orders : List Order) :
    (sortOrders sortImpl orders).Perm orders :=
  (hsort rankGreater rankGreater_strictWeakOrdering orders).1

/-- C5 (descending order).  For every implementation of `std::sort` that meets the C++
standard and every list of ranked orders, the sequence produced by step 3 is a permutation of
the input list in which, for all positions `i < j`, the rank at `i` is at least the rank at
`j`. -/
theorem sorted_descending_permutation
    (sortImpl : {α : Type} → (α → α → Bool) → List α → List α)
    (hsort : ConformingSort sortImpl) (orders : List Order) :
    (sortOrders sortImpl orders).Perm orders ∧
      ∀ (i j : Nat) (hi : i < (sortOrders sortImpl orders).length)
        (hj : j < (sortOrders sortImpl orders).length), i < j →
        (sortOrders sortImpl orders)[j].rank ≤ (sortOrders sortImpl orders)[i].rank := by
  refine ⟨sortOrders_perm sortImpl hsort orders, ?_⟩
  intro i j hi hj hij
  exact (List.pairwise_iff_getElem.mp (sortOrders_sorted sortImpl hsort orders)) i j hi hj hij

/-- C5 with the `std::sort` of libstdc++ on orders of rank 3, 7, 5 and 7: the result is the
orders of rank 7, 7, 5, 3. -/
theorem sorted_descending_permutation_witness :
    sortOrders (fun comp v => libstdcxxSort comp v)
        [mkOrder 1 1 3, mkOrder 2 1 7, mkOrder 3 1 5, mkOrder 4 1 7] =
        [mkOrder 2 1 7, mkOrder 4 1 7, mkOrder 3 1 5, mkOrder 1 1 3] ∧
      (sortOrders (fun comp v => libstdcxxSort comp v)
        [mkOrder 1 1 3, mkOrder 2 1 7, mkOrder 3 1 5, mkOrder 4 1 7]).Perm
        [mkOrder 1 1 3, mkOrder 2 1 7, mkOrder 3 1 5, mkOrder 4 1 7] :=
  ⟨rfl, (sorted_descending_permutation (fun comp v => libstdcxxSort comp v)
    libstdcxxSort_conforming
    [mkOrder 1 1 3, mkOrder 2 1 7, mkOrder 3 1 5, mkOrder 4 1 7]).1⟩

/-- C6 (stable ties) fails.  On seventeen orders of equal rank, ids 0 to 16 in input order, the
`std::sort` of libstdc++ (which meets the C++ standard) returns the ids in the order
8, 16, 15, ..., 9, 0, 7, 6, ..., 1: order 1 precedes order 2 in the input and has the same
rank, but does not precede it in the output. -/
theorem stable_ties_counterexample :
    ConformingSort (fun comp v => libstdcxxSort comp v) ∧
      (sortOrders (fun comp v => libstdcxxSort comp v) tiedOrders).map (fun o => o.id) =
        [8, 16, 15, 14, 13, 12, 11, 10, 9, 0, 7, 6, 5, 4, 3, 2, 1] ∧
      (mkOrder 1 1 0).rank = (mkOrder 2 1 0).rank ∧
      Precedes tiedOrders (mkOrder 1 1 0) (mkOrder 2 1 0) ∧
      ¬ Precedes (sortOrders (fun comp v => libstdcxxSort comp v) tiedOrders)
        (mkOrder 1 1 0) (mkOrder 2 1 0) := by
  refine ⟨libstdcxxSort_conforming, ?_, rfl, ?_, ?_⟩
  · decide
  · unfold Precedes
    decide
  · unfold Precedes
    decide

/-- C6 as amended.  For every two implementations of `std::sort` that meet the C++ standard
and every list of ranked orders, the sequence of ranks after step 3 is the same; and for every
two orders of the list with different ranks, the one with the larger rank precedes the other,
never the reverse.  Nothing is promised about the relative order of orders of equal rank. -/
theorem rank_sequence_independent_of_sort
    (sort₁ sort₂ : {α : Type} → (α → α → Bool) → List α → List α)
    (h₁ : ConformingSort sort₁) (h₂ : ConformingSort sort₂) (orders : List Order) :
    (sortOrders sort₁ orders).map (fun o => o.rank) =
        (sortOrders sort₂ orders).map (fun o => o.rank) ∧
      ∀ a b : Order, a ∈ orders → b ∈ orders → b.rank < a.rank →
        Precedes (sortOrders sort₁ orders) a b ∧ ¬ Precedes (sortOrders sort₁ orders) b a := by
  constructor
  · have hp : ((sortOrders sort₁ orders).map (fun o => o.rank)).Perm
        ((sortOrders sort₂ orders).map (fun o => o.rank)) :=
      ((sortOrders_perm sort₁ h₁ orders).trans (sortOrders_perm sort₂ h₂ orders).symm).map _
    have hs : ∀ (sortImpl : {α : Type} → (α → α → Bool) → List α → List α),
        ConformingSort sortImpl →
        ((sortOrders sortImpl orders).map (fun o => o.rank)).Sorted (fun x y : Int => y ≤ x) := by
      intro sortImpl h
      exact List.pairwise_map.mpr (sortOrders_sorted sortImpl h orders)
    haveI : IsAntisymm Int (fun x y : Int => y ≤ x) := ⟨fun a b hab hba => Int.le_antisymm hba hab⟩
    exact List.eq_of_perm_of_sorted hp (hs sort₁ h₁) (hs sort₂ h₂)
  · intro a b ha hb hlt
    have hsorted := sortOrders_sorted sort₁ h₁ orders
    have hperm := sortOrders_perm sort₁ h₁ orders
    constructor
    · obtain ⟨l₁, l₂, hsplit⟩ := List.append_of_mem (hperm.mem_iff.mpr ha)
      have hbmem := hperm.mem_iff.mpr hb
      rw [hsplit] at hsorted hbmem
      rw [List.pairwise_append] at hsorted
      unfold Precedes
      rw [hsplit]
      rcases List.mem_append.mp hbmem with hb1 | hb2
      · have := hsorted.2.2 b hb1 a (List.mem_cons_self a l₂)
        omega
      · rcases List.mem_cons.mp hb2 with rfl | hb2
        · omega
        · exact (List.Sublist.cons₂ a (List.singleton_sublist.mpr hb2)).trans
            (List.sublist_append_right l₁ (a :: l₂))
    · intro hba
      have := List.Pairwise.sublist hba hsorted
      simp only [List.pairwise_cons, List.mem_singleton, forall_eq] at this
      omega

/-- C6 as amended, with libstdc++ for both implementations, on orders of rank 3, 7 and 5. -/
theorem rank_sequence_independent_of_sort_witness :
    (sortOrders (fun comp v => libstdcxxSort comp v)
        [mkOrder 1 1 3, mkOrder 2 1 7, mkOrder 3 1 5]).map (fun o => o.rank) = [7, 5, 3] ∧
      Precedes (sortOrders (fun comp v => libstdcxxSort comp v)
        [mkOrder 1 1 3, mkOrder 2 1 7, mkOrder 3 1 5]) (mkOrder 2 1 7) (mkOrder 1 1 3) := by
  have h := rank_sequence_independent_of_sort (fun comp v => libstdcxxSort comp v)
    (fun comp v => libstdcxxSort comp v) libstdcxxSort_conforming libstdcxxSort_conforming
    [mkOrder 1 1 3, mkOrder 2 1 7, mkOrder 3 1 5]
  exact ⟨rfl, (h.2 (mkOrder 2 1 7) (mkOrder 1 1 3) (by simp) (by simp) (by decide)).1⟩

/-! ## Rank calculation -/

theorem checkedInt_eq_ok {z r : Int} :
    checkedInt z = .ok r ↔ (INT_MIN ≤ z ∧ z ≤ INT_MAX) ∧ r = z := by
  unfold checkedInt
  split
  · rename_i h
    simp only [Except.ok.injEq, h, true_and]
    exact eq_comm
  · rename_i h
    simp [h]

theorem checkedInt_error {z : Int} {e : Failure} (h : checkedInt z = .error e) :
    e = .undefinedBehaviour := by
  unfold checkedInt at h
  split at h
  · simp at h
  · simpa using h.symm

theorem distanceTerm_error {fp : Fpu} {distance : Dbl} {e : Failure}
    (h : distanceTerm fp distance = .error e) : e = .undefinedBehaviour := by
  unfold distanceTerm Dbl.toInt at h
  split at h
  · exact checkedInt_error h
  · simpa using h.symm

/-- The rank of an order is defined exactly when the distance term is defined and the
time difference and the sum fit `int`; it is then their sum. -/
theorem calculateRank_eq_ok (fp : Fpu) (donation : Donation) (order r : Order) :
    calculateRank fp donation order = .ok r ↔
      ∃ dTerm : Int,
        distanceTerm fp (calculateDistance fp order.location donation.location) = .ok dTerm ∧
        (INT_MIN ≤ donation.timestamp - order.timestamp ∧
          donation.timestamp - order.timestamp ≤ INT_MAX) ∧
        (INT_MIN ≤ dTerm + (donation.timestamp - order.timestamp) ∧
          dTerm + (donation.timestamp - order.timestamp) ≤ INT_MAX) ∧
        r = { order with rank := dTerm + (donation.timestamp - order.timestamp) } := by
  unfold calculateRank timeDif
  simp only [bind, Except.bind, pure, Except.pure, TIME_COEFFICIENT, Int.mul_one]
  constructor
  · intro h
    split at h
    · exact absurd h (by simp)
    · rename_i tDif htDif
      obtain ⟨hrange, rfl⟩ := checkedInt_eq_ok.mp htDif
      split at h
      · exact absurd h (by simp)
      · rename_i dTerm hdTerm
        split at h
        · exact absurd h (by simp)
        · rename_i tTerm htTerm
          obtain ⟨_, rfl⟩ := checkedInt_eq_ok.mp htTerm
          split at h
          · exact absurd h (by simp)
          · rename_i rank hrank
            obtain ⟨hsum, rfl⟩ := checkedInt_eq_ok.mp hrank
            simp only [Except.ok.injEq] at h
            exact ⟨dTerm, hdTerm, hrange, hsum, h.symm⟩
  · rintro ⟨dTerm, hdTerm, hrange, hsum, rfl⟩
    have h1 : checkedInt (donation.timestamp - order.timestamp) =
        .ok (donation.timestamp - order.timestamp) := checkedInt_eq_ok.mpr ⟨hrange, rfl⟩
    have h2 : checkedInt (dTerm + (donation.timestamp - order.timestamp)) =
        .ok (dTerm + (donation.timestamp - order.timestamp)) := checkedInt_eq_ok.mpr ⟨hsum, rfl⟩
    simp only [h1, hdTerm, h2]

theorem calculateRank_error {fp : Fpu} {donation : Donation} {order : Order} {e : Failure}
    (h : calculateRank fp donation order = .error e) : e = .undefinedBehaviour := by
  unfold calculateRank timeDif at h
  simp only [bind, Except.bind, pure, Except.pure] at h
  split at h
  · rename_i e1 h1
    simp only [Except.error.injEq] at h
    exact h ▸ checkedInt_error h1
  · split at h
    · rename_i e2 h2
      simp only [Except.error.injEq] at h
      exact h ▸ distanceTerm_error h2
    · split at h
      · rename_i e3 h3
        simp only [Except.error.injEq] at h
        exact h ▸ checkedInt_error h3
      · split at h
        · rename_i e4 h4
          simp only [Except.error.injEq] at h
          exact h ▸ checkedInt_error h4
        · exact absurd h (by simp)

theorem calculateRanks_cons (fp : Fpu) (donation : Donation) (o : Order) (rest : List Order) :
    calculateRanks fp (o :: rest) donation =
      match calculateRank fp donation o with
      | .error e => .error e
      | .ok r =>
        match calculateRanks fp rest donation with
        | .error e => .error e
        | .ok rs => .ok (r :: rs) := by
  simp only [calculateRanks, List.mapM_cons, bind, Except.bind, pure, Except.pure]
  cases calculateRank fp donation o with
  | error e => rfl
  | ok r =>
    cases List.mapM (calculateRank fp donation) rest with
    | error e => rfl
    | ok rs => rfl

theorem calculateRanks_error {fp : Fpu} {donation : Donation} :
    ∀ {orders : List Order} {e : Failure},
      calculateRanks fp orders donation = .error e → e = .undefinedBehaviour := by
  intro orders
  induction orders with
  | nil =>
    intro e h
    simp only [calculateRanks, List.mapM_nil, pure, Except.pure] at h
    exact absurd h (by simp)
  | cons o rest ih =>
    intro e h
    rw [calculateRanks_cons] at h
    split at h
    · rename_i e1 h1
      simp only [Except.error.injEq] at h
      exact h ▸ calculateRank_error h1
    · split at h
      · rename_i e2 h2
        simp only [Except.error.injEq] at h
        exact h ▸ ih h2
      · exact absurd h (by simp)

/-- Function `calculateRanks` fails as soon as the rank of one order is undefined. -/
theorem calculateRanks_undefined_of_mem {fp : Fpu} {donation : Donation} :
    ∀ {orders : List Order} {o : Order}, o ∈ orders →
      calculateRank fp donation o = .error .undefinedBehaviour →
      calculateRanks fp orders donation = .error .undefinedBehaviour := by
  intro orders
  induction orders with
  | nil => intro o ho; simp at ho
  | cons a rest ih =>
    intro o ho hbad
    rw [calculateRanks_cons]
    rcases List.mem_cons.mp ho with rfl | ho
    · rw [hbad]
    · cases ha : calculateRank fp donation a with
      | error e => simp only [calculateRank_error ha]
      | ok r => simp only [ih ho hbad]

/-- Function `calculateRanks` changes nothing but the ranks. -/
theorem calculateRanks_toData {fp : Fpu} {donation : Donation} :
    ∀ {orders ranked : List Order}, calculateRanks fp orders donation = .ok ranked →
      ranked.map (fun r => r.toData) = orders.map (fun o => o.toData) := by
  intro orders
  induction orders with
  | nil =>
    intro ranked h
    simp only [calculateRanks, List.mapM_nil, pure, Except.pure, Except.ok.injEq] at h
    subst h
    rfl
  | cons o rest ih =>
    intro ranked h
    rw [calculateRanks_cons] at h
    split at h
    · exact absurd h (by simp)
    · rename_i r hr
      split at h
      · exact absurd h (by simp)
      · rename_i rs hrs
        simp only [Except.ok.injEq] at h
        subst h
        obtain ⟨_, _, _, _, rfl⟩ := (calculateRank_eq_ok fp donation o r).mp hr
        simp [ih hrs]

theorem calculateDistance_self (fp : Fpu) (x y : ℚ) :
    calculateDistance fp ⟨.fin x, .fin y⟩ ⟨.fin x, .fin y⟩ = .fin 0 := by
  simp [calculateDistance, Dbl.sub, Dbl.ofExact, Dbl.pow2, Dbl.add, Dbl.sqrt]

theorem distanceTerm_zero (fp : Fpu) :
    distanceTerm fp (.fin 0) = .error .undefinedBehaviour := by
  simp [distanceTerm, Dbl.div, Dbl.mul, DISTANCE_COEFFICIENT, Dbl.round, Dbl.toInt]

/-- C7 (co-located demand) fails.  For an order at the donation's location the distance is 0,
`1 / distance` is `+inf`, and so is `round(1 / distance * 5000)`; converting it to `int` is
undefined behaviour.  The rank of the order is undefined and `calculateRanks` fails on every
list that contains the order, whatever the rounding of the floating-point unit. -/
theorem co_located_rank_undefined (fp : Fpu) (donation : Donation) (order : Order) (x y : ℚ)
    (hd : donation.location = ⟨.fin x, .fin y⟩) (ho : order.location = ⟨.fin x, .fin y⟩) :
    calculateDistance fp order.location donation.location = .fin 0 ∧
      Dbl.round (Dbl.mul fp (Dbl.div fp (.fin 1) (.fin 0)) (.fin (DISTANCE_COEFFICIENT : ℚ))) =
        .pinf ∧
      distanceTerm fp (calculateDistance fp order.location donation.location) =
        .error .undefinedBehaviour ∧
      calculateRank fp donation order = .error .undefinedBehaviour ∧
      ∀ orders : List Order, order ∈ orders →
        calculateRanks fp orders donation = .error .undefinedBehaviour := by
  have hdist : calculateDistance fp order.location donation.location = .fin 0 := by
    rw [hd, ho]
    exact calculateDistance_self fp x y
  have hterm : distanceTerm fp (calculateDistance fp order.location donation.location) =
      .error .undefinedBehaviour := by
    rw [hdist]
    exact distanceTerm_zero fp
  have hrank : calculateRank fp donation order = .error .undefinedBehaviour := by
    cases h : calculateRank fp donation order with
    | error e => rw [calculateRank_error h]
    | ok r =>
      obtain ⟨dTerm, hok, _⟩ := (calculateRank_eq_ok fp donation order r).mp h
      rw [hterm] at hok
      exact absurd hok (by simp)
  refine ⟨hdist, ?_, hterm, hrank, fun orders hmem => calculateRanks_undefined_of_mem hmem hrank⟩
  simp [Dbl.div, Dbl.mul, DISTANCE_COEFFICIENT, Dbl.round]

/-- C7 at a donation and an order that are both at the origin. -/
theorem co_located_rank_undefined_witness :
    calculateRank binary64Fpu (mkDataAt 1 1 15 100 0) { toData := mkDataAt 2 1 5 40 0 } =
        .error .undefinedBehaviour ∧
      calculateRanks binary64Fpu
        [{ toData := mkDataAt 3 1 20 50 2 }, { toData := mkDataAt 2 1 5 40 0 }]
        (mkDataAt 1 1 15 100 0) = .error .undefinedBehaviour := by
  have h := co_located_rank_undefined binary64Fpu (mkDataAt 1 1 15 100 0)
    { toData := mkDataAt 2 1 5 40 0 } 0 0 rfl rfl
  exact ⟨h.2.2.2.1, h.2.2.2.2 _ (by simp)⟩

theorem truncToZero_intCast (n : Int) : truncToZero (n : ℚ) = n := by
  unfold truncToZero
  split <;> simp

/-! ## The binary64 unit -/

theorem binade_spec (q : ℚ) (hq : q ≠ 0) :
    (2 : ℚ) ^ binade q ≤ |q| ∧ |q| < (2 : ℚ) ^ (binade q + 1) := by
  have hpos : 0 < |q| := abs_pos.mpr hq
  have h1 := Int.zpow_log_le_self (b := 2) (by norm_num) hpos
  have h2 := Int.lt_zpow_succ_log_self (b := 2) (by norm_num) |q|
  simp only [Nat.cast_ofNat] at h1 h2
  exact ⟨h1, h2⟩

theorem binade_eq (q : ℚ) (e : ℤ) (h1 : (2 : ℚ) ^ e ≤ |q|) (h2 : |q| < (2 : ℚ) ^ (e + 1)) :
    binade q = e := by
  have hpos : 0 < |q| := lt_of_lt_of_le (by positivity) h1
  have h3 := (Int.zpow_le_iff_le_log (b := 2) (by norm_num) hpos (x := e)).mp
    (by simpa using h1)
  have h4 := (Int.lt_zpow_iff_log_lt (b := 2) (by norm_num) hpos (x := e + 1)).mp
    (by simpa using h2)
  unfold binade
  omega

theorem roundHalfEven_abs_sub_le (q : ℚ) : |(roundHalfEven q : ℚ) - q| ≤ 1 / 2 := by
  have h1 := Int.floor_le q
  have h2 := Int.lt_floor_add_one q
  unfold roundHalfEven
  split_ifs with ha hb hc
  · rw [abs_le]; constructor <;> linarith
  · rw [abs_le]; push_cast; constructor <;> linarith
  · rw [abs_le]; constructor <;> linarith
  · rw [abs_le]; push_cast; constructor <;> linarith

theorem roundHalfEven_eq (q : ℚ) (n : ℤ) (h : |q - n| < 1 / 2) : roundHalfEven q = n := by
  rw [abs_lt] at h
  obtain ⟨h1, h2⟩ := h
  rcases le_or_lt (n : ℚ) q with hle | hlt
  · have hf : ⌊q⌋ = n := Int.floor_eq_iff.mpr ⟨hle, by linarith⟩
    unfold roundHalfEven
    rw [hf, if_pos (by linarith)]
  · have hf : ⌊q⌋ = n - 1 := Int.floor_eq_iff.mpr ⟨by push_cast; linarith, by push_cast; linarith⟩
    unfold roundHalfEven
    rw [hf, if_neg (by push_cast; linarith), if_pos (by push_cast; linarith)]
    omega


theorem quantumExp_of_le (e : ℤ) (h : -1022 ≤ e) : quantumExp e = e - 52 := by
  unfold quantumExp
  rw [max_eq_left h]

/-- Evaluation of the rounding at a value of a known binade. -/
theorem roundBinary64_eq (q : ℚ) (e n : ℤ) (he : -1022 ≤ e) (h1 : (2 : ℚ) ^ e ≤ |q|)
    (h2 : |q| < (2 : ℚ) ^ (e + 1)) (hn : |q / 2 ^ (e - 52) - n| < 1 / 2)
    (hfin : |(n : ℚ) * 2 ^ (e - 52)| < 2 ^ (1024 : ℤ)) :
    roundBinary64 q = .fin (n * 2 ^ (e - 52)) := by
  unfold roundBinary64 nearestBinary64
  rw [binade_eq q e h1 h2, quantumExp_of_le e he, roundHalfEven_eq _ n hn,
    if_neg (not_le.mpr hfin)]

/-- Relative error of the rounding, away from overflow and underflow. -/
theorem roundBinary64_accurate (q : ℚ) (hlo : (2 : ℚ) ^ (-1000 : ℤ) ≤ |q|)
    (hhi : |q| ≤ 2 ^ (1000 : ℤ)) :
    ∃ r : ℚ, roundBinary64 q = .fin r ∧ |r - q| ≤ 2 ^ (-53 : ℤ) * |q| := by
  have hq : q ≠ 0 := by
    intro h
    rw [h, abs_zero] at hlo
    exact absurd hlo (not_le.mpr (by positivity))
  obtain ⟨hb1, hb2⟩ := binade_spec q hq
  have he : -1022 ≤ binade q := by
    have h := lt_of_le_of_lt hlo hb2
    have := (zpow_lt_zpow_iff_right₀ (by norm_num : (1 : ℚ) < 2)).mp h
    omega
  have hg : (0 : ℚ) < 2 ^ (binade q - 52) := by positivity
  have hr := roundHalfEven_abs_sub_le (q / 2 ^ (binade q - 52))
  have herr : |(roundHalfEven (q / 2 ^ (binade q - 52)) : ℚ) * 2 ^ (binade q - 52) - q| ≤
      2 ^ (-53 : ℤ) * |q| := by
    have h3 : (roundHalfEven (q / 2 ^ (binade q - 52)) : ℚ) * 2 ^ (binade q - 52) - q =
        ((roundHalfEven (q / 2 ^ (binade q - 52)) : ℚ) - q / 2 ^ (binade q - 52)) *
          2 ^ (binade q - 52) := by
      field_simp
    rw [h3, abs_mul, abs_of_pos hg]
    have h4 : (2 : ℚ) ^ (binade q - 52) = 2 ^ (-52 : ℤ) * 2 ^ binade q := by
      rw [← zpow_add₀ (by norm_num : (2 : ℚ) ≠ 0)]
      congr 1
      ring
    rw [h4]
    have h5 : (0 : ℚ) < 2 ^ binade q := by positivity
    calc |(roundHalfEven (q / (2 ^ (-52 : ℤ) * 2 ^ binade q)) : ℚ) -
            q / (2 ^ (-52 : ℤ) * 2 ^ binade q)| * (2 ^ (-52 : ℤ) * 2 ^ binade q)
        ≤ 1 / 2 * (2 ^ (-52 : ℤ) * 2 ^ binade q) := by
          apply mul_le_mul_of_nonneg_right _ (by positivity)
          rw [← h4]
          exact hr
      _ = 2 ^ (-53 : ℤ) * 2 ^ binade q := by norm_num; ring
      _ ≤ 2 ^ (-53 : ℤ) * |q| := by
          apply mul_le_mul_of_nonneg_left hb1 (by positivity)
  refine ⟨roundHalfEven (q / 2 ^ (binade q - 52)) * 2 ^ (binade q - 52), ?_, herr⟩
  unfold roundBinary64 nearestBinary64
  rw [quantumExp_of_le _ he, if_neg]
  rw [not_le]
  have h6 : |(roundHalfEven (q / 2 ^ (binade q - 52)) : ℚ) * 2 ^ (binade q - 52)| ≤
      |q| + 2 ^ (-53 : ℤ) * |q| := by
    have := abs_sub_abs_le_abs_sub
      ((roundHalfEven (q / 2 ^ (binade q - 52)) : ℚ) * 2 ^ (binade q - 52)) q
    linarith
  have h7 : |q| + 2 ^ (-53 : ℤ) * |q| ≤ 2 * 2 ^ (1000 : ℤ) := by
    have : (2 : ℚ) ^ (-53 : ℤ) ≤ 1 := by norm_num
    nlinarith [abs_nonneg q]
  have h8 : (2 : ℚ) * 2 ^ (1000 : ℤ) < 2 ^ (1024 : ℤ) := by norm_num
  linarith


theorem natSqrt_floor_bounds (s : ℚ) (hs : 0 ≤ s) :
    ((Nat.sqrt ⌊s⌋₊ : ℚ)) ^ 2 ≤ s ∧ s < ((Nat.sqrt ⌊s⌋₊ : ℚ) + 1) ^ 2 := by
  have h1 : ((Nat.sqrt ⌊s⌋₊ ^ 2 : ℕ) : ℚ) ≤ (⌊s⌋₊ : ℚ) := by
    exact_mod_cast Nat.sqrt_le' ⌊s⌋₊
  have h2 : ((⌊s⌋₊ + 1 : ℕ) : ℚ) ≤ (((Nat.sqrt ⌊s⌋₊ + 1) ^ 2 : ℕ) : ℚ) := by
    exact_mod_cast Nat.succ_le_of_lt (Nat.lt_succ_sqrt' ⌊s⌋₊)
  have h3 := Nat.floor_le hs
  have h4 := Nat.lt_floor_add_one s
  push_cast at h1 h2
  constructor <;> linarith

theorem nearestSqrt_spec (s : ℚ) (hs : 1 ≤ s) :
    ((nearestSqrt s : ℚ) - 1 / 2) ^ 2 ≤ s ∧ s ≤ ((nearestSqrt s : ℚ) + 1 / 2) ^ 2 ∧
      (Nat.sqrt ⌊s⌋₊ : ℤ) ≤ nearestSqrt s := by
  obtain ⟨h1, h2⟩ := natSqrt_floor_bounds s (by linarith)
  have hn : (1 : ℚ) ≤ (Nat.sqrt ⌊s⌋₊ : ℚ) := by
    have : 1 ≤ Nat.sqrt ⌊s⌋₊ := by
      rw [Nat.le_sqrt]
      exact Nat.le_floor (by simpa using hs)
    exact_mod_cast this
  unfold nearestSqrt
  split_ifs with ha hb hc
  · refine ⟨?_, ?_, le_refl _⟩ <;> push_cast <;> nlinarith
  · refine ⟨?_, ?_, by omega⟩ <;> push_cast <;> nlinarith
  · refine ⟨?_, ?_, le_refl _⟩ <;> push_cast <;> nlinarith
  · refine ⟨?_, ?_, by omega⟩ <;> push_cast <;> nlinarith

theorem nearestSqrt_eq (s : ℚ) (m : ℤ) (hm : 1 ≤ m) (h1 : ((m : ℚ) - 1 / 2) ^ 2 < s)
    (h2 : s < ((m : ℚ) + 1 / 2) ^ 2) : nearestSqrt s = m := by
  have hs : 0 ≤ s := le_trans (sq_nonneg _) h1.le
  obtain ⟨h3, h4⟩ := natSqrt_floor_bounds s hs
  have hm1 : (1 : ℚ) ≤ (m : ℚ) := by exact_mod_cast hm
  have hn0 : (0 : ℚ) ≤ (Nat.sqrt ⌊s⌋₊ : ℚ) := Nat.cast_nonneg _
  have h5 : (Nat.sqrt ⌊s⌋₊ : ℚ) < (m : ℚ) + 1 / 2 := by
    by_contra hcon
    rw [not_lt] at hcon
    nlinarith
  have h6 : (m : ℚ) - 1 / 2 < (Nat.sqrt ⌊s⌋₊ : ℚ) + 1 := by
    by_contra hcon
    rw [not_lt] at hcon
    nlinarith
  have h7 : (Nat.sqrt ⌊s⌋₊ : ℤ) ≤ m := by
    have : ((Nat.sqrt ⌊s⌋₊ : ℤ) : ℚ) < ((m + 1 : ℤ) : ℚ) := by push_cast; linarith
    have := Int.cast_lt.mp this
    omega
  have h8 : m ≤ (Nat.sqrt ⌊s⌋₊ : ℤ) + 1 := by
    have : ((m : ℤ) : ℚ) < (((Nat.sqrt ⌊s⌋₊ : ℤ) + 2 : ℤ) : ℚ) := by push_cast; linarith
    have := Int.cast_lt.mp this
    omega
  rcases (by omega : (Nat.sqrt ⌊s⌋₊ : ℤ) = m ∨ (Nat.sqrt ⌊s⌋₊ : ℤ) + 1 = m) with h | h
  · have hq : (Nat.sqrt ⌊s⌋₊ : ℚ) = (m : ℚ) := by exact_mod_cast h
    unfold nearestSqrt
    rw [if_pos (by rw [hq]; exact h2)]
    exact h
  · have hq : (Nat.sqrt ⌊s⌋₊ : ℚ) = (m : ℚ) - 1 := by
      have : ((Nat.sqrt ⌊s⌋₊ : ℤ) : ℚ) + 1 = (m : ℚ) := by exact_mod_cast h
      push_cast at this
      linarith
    have hlt : ((Nat.sqrt ⌊s⌋₊ : ℚ) + 1 / 2) ^ 2 < s := by
      rw [hq]
      have : (m : ℚ) - 1 + 1 / 2 = (m : ℚ) - 1 / 2 := by ring
      rw [this]
      exact h1
    unfold nearestSqrt
    rw [if_neg (not_lt.mpr hlt.le), if_pos hlt]
    exact h

/-- Evaluation of the square root at a value of a known binade. -/
theorem sqrtBinary64_eq (q : ℚ) (e m : ℤ) (h1 : (2 : ℚ) ^ e ≤ |q|)
    (h2 : |q| < (2 : ℚ) ^ (e + 1)) (hj : -1022 ≤ e / 2) (hm : 1 ≤ m)
    (hlo : ((m : ℚ) - 1 / 2) ^ 2 < q / 2 ^ (2 * (e / 2 - 52)))
    (hhi : q / 2 ^ (2 * (e / 2 - 52)) < ((m : ℚ) + 1 / 2) ^ 2) :
    sqrtBinary64 q = .fin (m * 2 ^ (e / 2 - 52)) := by
  unfold sqrtBinary64
  rw [binade_eq q e h1 h2, quantumExp_of_le _ hj, nearestSqrt_eq _ m hm hlo hhi]


/-- Relative error of the square root, away from overflow and underflow. -/
theorem sqrtBinary64_accurate (q : ℚ) (hlo : (2 : ℚ) ^ (-1000 : ℤ) ≤ q) :
    ∃ r : ℚ, sqrtBinary64 q = .fin r ∧ 0 ≤ r ∧
      (1 - 2 ^ (-53 : ℤ)) ^ 2 * q ≤ r ^ 2 ∧ r ^ 2 ≤ (1 + 2 ^ (-53 : ℤ)) ^ 2 * q := by
  have hqpos : 0 < q := lt_of_lt_of_le (by positivity) hlo
  have hq : q ≠ 0 := hqpos.ne'
  obtain ⟨hb1, hb2⟩ := binade_spec q hq
  rw [abs_of_pos hqpos] at hb1 hb2
  have he : -1001 ≤ binade q := by
    have h := lt_of_le_of_lt hlo hb2
    have := (zpow_lt_zpow_iff_right₀ (by norm_num : (1 : ℚ) < 2)).mp h
    omega
  have hj : -1022 ≤ binade q / 2 := by omega
  have hj1 : 2 * (binade q / 2) ≤ binade q := by omega
  have hfin : sqrtBinary64 q = .fin (nearestSqrt (q / 2 ^ (2 * (binade q / 2 - 52))) *
      2 ^ (binade q / 2 - 52)) := by
    unfold sqrtBinary64
    rw [quantumExp_of_le _ hj]
  have hb3 : (2 : ℚ) ^ (2 * (binade q / 2)) ≤ q :=
    le_trans (zpow_le_zpow_right₀ (by norm_num) hj1) hb1
  generalize binade q / 2 = j at hj hfin hb3
  -- the scaled argument is at least 2 ^ 104
  have hk : (0 : ℚ) < 2 ^ (2 * (j - 52)) := by positivity
  have hs : (2 : ℚ) ^ (104 : ℤ) ≤ q / 2 ^ (2 * (j - 52)) := by
    rw [le_div_iff₀ hk, ← zpow_add₀ (by norm_num : (2 : ℚ) ≠ 0)]
    have : (104 : ℤ) + 2 * (j - 52) = 2 * j := by ring
    rw [this]
    exact hb3
  have hs1 : (1 : ℚ) ≤ q / 2 ^ (2 * (j - 52)) := le_trans (by norm_num) hs
  obtain ⟨hn1, hn2, hn3⟩ := nearestSqrt_spec _ hs1
  -- the integer significand is at least 2 ^ 52
  have hroot : (2 : ℤ) ^ 52 ≤ (Nat.sqrt ⌊q / 2 ^ (2 * (j - 52))⌋₊ : ℤ) := by
    have : 2 ^ 52 ≤ Nat.sqrt ⌊q / 2 ^ (2 * (j - 52))⌋₊ := by
      rw [Nat.le_sqrt]
      apply Nat.le_floor
      refine le_trans ?_ hs
      norm_num
    exact_mod_cast this
  have hm : (2 : ℤ) ^ 52 ≤ nearestSqrt (q / 2 ^ (2 * (j - 52))) := le_trans hroot hn3
  have hqs : q = q / 2 ^ (2 * (j - 52)) * 2 ^ (2 * (j - 52)) := by
    field_simp
  generalize nearestSqrt (q / 2 ^ (2 * (j - 52))) = m at hn1 hn2 hn3 hm hfin
  generalize q / 2 ^ (2 * (j - 52)) = s at hs hs1 hn1 hn2 hqs
  have hsq : ((m : ℚ) * 2 ^ (j - 52)) ^ 2 = (m : ℚ) ^ 2 * 2 ^ (2 * (j - 52)) := by
    rw [show 2 * (j - 52) = (j - 52) + (j - 52) by ring, zpow_add₀ (by norm_num : (2 : ℚ) ≠ 0)]
    ring
  have hmq : (2 : ℚ) ^ 52 ≤ (m : ℚ) := by exact_mod_cast hm
  have hu : (2 : ℚ) ^ (-53 : ℤ) = 1 / 2 ^ 53 := by norm_num
  have hmid : (1 - (2 : ℚ) ^ (-53 : ℤ)) ^ 2 * s ≤ (m : ℚ) ^ 2 ∧
      (m : ℚ) ^ 2 ≤ (1 + (2 : ℚ) ^ (-53 : ℤ)) ^ 2 * s := by
    rw [hu]
    constructor
    · have h1 : (1 - (1 : ℚ) / 2 ^ 53) * ((m : ℚ) + 1 / 2) ≤ (m : ℚ) := by
        nlinarith
      have h2 : 0 ≤ (1 - (1 : ℚ) / 2 ^ 53) * ((m : ℚ) + 1 / 2) := by
        apply mul_nonneg (by norm_num)
        linarith [show (0 : ℚ) ≤ 2 ^ 52 by positivity]
      calc (1 - (1 : ℚ) / 2 ^ 53) ^ 2 * s
          ≤ (1 - (1 : ℚ) / 2 ^ 53) ^ 2 * ((m : ℚ) + 1 / 2) ^ 2 :=
            mul_le_mul_of_nonneg_left hn2 (sq_nonneg _)
        _ = ((1 - (1 : ℚ) / 2 ^ 53) * ((m : ℚ) + 1 / 2)) ^ 2 := by ring
        _ ≤ (m : ℚ) ^ 2 := pow_le_pow_left₀ h2 h1 2
    · rcases (by omega : m = 2 ^ 52 ∨ (2 : ℤ) ^ 52 + 1 ≤ m) with h | h
      · have hm2 : (m : ℚ) = 2 ^ 52 := by exact_mod_cast h
        rw [hm2]
        have : ((2 : ℚ) ^ 52) ^ 2 ≤ s := by
          refine le_trans ?_ hs
          norm_num
        have h1 : (1 : ℚ) ≤ (1 + 1 / 2 ^ 53) ^ 2 := by norm_num
        nlinarith
      · have hm2 : (2 : ℚ) ^ 52 + 1 ≤ (m : ℚ) := by exact_mod_cast h
        have h1 : (m : ℚ) ≤ (1 + (1 : ℚ) / 2 ^ 53) * ((m : ℚ) - 1 / 2) := by
          nlinarith
        have h2 : (0 : ℚ) ≤ (m : ℚ) := by linarith [show (0 : ℚ) ≤ 2 ^ 52 by positivity]
        calc (m : ℚ) ^ 2 ≤ ((1 + (1 : ℚ) / 2 ^ 53) * ((m : ℚ) - 1 / 2)) ^ 2 :=
              pow_le_pow_left₀ h2 h1 2
          _ = (1 + (1 : ℚ) / 2 ^ 53) ^ 2 * ((m : ℚ) - 1 / 2) ^ 2 := by ring
          _ ≤ (1 + (1 : ℚ) / 2 ^ 53) ^ 2 * s :=
            mul_le_mul_of_nonneg_left hn1 (sq_nonneg _)
  refine ⟨(m : ℚ) * 2 ^ (j - 52), hfin, ?_, ?_, ?_⟩
  · apply mul_nonneg _ (by positivity)
    linarith [show (0 : ℚ) ≤ 2 ^ 52 by positivity]
  · rw [hsq, hqs, ← mul_assoc]
    exact mul_le_mul_of_nonneg_right hmid.1 hk.le
  · rw [hsq, hqs, ← mul_assoc]
    exact mul_le_mul_of_nonneg_right hmid.2 hk.le

/-- The binary64 unit is accurate to half a unit in the last place. -/
theorem binary64Fpu_accurate : AccurateFpu binary64Fpu := by
  refine ⟨roundBinary64_accurate, fun q hlo _ => sqrtBinary64_accurate q hlo, ?_⟩
  intro q hlo hhi
  have hq0 : 0 ≤ q * q := mul_self_nonneg q
  have hqq : |q * q| = |q| * |q| := abs_mul q q
  have h1 : (2 : ℚ) ^ (-1000 : ℤ) ≤ |q * q| := by
    rw [hqq]
    calc (2 : ℚ) ^ (-1000 : ℤ) = 2 ^ (-500 : ℤ) * 2 ^ (-500 : ℤ) := by
          rw [← zpow_add₀ (by norm_num : (2 : ℚ) ≠ 0)]; norm_num
      _ ≤ |q| * |q| := mul_le_mul hlo hlo (by positivity) (abs_nonneg q)
  have h2 : |q * q| ≤ (2 : ℚ) ^ (1000 : ℤ) := by
    rw [hqq]
    calc |q| * |q| ≤ 2 ^ (500 : ℤ) * 2 ^ (500 : ℤ) :=
          mul_le_mul hhi hhi (abs_nonneg q) (by positivity)
      _ = (2 : ℚ) ^ (1000 : ℤ) := by
          rw [← zpow_add₀ (by norm_num : (2 : ℚ) ≠ 0)]; norm_num
  obtain ⟨r, hr, herr⟩ := roundBinary64_accurate (q * q) h1 h2
  refine ⟨r, hr, le_trans herr ?_⟩
  rw [abs_of_nonneg hq0]
  apply mul_le_mul_of_nonneg_right _ hq0
  norm_num


/-! ## Accuracy of the distance term -/

theorem round_accurate_pos {fp : Fpu} (hfp : AccurateFpu fp) (q : ℚ)
    (hlo : (2 : ℚ) ^ (-1000 : ℤ) ≤ q) (hhi : q ≤ 2 ^ (1000 : ℤ)) :
    ∃ r : ℚ, fp.round q = .fin r ∧ (1 - 2 ^ (-53 : ℤ)) * q ≤ r ∧
      r ≤ (1 + 2 ^ (-53 : ℤ)) * q := by
  have hq : 0 < q := lt_of_lt_of_le (by positivity) hlo
  obtain ⟨r, hr, herr⟩ := hfp.1 q (by rwa [abs_of_pos hq]) (by rwa [abs_of_pos hq])
  rw [abs_of_pos hq, abs_le] at herr
  exact ⟨r, hr, by linarith, by linarith⟩

/-- The square of a coordinate difference as `calculateDistance` computes it
(`pow(a - b, 2)`) is within `5 * 2 ^ (-53)` of the exact square. -/
theorem squaredDifference_accurate {fp : Fpu} (hfp : AccurateFpu fp) (x y : ℚ)
    (h : SafeDifference (x - y)) :
    ∃ t : ℚ, Dbl.pow2 fp (Dbl.sub fp (.fin x) (.fin y)) = .fin t ∧
      (1 - 5 * 2 ^ (-53 : ℤ)) * (x - y) ^ 2 ≤ t ∧ t ≤ (1 + 5 * 2 ^ (-53 : ℤ)) * (x - y) ^ 2 := by
  rcases h with h0 | ⟨hlo, hhi⟩
  · refine ⟨0, ?_, ?_, ?_⟩
    · simp [Dbl.sub, Dbl.ofExact, h0, Dbl.pow2]
    · rw [h0]; norm_num
    · rw [h0]; norm_num
  · have hapos : 0 < |x - y| := lt_of_lt_of_le (by positivity) hlo
    have ha : x - y ≠ 0 := abs_pos.mp hapos
    obtain ⟨A, hA, hAerr⟩ := hfp.1 (x - y)
      (le_trans (zpow_le_zpow_right₀ (by norm_num) (by norm_num)) hlo)
      (le_trans hhi (zpow_le_zpow_right₀ (by norm_num) (by norm_num)))
    have hu : (2 : ℚ) ^ (-53 : ℤ) = 1 / 2 ^ 53 := by norm_num
    have hu2 : (2 : ℚ) ^ (-52 : ℤ) = 1 / 2 ^ 52 := by norm_num
    rw [hu] at hAerr
    have hA1 : |A| ≤ (1 + 1 / 2 ^ 53) * |x - y| := by
      have := abs_sub_abs_le_abs_sub A (x - y)
      linarith
    have hA2 : (1 - 1 / 2 ^ 53) * |x - y| ≤ |A| := by
      have := abs_sub_abs_le_abs_sub (x - y) A
      rw [abs_sub_comm (x - y) A] at this
      linarith
    have h400 : (2 : ℚ) ^ (400 : ℤ) * 2 ≤ 2 ^ (500 : ℤ) := by
      rw [show (2 : ℚ) ^ (400 : ℤ) * 2 = 2 ^ (401 : ℤ) by
        rw [show (401 : ℤ) = 400 + 1 by norm_num, zpow_add₀ (by norm_num : (2 : ℚ) ≠ 0)]
        norm_num]
      exact zpow_le_zpow_right₀ (by norm_num) (by norm_num)
    have h400' : (2 : ℚ) ^ (-500 : ℤ) ≤ 2 ^ (-400 : ℤ) / 2 := by
      rw [show (2 : ℚ) ^ (-400 : ℤ) / 2 = 2 ^ (-401 : ℤ) by
        rw [show (-401 : ℤ) = -400 + -1 by norm_num, zpow_add₀ (by norm_num : (2 : ℚ) ≠ 0)]
        norm_num]
      exact zpow_le_zpow_right₀ (by norm_num) (by norm_num)
    have hAlo : (2 : ℚ) ^ (-500 : ℤ) ≤ |A| := by
      have h1 : |x - y| / 2 ≤ (1 - (1 : ℚ) / 2 ^ 53) * |x - y| := by
        have : (1 : ℚ) / 2 ≤ 1 - 1 / 2 ^ 53 := by norm_num
        nlinarith
      have h2 : (2 : ℚ) ^ (-400 : ℤ) / 2 ≤ |x - y| / 2 :=
        div_le_div_of_nonneg_right hlo (by norm_num)
      exact le_trans h400' (le_trans h2 (le_trans h1 hA2))
    have hAhi : |A| ≤ (2 : ℚ) ^ (500 : ℤ) := by
      have h1 : (1 + (1 : ℚ) / 2 ^ 53) * |x - y| ≤ |x - y| * 2 := by
        have : (1 : ℚ) + 1 / 2 ^ 53 ≤ 2 := by norm_num
        nlinarith
      have h2 : |x - y| * 2 ≤ (2 : ℚ) ^ (400 : ℤ) * 2 :=
        mul_le_mul_of_nonneg_right hhi (by norm_num)
      exact le_trans hA1 (le_trans h1 (le_trans h2 h400))
    have hA0 : A ≠ 0 := by
      intro h
      rw [h, abs_zero] at hAlo
      exact absurd hAlo (not_le.mpr (by positivity))
    obtain ⟨t, ht, hterr⟩ := hfp.2.2 A hAlo hAhi
    rw [hu2, abs_le] at hterr
    refine ⟨t, ?_, ?_, ?_⟩
    · simp [Dbl.sub, Dbl.ofExact, ha, hA, Dbl.pow2, hA0, ht]
    · rw [hu]
      have hsq : ((1 - (1 : ℚ) / 2 ^ 53) * |x - y|) ^ 2 ≤ |A| ^ 2 :=
        pow_le_pow_left₀ (mul_nonneg (by norm_num) (abs_nonneg _)) hA2 2
      rw [sq_abs, mul_pow, sq_abs] at hsq
      have hAA : A * A = A ^ 2 := by ring
      rw [hAA] at hterr
      have h3 : (1 - (1 : ℚ) / 2 ^ 52) * A ^ 2 ≤ t := by linarith [hterr.1]
      have h4 : (1 - (1 : ℚ) / 2 ^ 52) * ((1 - (1 : ℚ) / 2 ^ 53) ^ 2 * (x - y) ^ 2) ≤
          (1 - (1 : ℚ) / 2 ^ 52) * A ^ 2 :=
        mul_le_mul_of_nonneg_left hsq (by norm_num)
      have h5 : (1 - 5 * ((1 : ℚ) / 2 ^ 53)) ≤
          (1 - (1 : ℚ) / 2 ^ 52) * (1 - (1 : ℚ) / 2 ^ 53) ^ 2 := by norm_num
      have h6 := mul_le_mul_of_nonneg_right h5 (sq_nonneg (x - y))
      linarith
    · rw [hu]
      have hsq : |A| ^ 2 ≤ ((1 + (1 : ℚ) / 2 ^ 53) * |x - y|) ^ 2 :=
        pow_le_pow_left₀ (abs_nonneg _) hA1 2
      rw [sq_abs, mul_pow, sq_abs] at hsq
      have hAA : A * A = A ^ 2 := by ring
      rw [hAA] at hterr
      have h3 : t ≤ (1 + (1 : ℚ) / 2 ^ 52) * A ^ 2 := by linarith [hterr.2]
      have h4 : (1 + (1 : ℚ) / 2 ^ 52) * A ^ 2 ≤
          (1 + (1 : ℚ) / 2 ^ 52) * ((1 + (1 : ℚ) / 2 ^ 53) ^ 2 * (x - y) ^ 2) :=
        mul_le_mul_of_nonneg_left hsq (by norm_num)
      have h5 : (1 + (1 : ℚ) / 2 ^ 52) * (1 + (1 : ℚ) / 2 ^ 53) ^ 2 ≤
          (1 + 5 * ((1 : ℚ) / 2 ^ 53)) := by norm_num
      have h6 := mul_le_mul_of_nonneg_right h5 (sq_nonneg (x - y))
      linarith


theorem two_zpow_sq (e : ℤ) : ((2 : ℚ) ^ e) ^ 2 = 2 ^ (2 * e) := by
  rw [show 2 * e = e + e by ring, zpow_add₀ (by norm_num : (2 : ℚ) ≠ 0)]
  ring

theorem two_zpow_double (e : ℤ) : 2 * (2 : ℚ) ^ e = 2 ^ (e + 1) := by
  rw [zpow_add₀ (by norm_num : (2 : ℚ) ≠ 0)]
  norm_num
  ring

theorem two_zpow_half (e : ℤ) : (2 : ℚ) ^ e / 2 = 2 ^ (e - 1) := by
  rw [show e - 1 = e + -1 by ring, zpow_add₀ (by norm_num : (2 : ℚ) ≠ 0)]
  norm_num
  ring

theorem one_div_two_zpow (e : ℤ) : 1 / (2 : ℚ) ^ e = 2 ^ (-e) := by
  rw [one_div, ← zpow_neg]

theorem two_zpow_mono {a b : ℤ} (h : a ≤ b) : (2 : ℚ) ^ a ≤ 2 ^ b :=
  zpow_le_zpow_right₀ (by norm_num) h

theorem SafeDifference.sq_le {a : ℚ} (h : SafeDifference a) : a ^ 2 ≤ 2 ^ (800 : ℤ) := by
  rcases h with h0 | ⟨_, hhi⟩
  · rw [h0]
    positivity
  · have := pow_le_pow_left₀ (abs_nonneg a) hhi 2
    rw [sq_abs, two_zpow_sq] at this
    exact this

theorem SafeDifference.le_sq {a : ℚ} (h : SafeDifference a) (ha : a ≠ 0) :
    (2 : ℚ) ^ (-800 : ℤ) ≤ a ^ 2 := by
  rcases h with h0 | ⟨hlo, _⟩
  · exact absurd h0 ha
  · have := pow_le_pow_left₀ (by positivity) hlo 2
    rw [sq_abs, two_zpow_sq] at this
    exact this

/-- The distance as `calculateDistance` computes it is finite, positive and within
`5 * 2 ^ (-53)` of the Euclidean distance (the bound is stated on the squares). -/
theorem calculateDistance_accurate {fp : Fpu} (hfp : AccurateFpu fp) (x₁ y₁ x₂ y₂ : ℚ)
    (hx : SafeDifference (x₁ - x₂)) (hy : SafeDifference (y₁ - y₂))
    (hne : x₁ - x₂ ≠ 0 ∨ y₁ - y₂ ≠ 0) :
    ∃ r : ℚ, calculateDistance fp ⟨.fin x₁, .fin y₁⟩ ⟨.fin x₂, .fin y₂⟩ = .fin r ∧ 0 < r ∧
      (1 - 5 * 2 ^ (-53 : ℤ)) ^ 2 * ((x₁ - x₂) ^ 2 + (y₁ - y₂) ^ 2) ≤ r ^ 2 ∧
      r ^ 2 ≤ (1 + 5 * 2 ^ (-53 : ℤ)) ^ 2 * ((x₁ - x₂) ^ 2 + (y₁ - y₂) ^ 2) ∧
      (2 : ℚ) ^ (-500 : ℤ) ≤ r ∧ r ≤ 2 ^ (500 : ℤ) := by
  obtain ⟨t₁, ht₁, hl₁, hu₁⟩ := squaredDifference_accurate hfp x₁ x₂ hx
  obtain ⟨t₂, ht₂, hl₂, hu₂⟩ := squaredDifference_accurate hfp y₁ y₂ hy
  have hu : (2 : ℚ) ^ (-53 : ℤ) = 1 / 2 ^ 53 := by norm_num
  rw [hu] at hl₁ hu₁ hl₂ hu₂ ⊢
  -- bounds on the exact squared distance
  have hDhi : (x₁ - x₂) ^ 2 + (y₁ - y₂) ^ 2 ≤ 2 ^ (801 : ℤ) := by
    have := add_le_add hx.sq_le hy.sq_le
    rw [← two_mul, two_zpow_double] at this
    exact this
  have hDlo : (2 : ℚ) ^ (-800 : ℤ) ≤ (x₁ - x₂) ^ 2 + (y₁ - y₂) ^ 2 := by
    rcases hne with h | h
    · linarith [hx.le_sq h, sq_nonneg (y₁ - y₂)]
    · linarith [hy.le_sq h, sq_nonneg (x₁ - x₂)]
  generalize hDdef : (x₁ - x₂) ^ 2 + (y₁ - y₂) ^ 2 = D at hDhi hDlo ⊢
  have hDpos : 0 < D := lt_of_lt_of_le (by positivity) hDlo
  -- the sum of the two computed squares
  have hTl : (1 - 5 * ((1 : ℚ) / 2 ^ 53)) * D ≤ t₁ + t₂ := by
    rw [← hDdef]
    linarith
  have hTu : t₁ + t₂ ≤ (1 + 5 * ((1 : ℚ) / 2 ^ 53)) * D := by
    rw [← hDdef]
    linarith
  have hThalf : D / 2 ≤ t₁ + t₂ := by
    have : (1 : ℚ) / 2 ≤ 1 - 5 * (1 / 2 ^ 53) := by norm_num
    have := mul_le_mul_of_nonneg_right this hDpos.le
    linarith
  have hTdouble : t₁ + t₂ ≤ 2 * D := by
    have : 1 + 5 * ((1 : ℚ) / 2 ^ 53) ≤ 2 := by norm_num
    have := mul_le_mul_of_nonneg_right this hDpos.le
    linarith
  have hTpos : 0 < t₁ + t₂ := by linarith
  have hTlo : (2 : ℚ) ^ (-1000 : ℤ) ≤ t₁ + t₂ := by
    have h1 : (2 : ℚ) ^ (-800 : ℤ) / 2 ≤ D / 2 := div_le_div_of_nonneg_right hDlo (by norm_num)
    rw [two_zpow_half] at h1
    exact le_trans (two_zpow_mono (by norm_num)) (le_trans h1 hThalf)
  have hThi : t₁ + t₂ ≤ (2 : ℚ) ^ (1000 : ℤ) := by
    have h1 : 2 * D ≤ 2 * 2 ^ (801 : ℤ) := mul_le_mul_of_nonneg_left hDhi (by norm_num)
    rw [two_zpow_double] at h1
    exact le_trans hTdouble (le_trans h1 (two_zpow_mono (by norm_num)))
  obtain ⟨S, hS, hSl, hSu⟩ := round_accurate_pos hfp (t₁ + t₂) hTlo hThi
  rw [hu] at hSl hSu
  have hShalf : D / 4 ≤ S := by
    have : (1 : ℚ) / 2 ≤ 1 - 1 / 2 ^ 53 := by norm_num
    have := mul_le_mul_of_nonneg_right this hTpos.le
    linarith
  have hSdouble : S ≤ 4 * D := by
    have : 1 + (1 : ℚ) / 2 ^ 53 ≤ 2 := by norm_num
    have := mul_le_mul_of_nonneg_right this hTpos.le
    linarith
  have hSpos : 0 < S := by linarith
  have hSlo : (2 : ℚ) ^ (-1000 : ℤ) ≤ S := by
    have h1 : (2 : ℚ) ^ (-800 : ℤ) / 2 / 2 ≤ D / 2 / 2 :=
      div_le_div_of_nonneg_right (div_le_div_of_nonneg_right hDlo (by norm_num)) (by norm_num)
    rw [two_zpow_half, two_zpow_half] at h1
    have h2 : D / 2 / 2 = D / 4 := by ring
    rw [h2] at h1
    exact le_trans (two_zpow_mono (by norm_num)) (le_trans h1 hShalf)
  have hShi : S ≤ (2 : ℚ) ^ (1000 : ℤ) := by
    have h1 : 2 * (2 * D) ≤ 2 * (2 * 2 ^ (801 : ℤ)) :=
      mul_le_mul_of_nonneg_left (mul_le_mul_of_nonneg_left hDhi (by norm_num)) (by norm_num)
    rw [two_zpow_double, two_zpow_double] at h1
    have h2 : 2 * (2 * D) = 4 * D := by ring
    rw [h2] at h1
    exact le_trans hSdouble (le_trans h1 (two_zpow_mono (by norm_num)))
  obtain ⟨r, hr, hr0, hrl, hru⟩ := hfp.2.1 S hSlo hShi
  rw [hu] at hrl hru
  have hrl' : (1 - 5 * ((1 : ℚ) / 2 ^ 53)) ^ 2 * D ≤ r ^ 2 := by
    have h1 : (1 - (1 : ℚ) / 2 ^ 53) ^ 2 * ((1 - 1 / 2 ^ 53) * ((1 - 5 * (1 / 2 ^ 53)) * D)) ≤
        (1 - (1 : ℚ) / 2 ^ 53) ^ 2 * S :=
      mul_le_mul_of_nonneg_left
        (le_trans (mul_le_mul_of_nonneg_left hTl (by norm_num)) hSl) (sq_nonneg _)
    have h2 : (1 - 5 * ((1 : ℚ) / 2 ^ 53)) ^ 2 ≤
        (1 - (1 : ℚ) / 2 ^ 53) ^ 2 * ((1 - 1 / 2 ^ 53) * (1 - 5 * (1 / 2 ^ 53))) := by
      norm_num
    have h3 := mul_le_mul_of_nonneg_right h2 hDpos.le
    linarith
  have hru' : r ^ 2 ≤ (1 + 5 * ((1 : ℚ) / 2 ^ 53)) ^ 2 * D := by
    have h1 : (1 + (1 : ℚ) / 2 ^ 53) ^ 2 * S ≤
        (1 + (1 : ℚ) / 2 ^ 53) ^ 2 * ((1 + 1 / 2 ^ 53) * ((1 + 5 * (1 / 2 ^ 53)) * D)) :=
      mul_le_mul_of_nonneg_left
        (le_trans hSu (mul_le_mul_of_nonneg_left hTu (by norm_num))) (sq_nonneg _)
    have h2 : (1 + (1 : ℚ) / 2 ^ 53) ^ 2 * ((1 + 1 / 2 ^ 53) * (1 + 5 * (1 / 2 ^ 53))) ≤
        (1 + 5 * ((1 : ℚ) / 2 ^ 53)) ^ 2 := by
      norm_num
    have h3 := mul_le_mul_of_nonneg_right h2 hDpos.le
    linarith
  have hrpos : 0 < r := by
    rcases hr0.lt_or_eq with h | h
    · exact h
    · rw [← h] at hrl'
      have : 0 < (1 - 5 * ((1 : ℚ) / 2 ^ 53)) ^ 2 * D := by positivity
      have h0 : (0 : ℚ) ^ 2 = 0 := by norm_num
      linarith
  have hrlo : (2 : ℚ) ^ (-500 : ℤ) ≤ r := by
    have h1 : ((2 : ℚ) ^ (-500 : ℤ)) ^ 2 ≤ r ^ 2 := by
      rw [two_zpow_sq]
      have h2 : (2 : ℚ) ^ (-800 : ℤ) / 2 / 2 ≤ D / 2 / 2 :=
        div_le_div_of_nonneg_right (div_le_div_of_nonneg_right hDlo (by norm_num))
          (by norm_num)
      rw [two_zpow_half, two_zpow_half] at h2
      have h3 : D / 2 / 2 ≤ (1 - 5 * ((1 : ℚ) / 2 ^ 53)) ^ 2 * D := by
        have : (1 : ℚ) / 4 ≤ (1 - 5 * (1 / 2 ^ 53)) ^ 2 := by norm_num
        have := mul_le_mul_of_nonneg_right this hDpos.le
        linarith
      exact le_trans (two_zpow_mono (by norm_num)) (le_trans h2 (le_trans h3 hrl'))
    exact (pow_le_pow_iff_left₀ (by positivity) hr0 (by norm_num)).mp h1
  have hrhi : r ≤ (2 : ℚ) ^ (500 : ℤ) := by
    have h1 : r ^ 2 ≤ ((2 : ℚ) ^ (500 : ℤ)) ^ 2 := by
      rw [two_zpow_sq]
      have h2 : 2 * (2 * D) ≤ 2 * (2 * 2 ^ (801 : ℤ)) :=
        mul_le_mul_of_nonneg_left (mul_le_mul_of_nonneg_left hDhi (by norm_num)) (by norm_num)
      rw [two_zpow_double, two_zpow_double] at h2
      have h3 : (1 + 5 * ((1 : ℚ) / 2 ^ 53)) ^ 2 * D ≤ 2 * (2 * D) := by
        have : (1 + 5 * ((1 : ℚ) / 2 ^ 53)) ^ 2 ≤ 4 := by norm_num
        have := mul_le_mul_of_nonneg_right this hDpos.le
        linarith
      exact le_trans hru' (le_trans h3 (le_trans h2 (two_zpow_mono (by norm_num))))
    exact (pow_le_pow_iff_left₀ hr0 (by positivity) (by norm_num)).mp h1
  refine ⟨r, ?_, hrpos, hrl', hru', hrlo, hrhi⟩
  unfold calculateDistance
  simp only [ht₁, ht₂, Dbl.add, Dbl.ofExact, if_neg hTpos.ne', hS, Dbl.sqrt, if_neg hSpos.ne',
    if_neg (not_lt.mpr hSpos.le), hr]


theorem roundHalfAway_of_pos {q : ℚ} (hq : 0 ≤ q) : roundHalfAway q = ⌊q + 1 / 2⌋ := by
  unfold roundHalfAway
  rw [if_pos hq]

/-- A value within relative distance `2 ^ (-50)` of `t` rounds like `t`, when `t` is farther
than that from the halfway points between the integers. -/
theorem floor_add_half_stable (p : ℚ) (t : ℝ)
    (hl : (1 - 2 ^ (-50 : ℤ)) * t ≤ (p : ℝ)) (hu : (p : ℝ) ≤ (1 + 2 ^ (-50 : ℤ)) * t)
    (hmargin : ∀ j : ℤ, 2 ^ (-50 : ℤ) * t < |t - (j + 1 / 2)|) :
    ⌊p + 1 / 2⌋ = ⌊t + 1 / 2⌋ := by
  have h1 := Int.floor_le (t + 1 / 2)
  have h2 := Int.lt_floor_add_one (t + 1 / 2)
  have hm1 := hmargin ⌊t + 1 / 2⌋
  have hm2 := hmargin (⌊t + 1 / 2⌋ - 1)
  rw [abs_of_neg (by linarith)] at hm1
  push_cast at hm2
  rw [abs_of_nonneg (by linarith)] at hm2
  have hu50 : (2 : ℝ) ^ (-50 : ℤ) = 1 / 2 ^ 50 := by norm_num
  rw [hu50] at hl hu hm1 hm2
  rw [Int.floor_eq_iff]
  constructor
  · have : ((⌊t + 1 / 2⌋ : ℤ) : ℝ) ≤ ((p + 1 / 2 : ℚ) : ℝ) := by
      push_cast
      linarith
    exact_mod_cast this
  · have : ((p + 1 / 2 : ℚ) : ℝ) < ((⌊t + 1 / 2⌋ : ℤ) : ℝ) + 1 := by
      push_cast
      linarith
    exact_mod_cast this

/-- The distance term computed from a distance `r` within `5 * 2 ^ (-53)` of `d` is
`round(5000 / d)`, when `5000 / d` is farther than `2 ^ (-50)` (relative) from the halfway
points between the integers. -/
theorem distanceTerm_accurate {fp : Fpu} (hfp : AccurateFpu fp) (r : ℚ) (d : ℝ) (hd : 0 < d)
    (hrlo : (2 : ℚ) ^ (-500 : ℤ) ≤ r) (hrhi : r ≤ 2 ^ (500 : ℤ))
    (hl : (1 - 5 * 2 ^ (-53 : ℤ)) * d ≤ (r : ℝ)) (hu : (r : ℝ) ≤ (1 + 5 * 2 ^ (-53 : ℤ)) * d)
    (hmargin : ∀ j : ℤ, 2 ^ (-50 : ℤ) * (5000 / d) < |5000 / d - (j + 1 / 2)|) :
    distanceTerm fp (.fin r) = checkedInt ⌊5000 / d + 1 / 2⌋ := by
  have hr0 : 0 < r := lt_of_lt_of_le (by positivity) hrlo
  -- the quotient 1 / r
  have hqlo : (2 : ℚ) ^ (-1000 : ℤ) ≤ 1 / r := by
    have h1 : 1 / (2 : ℚ) ^ (500 : ℤ) ≤ 1 / r := one_div_le_one_div_of_le hr0 hrhi
    rw [one_div_two_zpow] at h1
    exact le_trans (two_zpow_mono (by norm_num)) h1
  have hqhi : 1 / r ≤ (2 : ℚ) ^ (1000 : ℤ) := by
    have h1 : 1 / r ≤ 1 / (2 : ℚ) ^ (-500 : ℤ) :=
      one_div_le_one_div_of_le (by positivity) hrlo
    rw [one_div_two_zpow] at h1
    exact le_trans h1 (two_zpow_mono (by norm_num))
  obtain ⟨Q, hQ, hQl, hQu⟩ := round_accurate_pos hfp (1 / r) hqlo hqhi
  have hu53 : (2 : ℚ) ^ (-53 : ℤ) = 1 / 2 ^ 53 := by norm_num
  rw [hu53] at hQl hQu
  have hinv : 0 < 1 / r := by positivity
  have hQpos : 0 < Q := by
    have : 0 < (1 - (1 : ℚ) / 2 ^ 53) * (1 / r) := mul_pos (by norm_num) hinv
    linarith
  -- the product with 5000
  have hplo : (2 : ℚ) ^ (-1000 : ℤ) ≤ Q * 5000 := by
    have h1 : (1 / r) / 2 ≤ Q := by
      have : (1 : ℚ) / 2 ≤ 1 - 1 / 2 ^ 53 := by norm_num
      have := mul_le_mul_of_nonneg_right this hinv.le
      linarith
    have h2 : (2 : ℚ) ^ (-500 : ℤ) / 2 ≤ (1 / r) / 2 := by
      have h3 : 1 / (2 : ℚ) ^ (500 : ℤ) ≤ 1 / r := one_div_le_one_div_of_le hr0 hrhi
      rw [one_div_two_zpow] at h3
      exact div_le_div_of_nonneg_right h3 (by norm_num)
    rw [two_zpow_half] at h2
    have h4 : Q ≤ Q * 5000 := by linarith
    exact le_trans (two_zpow_mono (by norm_num)) (le_trans h2 (le_trans h1 h4))
  have hphi : Q * 5000 ≤ (2 : ℚ) ^ (1000 : ℤ) := by
    have h1 : Q ≤ 2 * (1 / r) := by
      have : 1 + (1 : ℚ) / 2 ^ 53 ≤ 2 := by norm_num
      have := mul_le_mul_of_nonneg_right this hinv.le
      linarith
    have h2 : 1 / r ≤ (2 : ℚ) ^ (500 : ℤ) := by
      have h3 : 1 / r ≤ 1 / (2 : ℚ) ^ (-500 : ℤ) :=
        one_div_le_one_div_of_le (by positivity) hrlo
      rw [one_div_two_zpow] at h3
      exact h3
    have h4 : Q * 5000 ≤ 2 ^ (13 : ℤ) * (2 * (2 : ℚ) ^ (500 : ℤ)) := by
      have h5 : Q ≤ 2 * (2 : ℚ) ^ (500 : ℤ) := by linarith
      have h6 : (5000 : ℚ) ≤ 2 ^ (13 : ℤ) := by norm_num
      calc Q * 5000 ≤ Q * 2 ^ (13 : ℤ) := mul_le_mul_of_nonneg_left h6 hQpos.le
        _ = 2 ^ (13 : ℤ) * Q := mul_comm _ _
        _ ≤ 2 ^ (13 : ℤ) * (2 * (2 : ℚ) ^ (500 : ℤ)) :=
          mul_le_mul_of_nonneg_left h5 (by positivity)
    rw [two_zpow_double, ← zpow_add₀ (by norm_num : (2 : ℚ) ≠ 0)] at h4
    exact le_trans h4 (two_zpow_mono (by norm_num))
  obtain ⟨P, hP, hPl, hPu⟩ := round_accurate_pos hfp (Q * 5000) hplo hphi
  rw [hu53] at hPl hPu
  have hPpos : 0 < P := by
    have : 0 < (1 - (1 : ℚ) / 2 ^ 53) * (Q * 5000) :=
      mul_pos (by norm_num) (mul_pos hQpos (by norm_num))
    linarith
  -- evaluation of the source expression
  have heval : distanceTerm fp (.fin r) = checkedInt ⌊P + 1 / 2⌋ := by
    have h1 : (1 : ℚ) / r ≠ 0 := hinv.ne'
    have h2 : Q * 5000 ≠ 0 := (mul_pos hQpos (by norm_num)).ne'
    simp only [distanceTerm, Dbl.div, if_neg hr0.ne', Dbl.ofExact, if_neg h1, hQ, Dbl.mul,
      DISTANCE_COEFFICIENT, Int.cast_ofNat, if_neg h2, hP, Dbl.round, Dbl.toInt,
      truncToZero_intCast, roundHalfAway_of_pos hPpos.le]
  rw [heval]
  congr 1
  -- the computed product is within 2 ^ (-50) of 5000 / d
  have hrR : (0 : ℝ) < (r : ℝ) := by exact_mod_cast hr0
  have hPR : (0 : ℝ) < (P : ℝ) := by exact_mod_cast hPpos
  have hu53R : (2 : ℝ) ^ (-53 : ℤ) = 1 / 2 ^ 53 := by norm_num
  have hu50R : (2 : ℝ) ^ (-50 : ℤ) = 1 / 2 ^ 50 := by norm_num
  rw [hu53R] at hl hu
  have hQr1 : (1 - (1 : ℚ) / 2 ^ 53) ≤ Q * r := by
    have := mul_le_mul_of_nonneg_right hQl hr0.le
    rwa [mul_assoc, one_div_mul_cancel hr0.ne', mul_one] at this
  have hQr2 : Q * r ≤ (1 + (1 : ℚ) / 2 ^ 53) := by
    have := mul_le_mul_of_nonneg_right hQu hr0.le
    rwa [mul_assoc, one_div_mul_cancel hr0.ne', mul_one] at this
  have hPr1 : (1 - (1 : ℝ) / 2 ^ 53) * ((1 - 1 / 2 ^ 53) * 5000) ≤ (P : ℝ) * r := by
    have h1 : (1 - (1 : ℚ) / 2 ^ 53) * ((1 - 1 / 2 ^ 53) * 5000) ≤ P * r := by
      have h2 := mul_le_mul_of_nonneg_right hPl hr0.le
      have h3 : (1 - (1 : ℚ) / 2 ^ 53) * (Q * 5000) * r =
          (1 - (1 : ℚ) / 2 ^ 53) * ((Q * r) * 5000) := by ring
      rw [h3] at h2
      have h4 : (1 - (1 : ℚ) / 2 ^ 53) * ((1 - 1 / 2 ^ 53) * 5000) ≤
          (1 - (1 : ℚ) / 2 ^ 53) * ((Q * r) * 5000) :=
        mul_le_mul_of_nonneg_left (mul_le_mul_of_nonneg_right hQr1 (by norm_num))
          (by norm_num)
      linarith
    have h1R := (Rat.cast_le (K := ℝ)).mpr h1
    push_cast at h1R
    exact h1R
  have hPr2 : (P : ℝ) * r ≤ (1 + (1 : ℝ) / 2 ^ 53) * ((1 + 1 / 2 ^ 53) * 5000) := by
    have h1 : P * r ≤ (1 + (1 : ℚ) / 2 ^ 53) * ((1 + 1 / 2 ^ 53) * 5000) := by
      have h2 := mul_le_mul_of_nonneg_right hPu hr0.le
      have h3 : (1 + (1 : ℚ) / 2 ^ 53) * (Q * 5000) * r =
          (1 + (1 : ℚ) / 2 ^ 53) * ((Q * r) * 5000) := by ring
      rw [h3] at h2
      have h4 : (1 + (1 : ℚ) / 2 ^ 53) * ((Q * r) * 5000) ≤
          (1 + (1 : ℚ) / 2 ^ 53) * ((1 + 1 / 2 ^ 53) * 5000) :=
        mul_le_mul_of_nonneg_left (mul_le_mul_of_nonneg_right hQr2 (by norm_num))
          (by norm_num)
      linarith
    have h1R := (Rat.cast_le (K := ℝ)).mpr h1
    push_cast at h1R
    exact h1R
  have hPd1 : (1 - (1 : ℝ) / 2 ^ 50) * 5000 ≤ (P : ℝ) * d := by
    have h1 : (P : ℝ) * r ≤ (1 + 5 * (1 / 2 ^ 53)) * ((P : ℝ) * d) := by
      have := mul_le_mul_of_nonneg_left hu hPR.le
      linarith
    have h2 : (1 + 5 * ((1 : ℝ) / 2 ^ 53)) * ((1 - 1 / 2 ^ 50) * 5000) ≤
        (1 - (1 : ℝ) / 2 ^ 53) * ((1 - 1 / 2 ^ 53) * 5000) := by norm_num
    have h3 : (1 + 5 * ((1 : ℝ) / 2 ^ 53)) * ((1 - 1 / 2 ^ 50) * 5000) ≤
        (1 + 5 * (1 / 2 ^ 53)) * ((P : ℝ) * d) := by linarith
    exact le_of_mul_le_mul_left h3 (by norm_num)
  have hPd2 : (P : ℝ) * d ≤ (1 + (1 : ℝ) / 2 ^ 50) * 5000 := by
    have h1 : (1 - 5 * (1 / 2 ^ 53)) * ((P : ℝ) * d) ≤ (P : ℝ) * r := by
      have := mul_le_mul_of_nonneg_left hl hPR.le
      linarith
    have h2 : (1 + (1 : ℝ) / 2 ^ 53) * ((1 + 1 / 2 ^ 53) * 5000) ≤
        (1 - 5 * ((1 : ℝ) / 2 ^ 53)) * ((1 + 1 / 2 ^ 50) * 5000) := by norm_num
    have h3 : (1 - 5 * (1 / 2 ^ 53)) * ((P : ℝ) * d) ≤
        (1 - 5 * ((1 : ℝ) / 2 ^ 53)) * ((1 + 1 / 2 ^ 50) * 5000) := by linarith
    exact le_of_mul_le_mul_left h3 (by norm_num)
  apply floor_add_half_stable P (5000 / d) _ _ hmargin
  · rw [hu50R, mul_div_assoc', div_le_iff₀ hd]
    exact hPd1
  · rw [hu50R, mul_div_assoc', le_div_iff₀ hd]
    exact hPd2


/-- Rank of one order under an accurate floating-point unit: the rank is
`round(5000 / d) + (donation.timestamp - order.timestamp)` for the Euclidean distance `d`, when
`5000 / d` is farther than `2 ^ (-50)` (relative) from the halfway points between the integers
and the `int` operations do not overflow. -/
theorem calculateRank_accurate {fp : Fpu} (hfp : AccurateFpu fp) (donation : Donation)
    (order : Order) (ox oy px py : ℚ) (d : ℝ)
    (ho : order.location = ⟨.fin ox, .fin oy⟩) (hdon : donation.location = ⟨.fin px, .fin py⟩)
    (hx : SafeDifference (ox - px)) (hy : SafeDifference (oy - py))
    (hd : d = Real.sqrt ((ox - px) ^ 2 + (oy - py) ^ 2)) (hd0 : d ≠ 0)
    (hmargin : ∀ j : ℤ, 2 ^ (-50 : ℤ) * (5000 / d) < |5000 / d - (j + 1 / 2)|)
    (hterm : ⌊5000 / d + 1 / 2⌋ ≤ INT_MAX)
    (htime : INT_MIN ≤ donation.timestamp - order.timestamp ∧
      donation.timestamp - order.timestamp ≤ INT_MAX)
    (hsum : INT_MIN ≤ ⌊5000 / d + 1 / 2⌋ + (donation.timestamp - order.timestamp) ∧
      ⌊5000 / d + 1 / 2⌋ + (donation.timestamp - order.timestamp) ≤ INT_MAX) :
    calculateRank fp donation order =
      .ok { order with
        rank := ⌊5000 / d + 1 / 2⌋ + (donation.timestamp - order.timestamp) } := by
  have hdpos : 0 < d := lt_of_le_of_ne (hd ▸ Real.sqrt_nonneg _) (Ne.symm hd0)
  have hne : ox - px ≠ 0 ∨ oy - py ≠ 0 := by
    by_contra hcon
    push_neg at hcon
    have h1 : ((ox : ℝ) - px) = 0 := by exact_mod_cast hcon.1
    have h2 : ((oy : ℝ) - py) = 0 := by exact_mod_cast hcon.2
    rw [h1, h2] at hd
    norm_num at hd
    exact hd0 hd
  obtain ⟨r, hr, hrpos, hrl, hru, hrlo, hrhi⟩ :=
    calculateDistance_accurate hfp ox oy px py hx hy hne
  have hDnn : (0 : ℝ) ≤ ((ox : ℝ) - px) ^ 2 + ((oy : ℝ) - py) ^ 2 := by positivity
  have hdsq : d ^ 2 = ((ox : ℝ) - px) ^ 2 + ((oy : ℝ) - py) ^ 2 := by
    rw [hd, Real.sq_sqrt hDnn]
  have hrR : (0 : ℝ) ≤ (r : ℝ) := by exact_mod_cast hrpos.le
  have hl : (1 - 5 * 2 ^ (-53 : ℤ)) * d ≤ (r : ℝ) := by
    have h1 := (Rat.cast_le (K := ℝ)).mpr hrl
    push_cast at h1
    rw [← hdsq, ← mul_pow] at h1
    have h2 : (0 : ℝ) ≤ (1 - 5 * 2 ^ (-53 : ℤ)) * d :=
      mul_nonneg (by norm_num) hdpos.le
    exact (pow_le_pow_iff_left₀ h2 hrR (by norm_num)).mp h1
  have hu : (r : ℝ) ≤ (1 + 5 * 2 ^ (-53 : ℤ)) * d := by
    have h1 := (Rat.cast_le (K := ℝ)).mpr hru
    push_cast at h1
    rw [← hdsq, ← mul_pow] at h1
    have h2 : (0 : ℝ) ≤ (1 + 5 * 2 ^ (-53 : ℤ)) * d :=
      mul_nonneg (by norm_num) hdpos.le
    exact (pow_le_pow_iff_left₀ hrR h2 (by norm_num)).mp h1
  have hterm0 : 0 ≤ ⌊5000 / d + 1 / 2⌋ := Int.floor_nonneg.mpr (by positivity)
  rw [calculateRank_eq_ok]
  refine ⟨⌊5000 / d + 1 / 2⌋, ?_, htime, hsum, rfl⟩
  rw [ho, hdon, hr, distanceTerm_accurate hfp r d hdpos hrlo hrhi hl hu hmargin,
    checkedInt_eq_ok]
  refine ⟨⟨?_, hterm⟩, rfl⟩
  unfold INT_MIN
  omega

/-- Function `calculateRanks` sets the ranks that the loop body computes. -/
theorem calculateRanks_eq_map (fp : Fpu) (donation : Donation) (f : Order → Int) :
    ∀ orders : List Order,
      (∀ o ∈ orders, calculateRank fp donation o = .ok { o with rank := f o }) →
      calculateRanks fp orders donation = .ok (orders.map fun o => { o with rank := f o }) := by
  intro orders
  induction orders with
  | nil =>
    intro _
    rfl
  | cons o rest ih =>
    intro h
    rw [calculateRanks_cons, h o (List.mem_cons_self _ _),
      ih (fun p hp => h p (List.mem_cons_of_mem _ hp))]
    rfl

/-! ## Evaluation of the rank at concrete inputs -/

/-- Evaluation of the rounding at a positive value of a known binade. -/
theorem roundBinary64_eq_pos (q r : ℚ) (e n : ℤ) (he : -1022 ≤ e) (h1 : (2 : ℚ) ^ e ≤ q)
    (h2 : q < (2 : ℚ) ^ (e + 1)) (hr : r = n * 2 ^ (e - 52))
    (hlo : (n : ℚ) - 1 / 2 < q / 2 ^ (e - 52)) (hhi : q / 2 ^ (e - 52) < (n : ℚ) + 1 / 2)
    (hr0 : 0 ≤ r) (hfin : r < 2 ^ (1024 : ℤ)) :
    roundBinary64 q = .fin r := by
  have hq : 0 < q := lt_of_lt_of_le (by positivity) h1
  rw [hr]
  apply roundBinary64_eq q e n he
  · rwa [abs_of_pos hq]
  · rwa [abs_of_pos hq]
  · rw [abs_lt]
    constructor <;> linarith
  · rw [← hr, abs_of_nonneg hr0]
    exact hfin

/-- Evaluation of the square root at a positive value of a known binade. -/
theorem sqrtBinary64_eq_pos (q r : ℚ) (e j m : ℤ) (h1 : (2 : ℚ) ^ e ≤ q)
    (h2 : q < (2 : ℚ) ^ (e + 1)) (hej : e / 2 = j) (hj : -1022 ≤ j) (hm : 1 ≤ m)
    (hr : r = m * 2 ^ (j - 52))
    (hlo : ((m : ℚ) - 1 / 2) ^ 2 < q / 2 ^ (2 * (j - 52)))
    (hhi : q / 2 ^ (2 * (j - 52)) < ((m : ℚ) + 1 / 2) ^ 2) :
    sqrtBinary64 q = .fin r := by
  have hq : 0 < q := lt_of_lt_of_le (by positivity) h1
  subst hej
  rw [hr]
  apply sqrtBinary64_eq q e m _ _ hj hm hlo hhi
  · rwa [abs_of_pos hq]
  · rwa [abs_of_pos hq]

/-- The distance between a point `(x, 0)` and the origin, from the results of the four
operations. -/
theorem calculateDistance_on_axis (fp : Fpu) (x a t s r : ℚ) (hx : x ≠ 0)
    (ha : fp.round x = .fin a) (ha0 : a ≠ 0) (ht : fp.square a = .fin t) (ht0 : t ≠ 0)
    (hs : fp.round t = .fin s) (hs0 : 0 < s) (hr : fp.sqrt s = .fin r) :
    calculateDistance fp ⟨.fin x, .fin 0⟩ ⟨.fin 0, .fin 0⟩ = .fin r := by
  simp [calculateDistance, Dbl.sub, Dbl.ofExact, Dbl.pow2, Dbl.add, Dbl.sqrt, hx, ha, ha0, ht,
    ht0, hs, hs0.ne', not_lt.mpr hs0.le, hr]

/-- The distance term, from the results of the division and of the multiplication. -/
theorem distanceTerm_of_results (fp : Fpu) (r q p : ℚ) (k : Int) (hr : r ≠ 0)
    (hq : fp.round (1 / r) = .fin q) (hq0 : q ≠ 0) (hp : fp.round (q * 5000) = .fin p)
    (hk : roundHalfAway p = k) :
    distanceTerm fp (.fin r) = checkedInt k := by
  have h1 : (1 : ℚ) / r ≠ 0 := one_div_ne_zero hr
  have h2 : q * 5000 ≠ 0 := mul_ne_zero hq0 (by norm_num)
  simp only [distanceTerm, Dbl.div, if_neg hr, Dbl.ofExact, if_neg h1, hq, Dbl.mul,
    DISTANCE_COEFFICIENT, Int.cast_ofNat, if_neg h2, hp, Dbl.round, Dbl.toInt,
    truncToZero_intCast, hk]

/-- At distance 1428.5714285714287 the computed distance is exact and the distance term
is 4: `1 / distance` rounds to the `double` nearest to 0.0007, and its product with 5000 rounds
to 3.5. -/
theorem distanceTerm_halfwayDistance :
    calculateDistance binary64Fpu ⟨.fin halfwayDistance, .fin 0⟩ ⟨.fin 0, .fin 0⟩ =
        .fin halfwayDistance ∧
      distanceTerm binary64Fpu (.fin halfwayDistance) = .ok 4 := by
  have hx : halfwayDistance ≠ 0 := by norm_num [halfwayDistance]
  have h1 : binary64Fpu.round halfwayDistance = .fin halfwayDistance := by
    apply roundBinary64_eq_pos _ _ 10 6282923587291429 <;> norm_num [halfwayDistance]
  have h2 : binary64Fpu.square halfwayDistance = .fin (4382619689795919 / 2147483648) := by
    show roundBinary64 (halfwayDistance * halfwayDistance) = _
    apply roundBinary64_eq_pos _ _ 20 8765239379591838 <;> norm_num [halfwayDistance]
  have h3 : binary64Fpu.round (4382619689795919 / 2147483648) =
      .fin (4382619689795919 / 2147483648) := by
    apply roundBinary64_eq_pos _ _ 20 8765239379591838 <;> norm_num
  have h4 : binary64Fpu.sqrt (4382619689795919 / 2147483648) = .fin halfwayDistance := by
    apply sqrtBinary64_eq_pos _ _ 20 10 6282923587291429 <;> norm_num [halfwayDistance]
  have h5 : binary64Fpu.round (1 / halfwayDistance) =
      .fin (6456360425798343 / 9223372036854775808) := by
    apply roundBinary64_eq_pos _ _ (-11) 6456360425798343 <;> norm_num [halfwayDistance]
  have h6 : binary64Fpu.round (6456360425798343 / 9223372036854775808 * 5000) =
      .fin (7 / 2) := by
    apply roundBinary64_eq_pos _ _ 1 7881299347898368 <;> norm_num
  have h7 : roundHalfAway (7 / 2) = 4 := by
    norm_num [roundHalfAway]
  refine ⟨calculateDistance_on_axis binary64Fpu _ _ _ _ _ hx h1 hx h2 (by norm_num) h3
    (by norm_num) h4, ?_⟩
  rw [distanceTerm_of_results binary64Fpu _ _ _ 4 hx h5 (by norm_num) h6 h7]
  rfl

/-- Function `calculateRanks` on a vector of one order. -/
theorem calculateRanks_singleton {fp : Fpu} {donation : Donation} {a a' : Order}
    (ha : calculateRank fp donation a = .ok a') :
    calculateRanks fp [a] donation = .ok [a'] := by
  rw [calculateRanks_cons, ha]
  rfl

/-- An integer is at least one half away from every halfway point between two integers. -/
theorem half_le_abs_int_sub_halfway (n j : ℤ) : (1 / 2 : ℝ) ≤ |(n : ℝ) - (j + 1 / 2)| := by
  rcases le_or_lt n j with h | h
  · have h1 : (n : ℝ) ≤ (j : ℝ) := by exact_mod_cast h
    rw [abs_of_nonpos (by linarith)]
    linarith
  · have h1 : (j : ℝ) + 1 ≤ (n : ℝ) := by exact_mod_cast h
    rw [abs_of_nonneg (by linarith)]
    linarith

/-- C8 (rank formula) fails in two ways.  First, for timestamps whose difference does not fit
`int`: the donation has timestamp 2147483647, the order is at distance 1 with timestamp -1,
`round(5000 / 1) + 1 * (2147483647 - (-1))` is 2147488648, more than `INT_MAX`, the subtraction
in `timeDif` overflows and `calculateRanks` is undefined for every floating-point unit.
Second, because the program divides 1 by the distance and multiplies the rounded quotient by
5000: for the order at `(1428.5714285714287, 0)` and the donation at the origin the computed
distance is exactly the Euclidean distance `d`, `5000 / d` is below 3.5 and `round(5000 / d)`
is 3, yet the program computes 3.5 and rounds it to 4, so that `calculateRanks` sets the rank
to `4 + (100 - 40) = 64`, not to `3 + (100 - 40) = 63`. -/
theorem rank_formula_counterexample :
    (INT_MAX < roundHalfAway (5000 / 1) + 1 * (2147483647 - (-1)) ∧
      ∀ fp : Fpu, calculateRanks fp [{ toData := mkDataAt 2 1 5 (-1) 1 }]
        (mkDataAt 1 1 15 2147483647 0) = .error .undefinedBehaviour) ∧
    (calculateDistance binary64Fpu (mkDataAt 2 1 5 40 halfwayDistance).location
        (mkDataAt 1 1 15 100 0).location = .fin halfwayDistance ∧
      roundHalfAway (5000 / halfwayDistance) + 1 * (100 - 40) = 63 ∧
      calculateRanks binary64Fpu [{ toData := mkDataAt 2 1 5 40 halfwayDistance }]
        (mkDataAt 1 1 15 100 0) =
          .ok [{ toData := mkDataAt 2 1 5 40 halfwayDistance, rank := 64 }]) := by
  have hloc : (mkDataAt 2 1 5 40 halfwayDistance).location = ⟨.fin halfwayDistance, .fin 0⟩ :=
    rfl
  have hdon : (mkDataAt 1 1 15 100 0).location = ⟨.fin 0, .fin 0⟩ := rfl
  refine ⟨⟨?_, ?_⟩, ?_, ?_, ?_⟩
  · norm_num [roundHalfAway, INT_MAX]
  · intro fp
    apply calculateRanks_undefined_of_mem (List.mem_singleton_self _)
    cases h : calculateRank fp (mkDataAt 1 1 15 2147483647 0)
        { toData := mkDataAt 2 1 5 (-1) 1 } with
    | error e => rw [calculateRank_error h]
    | ok r =>
      obtain ⟨_, _, hrange, _⟩ := (calculateRank_eq_ok fp _ _ r).mp h
      norm_num [mkDataAt, INT_MAX] at hrange
  · rw [hloc, hdon]
    exact distanceTerm_halfwayDistance.1
  · norm_num [roundHalfAway, halfwayDistance]
  · apply calculateRanks_singleton
    rw [calculateRank_eq_ok]
    refine ⟨4, ?_, ?_, ?_, ?_⟩
    · rw [show ({ toData := mkDataAt 2 1 5 40 halfwayDistance } : Order).location =
        ⟨.fin halfwayDistance, .fin 0⟩ from rfl, hdon, distanceTerm_halfwayDistance.1]
      exact distanceTerm_halfwayDistance.2
    · norm_num [mkDataAt, INT_MIN, INT_MAX]
    · norm_num [mkDataAt, INT_MIN, INT_MAX]
    · norm_num [mkDataAt]

/-- C8 as amended.  Let the floating-point unit have the accuracy of IEEE 754 (`AccurateFpu`),
and let every order of the vector be at a non-zero Euclidean distance `d` from the donation,
such that `5000 / d` is farther than `2 ^ (-50) * (5000 / d)` from every halfway point
`j + 1 / 2` between two integers, and such that `round(5000 / d)`, the time difference and
their sum fit `int`.  Then `calculateRanks` sets the rank of every order to
`round(5000 / d) + 1 * (donation.timestamp - order.timestamp)` (with `round(x)` written
`⌊x + 1 / 2⌋`, `x` being positive), a negative time difference included; and two orders at the
same distance differ in rank by exactly the difference of their timestamps. -/
theorem rank_formula_in_range (fp : Fpu) (hfp : AccurateFpu fp) (donation : Donation)
    (px py : ℚ) (hdon : donation.location = ⟨.fin px, .fin py⟩) (orders : List Order)
    (d : Order → ℝ)
    (hord : ∀ o ∈ orders, ∃ ox oy : ℚ, o.location = ⟨.fin ox, .fin oy⟩ ∧
      SafeDifference (ox - px) ∧ SafeDifference (oy - py) ∧
      d o = Real.sqrt ((ox - px) ^ 2 + (oy - py) ^ 2) ∧ d o ≠ 0 ∧
      (∀ j : ℤ, 2 ^ (-50 : ℤ) * (5000 / d o) < |5000 / d o - (j + 1 / 2)|) ∧
      ⌊5000 / d o + 1 / 2⌋ ≤ INT_MAX ∧
      (INT_MIN ≤ donation.timestamp - o.timestamp ∧
        donation.timestamp - o.timestamp ≤ INT_MAX) ∧
      (INT_MIN ≤ ⌊5000 / d o + 1 / 2⌋ + (donation.timestamp - o.timestamp) ∧
        ⌊5000 / d o + 1 / 2⌋ + (donation.timestamp - o.timestamp) ≤ INT_MAX)) :
    calculateRanks fp orders donation =
        .ok (orders.map fun o => { o with
          rank := ⌊5000 / d o + 1 / 2⌋ + 1 * (donation.timestamp - o.timestamp) }) ∧
      ∀ (i j : Nat) (hi : i < orders.length) (hj : j < orders.length),
        d orders[i] = d orders[j] →
        ∀ ranked : List Order, calculateRanks fp orders donation = .ok ranked →
          ∃ r₁ r₂ : Order, ranked[i]? = some r₁ ∧ ranked[j]? = some r₂ ∧
            r₁.rank - r₂.rank = orders[j].timestamp - orders[i].timestamp := by
  have hmap : calculateRanks fp orders donation =
      .ok (orders.map fun o => { o with
        rank := ⌊5000 / d o + 1 / 2⌋ + 1 * (donation.timestamp - o.timestamp) }) := by
    apply calculateRanks_eq_map
    intro o ho
    obtain ⟨ox, oy, hloc, hx, hy, hd, hd0, hmargin, hterm, htime, hsum⟩ := hord o ho
    rw [one_mul]
    exact calculateRank_accurate hfp donation o ox oy px py (d o) hloc hdon hx hy hd hd0
      hmargin hterm htime hsum
  refine ⟨hmap, ?_⟩
  intro i j hi hj hsame ranked hranked
  rw [hmap] at hranked
  simp only [Except.ok.injEq] at hranked
  subst hranked
  refine ⟨{ orders[i] with
      rank := ⌊5000 / d orders[i] + 1 / 2⌋ + 1 * (donation.timestamp - orders[i].timestamp) },
    { orders[j] with
      rank := ⌊5000 / d orders[j] + 1 / 2⌋ + 1 * (donation.timestamp - orders[j].timestamp) },
    ?_, ?_, ?_⟩
  · rw [List.getElem?_map, List.getElem?_eq_getElem hi]
    rfl
  · rw [List.getElem?_map, List.getElem?_eq_getElem hj]
    rfl
  · show ⌊5000 / d orders[i] + 1 / 2⌋ + 1 * (donation.timestamp - orders[i].timestamp) -
      (⌊5000 / d orders[j] + 1 / 2⌋ + 1 * (donation.timestamp - orders[j].timestamp)) =
      orders[j].timestamp - orders[i].timestamp
    rw [hsame]
    omega

/-- C8 as amended, for the binary64 unit, a donation at the origin with timestamp 100 and two
orders at distance 5, at `(3, 4)` with timestamp 90 and at `(4, 3)` with timestamp 140:
the ranks are `1000 + (100 - 90) = 1010` and `1000 + (100 - 140) = 960`. -/
theorem rank_formula_in_range_witness :
    calculateRanks binary64Fpu
        [{ toData := mkDataXY 2 1 5 90 3 4 }, { toData := mkDataXY 3 1 20 140 4 3 }]
        (mkDataAt 1 1 15 100 0) =
      .ok [{ toData := mkDataXY 2 1 5 90 3 4, rank := 1010 },
        { toData := mkDataXY 3 1 20 140 4 3, rank := 960 }] := by
  have hfloor : ⌊(5000 : ℝ) / 5 + 1 / 2⌋ = 1000 := by
    rw [Int.floor_eq_iff]
    norm_num
  have hsafe3 : SafeDifference ((3 : ℚ) - 0) := by
    right
    rw [sub_zero, abs_of_pos (by norm_num)]
    exact ⟨le_trans (two_zpow_mono (by norm_num : (-400 : ℤ) ≤ 0)) (by norm_num),
      le_trans (by norm_num) (two_zpow_mono (by norm_num : (2 : ℤ) ≤ 400))⟩
  have hsafe4 : SafeDifference ((4 : ℚ) - 0) := by
    right
    rw [sub_zero, abs_of_pos (by norm_num)]
    exact ⟨le_trans (two_zpow_mono (by norm_num : (-400 : ℤ) ≤ 0)) (by norm_num),
      le_trans (by norm_num) (two_zpow_mono (by norm_num : (2 : ℤ) ≤ 400))⟩
  have hsqrt : Real.sqrt 25 = 5 := by
    rw [show (25 : ℝ) = 5 ^ 2 by norm_num, Real.sqrt_sq (by norm_num)]
  have hmargin : ∀ j : ℤ,
      (2 : ℝ) ^ (-50 : ℤ) * (5000 / 5) < |5000 / 5 - ((j : ℝ) + 1 / 2)| := by
    intro j
    have h1 := half_le_abs_int_sub_halfway 1000 j
    have h2 : (2 : ℝ) ^ (-50 : ℤ) * (5000 / 5) < 1 / 2 := by norm_num
    have h3 : (5000 : ℝ) / 5 = ((1000 : ℤ) : ℝ) := by norm_num
    rw [h3]
    linarith
  have h := (rank_formula_in_range binary64Fpu binary64Fpu_accurate (mkDataAt 1 1 15 100 0)
    0 0 rfl [{ toData := mkDataXY 2 1 5 90 3 4 }, { toData := mkDataXY 3 1 20 140 4 3 }]
    (fun _ => 5) (by
      intro o ho
      simp only [List.mem_cons, List.mem_singleton, List.not_mem_nil, or_false] at ho
      rcases ho with rfl | rfl
      · refine ⟨3, 4, rfl, hsafe3, hsafe4, ?_, by norm_num, hmargin, ?_, ?_, ?_⟩
        · norm_num [hsqrt]
        · rw [hfloor]; norm_num [INT_MAX]
        · norm_num [mkDataXY, mkDataAt, INT_MIN, INT_MAX]
        · rw [hfloor]; norm_num [mkDataXY, mkDataAt, INT_MIN, INT_MAX]
      · refine ⟨4, 3, rfl, hsafe4, hsafe3, ?_, by norm_num, hmargin, ?_, ?_, ?_⟩
        · norm_num [hsqrt]
        · rw [hfloor]; norm_num [INT_MAX]
        · norm_num [mkDataXY, mkDataAt, INT_MIN, INT_MAX]
        · rw [hfloor]; norm_num [mkDataXY, mkDataAt, INT_MIN, INT_MAX])).1
  rw [h]
  simp only [List.map_cons, List.map_nil, hfloor]
  rfl

/-! ## Reading and filtering -/

/-- On lines that all extract, the loop of `readOrders` keeps the records of the requested
product, in input order. -/
theorem readOrderLines_of_wellFormed (extract : String → Option Data) (prodId : Nat) :
    ∀ lines : List String, (∀ line ∈ lines, ∃ d, extract line = some d) →
      readOrderLines extract prodId lines =
        .ok (((lines.filterMap extract).filter (fun d => decide (d.productId = prodId))).map
          (fun d => { toData := d })) := by
  intro lines
  induction lines with
  | nil => intro _; rfl
  | cons line rest ih =>
    intro hwf
    obtain ⟨d, hd⟩ := hwf line (List.mem_cons_self line rest)
    have hrest := ih (fun l hl => hwf l (List.mem_cons_of_mem line hl))
    simp only [readOrderLines, hd, hrest, List.filterMap_cons]
    by_cases hp : prodId = d.productId
    · simp [hp]
    · have hp2 : ¬ d.productId = prodId := fun h => hp h.symm
      simp [hp, hp2]

/-- Every order that the loop of `readOrders` returns has the requested product. -/
theorem readOrderLines_productId (extract : String → Option Data) (prodId : Nat) :
    ∀ (lines : List String) (orders : List Order),
      readOrderLines extract prodId lines = .ok orders →
      ∀ o ∈ orders, o.productId = prodId := by
  intro lines
  induction lines with
  | nil =>
    intro orders h o ho
    simp only [readOrderLines, Except.ok.injEq] at h
    subst h
    simp at ho
  | cons line rest ih =>
    intro orders h o ho
    simp only [readOrderLines] at h
    split at h
    · exact absurd h (by simp)
    · rename_i d hd
      split at h
      · exact absurd h (by simp)
      · rename_i tail htail
        split at h
        · rename_i hp
          simp only [Except.ok.injEq] at h
          subst h
          rcases List.mem_cons.mp ho with rfl | ho
          · exact hp.symm
          · exact ih tail htail o ho
        · simp only [Except.ok.injEq] at h
          subst h
          exact ih tail htail o ho

/-- The allocation loop changes quantities only: the donation keeps its product and every
order of the resulting vector has the product of an order of the input. -/
theorem allocLoop_productId (orders : List Order) :
    ∀ (donation : Donation) (lastIndex : Nat),
      (allocLoop donation lastIndex orders).donation.productId = donation.productId ∧
        ∀ o ∈ (allocLoop donation lastIndex orders).orders,
          ∃ original ∈ orders, o.productId = original.productId := by
  induction orders with
  | nil => intro donation lastIndex; simp [allocLoop]
  | cons a rest ih =>
    intro donation lastIndex
    simp only [allocLoop]
    split
    · obtain ⟨h1, h2⟩ := ih { donation with quantity := usub donation.quantity a.quantity }
        (lastIndex + 1)
      refine ⟨h1, ?_⟩
      intro o ho
      rcases List.mem_cons.mp ho with rfl | ho
      · exact ⟨a, List.mem_cons_self a rest, rfl⟩
      · obtain ⟨original, hmem, heq⟩ := h2 o ho
        exact ⟨original, List.mem_cons_of_mem a hmem, heq⟩
    · refine ⟨rfl, ?_⟩
      intro o ho
      rcases List.mem_cons.mp ho with rfl | ho
      · exact ⟨a, List.mem_cons_self a rest, rfl⟩
      · exact ⟨o, List.mem_cons_of_mem a ho, rfl⟩

theorem splitStep4_productId {donation d : Donation} {orders processed : List Order}
    (h : splitStep4 donation orders = .ok (d, processed)) :
    d.productId = donation.productId ∧
      ∀ o ∈ processed, ∃ original ∈ orders, o.productId = original.productId := by
  unfold splitStep4 eraseFrom at h
  simp only at h
  split at h
  · rename_i kept hkept
    split at hkept
    · simp only [Except.ok.injEq] at hkept
      simp only [Except.ok.injEq, Prod.mk.injEq] at h
      obtain ⟨rfl, rfl⟩ := h
      subst hkept
      obtain ⟨h1, h2⟩ := allocLoop_productId orders donation 1
      exact ⟨h1, fun o ho => h2 o (List.mem_of_mem_take ho)⟩
    · exact absurd hkept (by simp)
  · exact absurd h (by simp)

/-- The distance terms of the scenario: an order at distance 1 gets 5000, an order at
distance 2 gets 2500; every operation is exact there. -/
theorem distanceTerm_sample :
    distanceTerm binary64Fpu
        (calculateDistance binary64Fpu ⟨.fin 1, .fin 0⟩ ⟨.fin 0, .fin 0⟩) = .ok 5000 ∧
      distanceTerm binary64Fpu
        (calculateDistance binary64Fpu ⟨.fin 2, .fin 0⟩ ⟨.fin 0, .fin 0⟩) = .ok 2500 := by
  have r1 : binary64Fpu.round 1 = .fin 1 := by
    apply roundBinary64_eq_pos _ _ 0 4503599627370496 <;> norm_num
  have r2 : binary64Fpu.round 2 = .fin 2 := by
    apply roundBinary64_eq_pos _ _ 1 4503599627370496 <;> norm_num
  have r4 : binary64Fpu.round 4 = .fin 4 := by
    apply roundBinary64_eq_pos _ _ 2 4503599627370496 <;> norm_num
  have q1 : binary64Fpu.square 1 = .fin 1 := by
    show roundBinary64 (1 * 1) = _
    apply roundBinary64_eq_pos _ _ 0 4503599627370496 <;> norm_num
  have q2 : binary64Fpu.square 2 = .fin 4 := by
    show roundBinary64 (2 * 2) = _
    apply roundBinary64_eq_pos _ _ 2 4503599627370496 <;> norm_num
  have s1 : binary64Fpu.sqrt 1 = .fin 1 := by
    apply sqrtBinary64_eq_pos _ _ 0 0 4503599627370496 <;> norm_num
  have s4 : binary64Fpu.sqrt 4 = .fin 2 := by
    apply sqrtBinary64_eq_pos _ _ 2 1 4503599627370496 <;> norm_num
  have d1 : binary64Fpu.round (1 / 1) = .fin 1 := by
    apply roundBinary64_eq_pos _ _ 0 4503599627370496 <;> norm_num
  have d2 : binary64Fpu.round (1 / 2) = .fin (1 / 2) := by
    apply roundBinary64_eq_pos _ _ (-1) 4503599627370496 <;> norm_num
  have m1 : binary64Fpu.round (1 * 5000) = .fin 5000 := by
    apply roundBinary64_eq_pos _ _ 12 5497558138880000 <;> norm_num
  have m2 : binary64Fpu.round (1 / 2 * 5000) = .fin 2500 := by
    apply roundBinary64_eq_pos _ _ 11 5497558138880000 <;> norm_num
  have k1 : roundHalfAway 5000 = 5000 := by norm_num [roundHalfAway]
  have k2 : roundHalfAway 2500 = 2500 := by norm_num [roundHalfAway]
  constructor
  · rw [calculateDistance_on_axis binary64Fpu 1 1 1 1 1 (by norm_num) r1 (by norm_num) q1
      (by norm_num) r1 (by norm_num) s1,
      distanceTerm_of_results binary64Fpu 1 1 5000 5000 (by norm_num) d1 (by norm_num) m1 k1]
    rfl
  · rw [calculateDistance_on_axis binary64Fpu 2 2 4 4 2 (by norm_num) r2 (by norm_num) q2
      (by norm_num) r4 (by norm_num) s4,
      distanceTerm_of_results binary64Fpu 2 (1 / 2) 2500 2500 (by norm_num) d2 (by norm_num)
        m2 k2]
    rfl

/-- Function `calculateRanks` on a vector of two orders. -/
theorem calculateRanks_pair {fp : Fpu} {donation : Donation} {a b a' b' : Order}
    (ha : calculateRank fp donation a = .ok a') (hb : calculateRank fp donation b = .ok b') :
    calculateRanks fp [a, b] donation = .ok [a', b'] := by
  rw [calculateRanks_cons, ha]
  simp only
  rw [calculateRanks_cons, hb]
  rfl

/-- The ranks of the two orders of the scenario: `2500 + 50` and `5000 + 60`. -/
theorem calculateRanks_sample :
    calculateRanks binary64Fpu
        [{ toData := mkDataAt 3 1 20 50 2 }, { toData := mkDataAt 2 1 5 40 1 }]
        (mkDataAt 1 1 15 100 0) =
      .ok [{ toData := mkDataAt 3 1 20 50 2, rank := 2550 },
        { toData := mkDataAt 2 1 5 40 1, rank := 5060 }] := by
  have h3 : calculateRank binary64Fpu (mkDataAt 1 1 15 100 0)
      { toData := mkDataAt 3 1 20 50 2 } =
      .ok { toData := mkDataAt 3 1 20 50 2, rank := 2550 } := by
    rw [calculateRank_eq_ok]
    refine ⟨2500, ?_, ?_, ?_, ?_⟩
    · rw [show ({ toData := mkDataAt 3 1 20 50 2 } : Order).location = ⟨.fin 2, .fin 0⟩ from rfl,
        show (mkDataAt 1 1 15 100 0).location = ⟨.fin 0, .fin 0⟩ from rfl]
      exact distanceTerm_sample.2
    · norm_num [mkDataAt, INT_MIN, INT_MAX]
    · norm_num [mkDataAt, INT_MIN, INT_MAX]
    · norm_num [mkDataAt]
  have h2 : calculateRank binary64Fpu (mkDataAt 1 1 15 100 0)
      { toData := mkDataAt 2 1 5 40 1 } =
      .ok { toData := mkDataAt 2 1 5 40 1, rank := 5060 } := by
    rw [calculateRank_eq_ok]
    refine ⟨5000, ?_, ?_, ?_, ?_⟩
    · rw [show ({ toData := mkDataAt 2 1 5 40 1 } : Order).location = ⟨.fin 1, .fin 0⟩ from rfl,
        show (mkDataAt 1 1 15 100 0).location = ⟨.fin 0, .fin 0⟩ from rfl]
      exact distanceTerm_sample.1
    · norm_num [mkDataAt, INT_MIN, INT_MAX]
    · norm_num [mkDataAt, INT_MIN, INT_MAX]
    · norm_num [mkDataAt]
  exact calculateRanks_pair h3 h2

/-- A run whose first three steps succeed ends with the result of step 4 on the sorted
ranked orders. -/
theorem splitDonationToOrders_of_steps {fp : Fpu} {extract : String → Option Data}
    {sortImpl : {α : Type} → (α → α → Bool) → List α → List α}
    {donationFile ordersFile : Option (List String)} {donation : Donation}
    {orders ranked : List Order} (hd : readDonation extract donationFile = .ok donation)
    (ho : readOrders extract ordersFile donation.productId = .ok orders)
    (hr : calculateRanks fp orders donation = .ok ranked) :
    splitDonationToOrders fp extract sortImpl donationFile ordersFile =
      splitStep4 donation (sortOrders sortImpl ranked) := by
  unfold splitDonationToOrders
  simp only [bind, Except.bind, hd, ho, hr]

/-- End-to-end run on the scenario of the spec (donation of 15, orders of 5 and 20, and an
order for another product): order 2 is served in full, order 3 keeps 10, the donation is
emptied. -/
theorem splitDonationToOrders_sample :
    splitDonationToOrders binary64Fpu sampleExtract (fun comp v => libstdcxxSort comp v)
        (some ["1 1 15 0 0 100"])
        (some ["4 7 9 1 0 10", "3 1 20 2 0 50", "2 1 5 1 0 40"]) =
      .ok (mkDataAt 1 1 0 100 0,
        [{ toData := mkDataAt 2 1 0 40 1, rank := 5060 },
          { toData := mkDataAt 3 1 10 50 2, rank := 2550 }]) := by
  have hd : readDonation sampleExtract (some ["1 1 15 0 0 100"]) =
      .ok (mkDataAt 1 1 15 100 0) := rfl
  have ho : readOrders sampleExtract
      (some ["4 7 9 1 0 10", "3 1 20 2 0 50", "2 1 5 1 0 40"]) (mkDataAt 1 1 15 100 0).productId =
      .ok [{ toData := mkDataAt 3 1 20 50 2 }, { toData := mkDataAt 2 1 5 40 1 }] := rfl
  rw [splitDonationToOrders_of_steps hd ho calculateRanks_sample]
  rfl

/-- C9 (filtering).  On order lines that all extract, `readOrders` returns exactly the records
whose `productId` equals the requested one, in input order; and whenever a run of
`splitDonationToOrders` reaches step 5, every order of the processed list has the donation's
`productId`, whatever the ranks, the sort implementation and the rounding. -/
theorem filtering_by_product (fp : Fpu) (extract : String → Option Data)
    (sortImpl : {α : Type} → (α → α → Bool) → List α → List α)
    (hsort : ConformingSort sortImpl) (donationFile : Option (List String))
    (lines : List String) (hwf : ∀ line ∈ lines, ∃ d, extract line = some d) :
    (∀ prodId : Nat, readOrders extract (some lines) prodId =
        .ok (((lines.filterMap extract).filter (fun d => decide (d.productId = prodId))).map
          (fun d => { toData := d }))) ∧
      ∀ (donation : Donation) (processed : List Order),
        splitDonationToOrders fp extract sortImpl donationFile (some lines) =
          .ok (donation, processed) →
        ∀ o ∈ processed, o.productId = donation.productId := by
  refine ⟨fun prodId => readOrderLines_of_wellFormed extract prodId lines hwf, ?_⟩
  intro donation processed h o ho
  unfold splitDonationToOrders at h
  simp only [bind, Except.bind] at h
  split at h
  · exact absurd h (by simp)
  · rename_i read _
    split at h
    · exact absurd h (by simp)
    · rename_i orders horders
      split at h
      · exact absurd h (by simp)
      · rename_i ranked hranked
        obtain ⟨hprod, hmem⟩ := splitStep4_productId h
        obtain ⟨original, horig, heq⟩ := hmem o ho
        have horig2 : original ∈ ranked :=
          (sortOrders_perm sortImpl hsort ranked).mem_iff.mp horig
        have hdata := calculateRanks_toData hranked
        have hin : original.toData ∈ orders.map (fun x => x.toData) := by
          rw [← hdata]
          exact List.mem_map_of_mem _ horig2
        obtain ⟨source, hsource, hsame⟩ := List.mem_map.mp hin
        have hp := readOrderLines_productId extract read.productId lines orders horders
          source hsource
        rw [heq, hprod]
        show original.toData.productId = read.productId
        rw [← hsame]
        exact hp

/-- C9 on three order lines, one of them for product 7, and a donation of product 1: the
order of product 7 is dropped, the others are kept in input order, and both processed orders
have product 1. -/
theorem filtering_by_product_witness :
    readOrders sampleExtract (some ["4 7 9 1 0 10", "3 1 20 2 0 50", "2 1 5 1 0 40"]) 1 =
        .ok [{ toData := mkDataAt 3 1 20 50 2 }, { toData := mkDataAt 2 1 5 40 1 }] ∧
      ∀ o ∈ [({ toData := mkDataAt 2 1 0 40 1, rank := 5060 } : Order),
          { toData := mkDataAt 3 1 10 50 2, rank := 2550 }], o.productId = 1 := by
  have h := filtering_by_product binary64Fpu sampleExtract (fun comp v => libstdcxxSort comp v)
    libstdcxxSort_conforming (some ["1 1 15 0 0 100"])
    ["4 7 9 1 0 10", "3 1 20 2 0 50", "2 1 5 1 0 40"]
    (by
      intro line hline
      simp only [List.mem_cons, List.mem_singleton, List.not_mem_nil, or_false] at hline
      rcases hline with rfl | rfl | rfl
      · exact ⟨_, rfl⟩
      · exact ⟨_, rfl⟩
      · exact ⟨_, rfl⟩)
  refine ⟨?_, h.2 _ _ splitDonationToOrders_sample⟩
  rw [h.1 1]
  rfl

/-! ## The stopping record -/

/-- The loop keeps the size of the vector, and `lastIndex` advances by the position of the
stopping record, or by the size of the vector when there is none. -/
theorem allocLoop_lastIndex (orders : List Order) :
    ∀ (donation : Donation) (lastIndex : Nat),
      (allocLoop donation lastIndex orders).orders.length = orders.length ∧
        (allocLoop donation lastIndex orders).lastIndex =
          lastIndex + (stopIndex donation orders).getD orders.length ∧
        ∀ k, stopIndex donation orders = some k → k < orders.length := by
  induction orders with
  | nil => intro donation lastIndex; simp [allocLoop, stopIndex]
  | cons o rest ih =>
    intro donation lastIndex
    simp only [allocLoop, stopIndex]
    split
    · obtain ⟨h1, h2, h3⟩ := ih { donation with quantity := usub donation.quantity o.quantity }
        (lastIndex + 1)
      refine ⟨by simp [h1], ?_, ?_⟩
      · rw [h2]
        cases hk : stopIndex { donation with quantity := usub donation.quantity o.quantity }
            rest with
        | none => simp; omega
        | some k => simp; omega
      · intro k hk
        cases hk2 : stopIndex { donation with quantity := usub donation.quantity o.quantity }
            rest with
        | none => rw [hk2] at hk; simp at hk
        | some j =>
          rw [hk2] at hk
          simp only [Option.map_some', Option.some.injEq] at hk
          have := h3 j hk2
          simp only [List.length_cons]
          omega
    · refine ⟨by simp, by simp, ?_⟩
      intro k hk
      simp only [Option.some.injEq] at hk
      simp only [List.length_cons]
      omega

/-- Step 4 produces a processed list exactly when the walk has a stopping record, and the list
then ends at that record. -/
theorem splitStep4_eq_ok_iff (donation d : Donation) (orders processed : List Order) :
    splitStep4 donation orders = .ok (d, processed) ↔
      ∃ k, stopIndex donation orders = some k ∧
        d = (allocLoop donation 1 orders).donation ∧
        processed = (allocLoop donation 1 orders).orders.take (k + 1) := by
  obtain ⟨hlen, hlast, hlt⟩ := allocLoop_lastIndex orders donation 1
  unfold splitStep4 eraseFrom
  simp only [hlast, hlen]
  cases hk : stopIndex donation orders with
  | none =>
    have : ¬ 1 + orders.length ≤ orders.length := by omega
    simp [this]
  | some k =>
    have hk2 := hlt k hk
    have hle : k + 1 ≤ orders.length := by omega
    simp only [Option.getD_some, Nat.add_comm 1 k, if_pos hle, Except.ok.injEq, Prod.mk.injEq,
      Option.some.injEq, exists_eq_left']
    constructor
    · rintro ⟨h1, h2⟩
      exact ⟨h1.symm, h2.symm⟩
    · rintro ⟨h1, h2⟩
      exact ⟨h1.symm, h2.symm⟩

/-- The stopping record of a walk in closed form (see `allocLoop_of_stop`). -/
theorem stopIndex_of_stop (pre : List Order) (o : Order) (post : List Order) :
    ∀ (donation : Donation),
      QuantitiesInRange (pre ++ o :: post) → donation.quantity < UINT_RANGE →
      (pre ≠ [] → totalQuantity pre < donation.quantity) →
      donation.quantity ≤ totalQuantity pre + o.quantity →
      stopIndex donation (pre ++ o :: post) = some pre.length := by
  induction pre with
  | nil =>
    intro donation _ _ _ hle
    have hle2 : donation.quantity ≤ o.quantity := by simpa [totalQuantity] using hle
    have hno : ¬ o.quantity < donation.quantity := by omega
    simp [stopIndex, if_neg hno]
  | cons p pre ih =>
    intro donation hr hd hpre hle
    obtain ⟨_, hrest⟩ := quantitiesInRange_cons hr
    have ht := hpre (List.cons_ne_nil p pre)
    rw [totalQuantity_cons] at ht hle
    have hp : p.quantity < donation.quantity := by omega
    have hsub : usub donation.quantity p.quantity = donation.quantity - p.quantity :=
      usub_of_le (Nat.le_of_lt hp) hd
    have hstep := ih { donation with quantity := donation.quantity - p.quantity } hrest
      (by show donation.quantity - p.quantity < UINT_RANGE; omega)
      (by
        intro _
        show totalQuantity pre < donation.quantity - p.quantity
        omega)
      (by show donation.quantity - p.quantity ≤ totalQuantity pre + o.quantity; omega)
    show stopIndex donation (p :: (pre ++ o :: post)) = _
    rw [stopIndex, if_pos hp, hsub, hstep]
    simp

/-- Every run of step 4 that produces a processed list is a walk that stops: the list is the
served orders, zeroed, followed by the stopping order with its unmet part. -/
theorem splitStep4_ok_shape (donation d : Donation) (orders processed : List Order)
    (hd : donation.quantity < UINT_RANGE) (hr : QuantitiesInRange orders)
    (h : splitStep4 donation orders = .ok (d, processed)) :
    ∃ pre o post, orders = pre ++ o :: post ∧
      stopIndex donation orders = some pre.length ∧
      d = { donation with quantity := 0 } ∧
      processed = pre.map (fun p => { p with quantity := 0 }) ++
        [{ o with quantity := o.quantity - (donation.quantity - totalQuantity pre) }] := by
  by_cases hlt : totalQuantity orders < donation.quantity
  · rw [splitStep4_of_total_lt donation orders hr hd hlt] at h
    exact absurd h (by simp)
  · have hne : orders ≠ [] := by
      rintro rfl
      simp [splitStep4, allocLoop, eraseFrom] at h
    obtain ⟨pre, o, post, heq, hpre, hstop⟩ :=
      exists_stop orders donation.quantity hne (by omega)
    subst heq
    rw [splitStep4_of_stop pre o post donation hr hd hpre hstop] at h
    simp only [Except.ok.injEq, Prod.mk.injEq] at h
    exact ⟨pre, o, post, rfl, stopIndex_of_stop pre o post donation hr hd hpre hstop,
      h.1.symm, h.2.symm⟩

/-! ## Claims about the shape of the processed list -/

/-- C11 (fulfilment shape, rank priority).  In every processed list that step 4 produces, the
donation ends at 0, every order except the last has final quantity 0, an order with a positive
final quantity is the one that stopped the walk, and the ids are those of the ranked list, in
ranked order. -/
theorem fulfilment_shape (donation d : Donation) (orders processed : List Order)
    (hd : donation.quantity < UINT_RANGE) (hr : QuantitiesInRange orders)
    (h : splitStep4 donation orders = .ok (d, processed)) :
    d.quantity = 0 ∧ processed ≠ [] ∧
      (∀ p ∈ processed.dropLast, p.quantity = 0) ∧
      (∀ (i : Nat) (hi : i < processed.length), 0 < processed[i].quantity →
        stopIndex donation orders = some i) ∧
      processed.map (fun p => p.id) = (orders.take processed.length).map (fun o => o.id) := by
  obtain ⟨pre, o, post, rfl, hstop, rfl, rfl⟩ :=
    splitStep4_ok_shape donation d orders processed hd hr h
  refine ⟨rfl, by simp, ?_, ?_, ?_⟩
  · intro p hp
    rw [List.dropLast_concat] at hp
    obtain ⟨q, _, rfl⟩ := List.mem_map.mp hp
    rfl
  · intro i hi hpos
    rw [hstop]
    by_cases hlt : i < pre.length
    · rw [List.getElem_append_left (by simpa using hlt)] at hpos
      simp at hpos
    · simp only [List.length_append, List.length_map, List.length_singleton] at hi
      have : i = pre.length := by omega
      rw [this]
  · simp only [List.length_append, List.length_map, List.length_singleton, List.map_append,
      List.map_map, List.map_cons, List.map_nil]
    rw [List.take_append_eq_append_take]
    simp [List.take_of_length_le, Function.comp_def]

/-- C11 on the scenario of the spec: donation 15, ranked orders (id 2, quantity 5) and
(id 3, quantity 20) give the processed list [(2, 0), (3, 10)] and donation remaining 0. -/
theorem fulfilment_shape_witness :
    splitStep4 (mkData 1 1 15 0) [mkOrder 2 5 0, mkOrder 3 20 0] =
        .ok (mkData 1 1 0 0, [mkOrder 2 0 0, mkOrder 3 10 0]) ∧
      (∀ p ∈ [mkOrder 2 0 0, mkOrder 3 10 0].dropLast, p.quantity = 0) ∧
      [mkOrder 2 0 0, mkOrder 3 10 0].map (fun p => p.id) = [2, 3] := by
  have hrun : splitStep4 (mkData 1 1 15 0) [mkOrder 2 5 0, mkOrder 3 20 0] =
      .ok (mkData 1 1 0 0, [mkOrder 2 0 0, mkOrder 3 10 0]) := rfl
  have h := fulfilment_shape (mkData 1 1 15 0) (mkData 1 1 0 0)
    [mkOrder 2 5 0, mkOrder 3 20 0] [mkOrder 2 0 0, mkOrder 3 10 0] (by decide)
    (by intro o ho; simp at ho; rcases ho with rfl | rfl <;> decide) hrun
  exact ⟨hrun, h.2.2.1, rfl⟩

/-- C14 (extra record past the cut point) fails: there are no donation and ranked list for
which step 4 produces a processed list that holds a record after the one whose processing set
the donation's quantity to 0. -/
theorem extra_record_counterexample :
    ¬ ∃ (donation d : Donation) (orders processed : List Order) (k : Nat),
        splitStep4 donation orders = .ok (d, processed) ∧
        stopIndex donation orders = some k ∧ k + 1 < processed.length := by
  rintro ⟨donation, d, orders, processed, k, hok, hk, hlen⟩
  obtain ⟨j, hj, _, rfl⟩ := (splitStep4_eq_ok_iff donation d orders processed).mp hok
  rw [hk] at hj
  simp only [Option.some.injEq] at hj
  subst hj
  rw [List.length_take] at hlen
  omega

/-- C14 as amended.  Whenever step 4 produces a processed list, the walk has a stopping
record, at position `k`, the donation's quantity is 0 after it, and the truncation keeps
exactly the `k + 1` records up to and including it: the counter starts at 1 and is not
advanced by the stopping record. -/
theorem truncation_ends_at_stopping_record (donation d : Donation)
    (orders processed : List Order)
    (h : splitStep4 donation orders = .ok (d, processed)) :
    ∃ k, stopIndex donation orders = some k ∧ k < orders.length ∧
      (allocLoop donation 1 orders).lastIndex = k + 1 ∧
      processed.length = k + 1 ∧
      processed = (allocLoop donation 1 orders).orders.take (k + 1) := by
  obtain ⟨k, hk, _, rfl⟩ := (splitStep4_eq_ok_iff donation d orders processed).mp h
  obtain ⟨hlen, hlast, hlt⟩ := allocLoop_lastIndex orders donation 1
  refine ⟨k, hk, hlt k hk, ?_, ?_, rfl⟩
  · rw [hlast, hk]
    simp only [Option.getD_some]
    omega
  · rw [List.length_take, hlen]
    have := hlt k hk
    omega

/-- C14 as amended, on donation 10 and ranked orders of quantity 4, 6 and 3: the walk stops at
position 1 and the processed list has two records, the third order is not kept. -/
theorem truncation_ends_at_stopping_record_witness :
    splitStep4 (mkData 1 1 10 0) [mkOrder 2 4 0, mkOrder 3 6 0, mkOrder 4 3 0] =
        .ok (mkData 1 1 0 0, [mkOrder 2 0 0, mkOrder 3 0 0]) ∧
      ∃ k, stopIndex (mkData 1 1 10 0) [mkOrder 2 4 0, mkOrder 3 6 0, mkOrder 4 3 0] = some k ∧
        [mkOrder 2 0 0, mkOrder 3 0 0].length = k + 1 := by
  have hrun : splitStep4 (mkData 1 1 10 0) [mkOrder 2 4 0, mkOrder 3 6 0, mkOrder 4 3 0] =
      .ok (mkData 1 1 0 0, [mkOrder 2 0 0, mkOrder 3 0 0]) := rfl
  obtain ⟨k, hk, _, _, hlen, _⟩ := truncation_ends_at_stopping_record _ _ _ _ hrun
  exact ⟨hrun, k, hk, hlen⟩

/-- C15 (zero supply still processes one order).  For a donation of quantity 0 and a non-empty
ranked list, the loop takes the stopping branch on the first order (its only subtraction is
`order.quantity - 0`), the processed list is exactly that order, unchanged, and the donation is
unchanged with quantity 0. -/
theorem zero_supply_processes_first_order (donation : Donation) (o : Order)
    (rest : List Order) (hzero : donation.quantity = 0) (ho : o.quantity < UINT_RANGE) :
    allocSubtractions donation (o :: rest) = [.orderMinusDonation o.quantity 0] ∧
      stopIndex donation (o :: rest) = some 0 ∧
      splitStep4 donation (o :: rest) = .ok (donation, [o]) := by
  have hno : ¬ o.quantity < donation.quantity := by omega
  have hsub : usub o.quantity donation.quantity = o.quantity := by
    rw [hzero, usub_of_le (Nat.zero_le _) ho, Nat.sub_zero]
  have hdon : ({ donation with quantity := 0 } : Donation) = donation := by
    cases donation
    simp only at hzero
    subst hzero
    rfl
  refine ⟨?_, ?_, ?_⟩
  · simp [allocSubtractions, if_neg hno, hzero]
  · simp [stopIndex, if_neg hno]
  · simp only [splitStep4, allocLoop, if_neg hno, hsub, hdon, eraseFrom, List.length_cons]
    have hle : 1 ≤ rest.length + 1 := by omega
    simp [if_pos hle]

/-- C15 on a donation of quantity 0 and orders of quantity 5 and 7. -/
theorem zero_supply_processes_first_order_witness :
    splitStep4 (mkData 1 1 0 0) [mkOrder 2 5 0, mkOrder 3 7 0] =
      .ok (mkData 1 1 0 0, [mkOrder 2 5 0]) :=
  (zero_supply_processes_first_order (mkData 1 1 0 0) (mkOrder 2 5 0) [mkOrder 3 7 0] rfl
    (by decide)).2.2

theorem totalQuantity_perm {l₁ l₂ : List Order} (h : l₁.Perm l₂) :
    totalQuantity l₁ = totalQuantity l₂ := by
  unfold totalQuantity
  exact (h.map (fun o : Order => o.quantity)).sum_eq

/-- The donation's quantity after the allocation loop. -/
theorem allocLoop_donation_quantity (donation : Donation) (lastIndex : Nat)
    (orders : List Order) (hd : donation.quantity < UINT_RANGE)
    (hr : QuantitiesInRange orders) :
    (allocLoop donation lastIndex orders).donation.quantity =
      donation.quantity - totalQuantity orders := by
  by_cases hlt : totalQuantity orders < donation.quantity
  · rw [allocLoop_of_total_lt orders donation lastIndex hr hd hlt]
  · by_cases hne : orders = []
    · subst hne
      simp [allocLoop, totalQuantity]
    · obtain ⟨pre, o, post, heq, hpre, hstop⟩ :=
        exists_stop orders donation.quantity hne (by omega)
      subst heq
      rw [allocLoop_of_stop pre o post donation lastIndex hr hd hpre hstop]
      show 0 = donation.quantity - totalQuantity (pre ++ o :: post)
      omega

/-- C16 (remaining supply is independent of ranking).  After the allocation loop the donation
holds `max(0, S - total requested quantity)`, the subtraction of natural numbers, and hence the
same quantity for every permutation of the order list. -/
theorem remaining_supply_independent_of_ranking (donation : Donation) (lastIndex : Nat)
    (orders : List Order) (hd : donation.quantity < UINT_RANGE)
    (hr : QuantitiesInRange orders) :
    (allocLoop donation lastIndex orders).donation.quantity =
        donation.quantity - totalQuantity orders ∧
      ((allocLoop donation lastIndex orders).donation.quantity : Int) =
        max 0 ((donation.quantity : Int) - (totalQuantity orders : Int)) ∧
      ∀ permuted : List Order, permuted.Perm orders →
        (allocLoop donation lastIndex permuted).donation.quantity =
          (allocLoop donation lastIndex orders).donation.quantity := by
  have h := allocLoop_donation_quantity donation lastIndex orders hd hr
  refine ⟨h, ?_, ?_⟩
  · rw [h]
    omega
  · intro permuted hperm
    have hr2 : QuantitiesInRange permuted := fun o ho => hr o (hperm.mem_iff.mp ho)
    rw [h, allocLoop_donation_quantity donation lastIndex permuted hd hr2,
      totalQuantity_perm hperm]

/-- C16 on donation 10 with orders of quantity 4 and 9 in both orders: 0 is left either way,
although a different order is served in full. -/
theorem remaining_supply_independent_of_ranking_witness :
    (allocLoop (mkData 1 1 10 0) 1 [mkOrder 2 4 0, mkOrder 3 9 0]).donation.quantity = 0 ∧
      (allocLoop (mkData 1 1 10 0) 1 [mkOrder 3 9 0, mkOrder 2 4 0]).donation.quantity =
        (allocLoop (mkData 1 1 10 0) 1 [mkOrder 2 4 0, mkOrder 3 9 0]).donation.quantity := by
  have h := remaining_supply_independent_of_ranking (mkData 1 1 10 0) 1
    [mkOrder 2 4 0, mkOrder 3 9 0] (by decide)
    (by intro o ho; simp at ho; rcases ho with rfl | rfl <;> decide)
  exact ⟨h.1, h.2.2 [mkOrder 3 9 0, mkOrder 2 4 0] (List.Perm.swap _ _ _)⟩

/-! ## Claims about reading the input -/

/-- Field level: wherever `ss >> quantity` accepts a token with a plus sign, it accepts the same
token with a minus sign, and stores the negated value modulo `2 ^ 32`; `failbit` is not
set. -/
theorem extractUnsigned_minus (cs : List Char) (v : Nat) (rest : List Char)
    (h : extractUnsigned ('+' :: cs) = some (v, rest)) :
    extractUnsigned ('-' :: cs) = some ((4294967296 - v) % 4294967296, rest) := by
  have hplus : skipWhitespace ('+' :: cs) = '+' :: cs := by
    simp [skipWhitespace, List.dropWhile, isSpaceChar]
  have hminus : skipWhitespace ('-' :: cs) = '-' :: cs := by
    simp [skipWhitespace, List.dropWhile, isSpaceChar]
  unfold extractUnsigned at h ⊢
  rw [hplus] at h
  rw [hminus]
  simp only [extractIntMagnitude, List.head?_cons, Option.some.injEq, Char.reduceEq,
    or_true, true_or, if_true, List.tail_cons, decide_False, decide_True, if_false,
    Bool.false_eq_true] at h ⊢
  split at h
  · exact absurd h (by simp)
  · rename_i negative result rest' hscan
    split at hscan
    · exact absurd hscan (by simp)
    · split at hscan
      · exact absurd hscan (by simp)
      · rename_i h1 h2
        simp only [Option.some.injEq, Prod.mk.injEq] at hscan
        obtain ⟨rfl, rfl, rfl⟩ := hscan
        simp only [Bool.false_eq_true, if_false, Option.some.injEq, Prod.mk.injEq] at h
        obtain ⟨rfl, rfl⟩ := h
        simp [if_neg h1, if_neg h2]

theorem scanLine_negative_order :
    scanLine "2 1 -5 0 0 40" =
      some ⟨2, 1, 4294967291, ⟨false, 0, 0⟩, ⟨false, 0, 0⟩, 40⟩ := by
  rfl

theorem scanLine_negative_donation :
    scanLine "1 1 -10 0 0 100" =
      some ⟨1, 1, 4294967286, ⟨false, 0, 0⟩, ⟨false, 0, 0⟩, 100⟩ := by
  rfl

/-- A literal of value zero converts to the `double` zero, whatever the rounding. -/
theorem toDbl_zero (fp : Fpu) (negative : Bool) (exponent : Int) :
    DecimalLiteral.toDbl fp ⟨negative, 0, exponent⟩ = some (.fin 0) := by
  simp [DecimalLiteral.toDbl, DecimalLiteral.value, Dbl.ofExact]

/-- C12 (malformed record rejection) fails for a negative quantity.  The order line
`2 1 -5 0 0 40` and the donation line `1 1 -10 0 0 100` are read without a `runtime_error`:
the extraction into `unsigned int` accepts the minus sign and stores `2 ^ 32 - 5` and
`2 ^ 32 - 10`, and the records are kept with these quantities, for every rounding of the
floating-point unit. -/
theorem negative_quantity_not_rejected (fp : Fpu) :
    readOrders (extractLine fp) (some ["2 1 -5 0 0 40"]) 1 =
        .ok [{ toData := mkData 2 1 4294967291 40 }] ∧
      readDonation (extractLine fp) (some ["1 1 -10 0 0 100"]) =
        .ok (mkData 1 1 4294967286 100) ∧
      (4294967291 : Nat) = 2 ^ 32 - 5 ∧ (4294967286 : Nat) = 2 ^ 32 - 10 := by
  have ho : extractLine fp "2 1 -5 0 0 40" = some (mkData 2 1 4294967291 40) := by
    simp only [extractLine, scanLine_negative_order, toDbl_zero]
    rfl
  have hd : extractLine fp "1 1 -10 0 0 100" = some (mkData 1 1 4294967286 100) := by
    simp only [extractLine, scanLine_negative_donation, toDbl_zero]
    rfl
  refine ⟨?_, ?_, by norm_num, by norm_num⟩
  · simp only [readOrders, readOrderLines, ho]
    rfl
  · simp only [readDonation, List.headD_cons, hd]

/-- The loop of `readOrders` throws at the first line that does not extract, naming it. -/
theorem readOrderLines_bad_line (extract : String → Option Data) (prodId : Nat)
    (bad : String) (rest : List String) (hbad : extract bad = none) :
    ∀ good : List String, (∀ l ∈ good, ∃ d, extract l = some d) →
      readOrderLines extract prodId (good ++ bad :: rest) =
        .error (.wronglyFormattedLine bad) := by
  intro good
  induction good with
  | nil => intro _; simp [readOrderLines, hbad]
  | cons g good ih =>
    intro hgood
    obtain ⟨d, hd⟩ := hgood g (List.mem_cons_self g good)
    have hrest := ih (fun l hl => hgood l (List.mem_cons_of_mem g hl))
    show readOrderLines extract prodId (g :: (good ++ bad :: rest)) = _
    simp only [readOrderLines, hd, hrest]

/-- A list with a line that does not extract splits at the first such line. -/
theorem exists_first_bad_line (extract : String → Option Data) :
    ∀ lines : List String, (∃ line ∈ lines, extract line = none) →
      ∃ good bad rest, lines = good ++ bad :: rest ∧
        (∀ l ∈ good, ∃ d, extract l = some d) ∧ extract bad = none := by
  intro lines
  induction lines with
  | nil => rintro ⟨line, hmem, _⟩; simp at hmem
  | cons a rest ih =>
    rintro ⟨line, hmem, hnone⟩
    cases ha : extract a with
    | none => exact ⟨[], a, rest, rfl, by simp, ha⟩
    | some d =>
      rcases List.mem_cons.mp hmem with rfl | hmem
      · rw [hnone] at ha
        exact absurd ha (by simp)
      · obtain ⟨good, bad, rest2, heq, hgood, hbad⟩ := ih ⟨line, hmem, hnone⟩
        refine ⟨a :: good, bad, rest2, by simp [heq], ?_, hbad⟩
        intro l hl
        rcases List.mem_cons.mp hl with rfl | hl
        · exact ⟨d, ha⟩
        · exact hgood l hl

/-- C13 (no partial result on error).  When the donation line or any order line fails to
extract, `splitDonationToOrders` ends with a `runtime_error` before step 5: it returns no
donation and no processed list.  When the donation is read and the orders file holds a line
that does not extract after any number of lines that do, the error names that line. -/
theorem no_partial_result_on_error (fp : Fpu) (extract : String → Option Data)
    (sortImpl : {α : Type} → (α → α → Bool) → List α → List α)
    (donationFile ordersFile : Option (List String))
    (hbad : (∃ lines, donationFile = some lines ∧ extract (lines.headD "") = none) ∨
      (∃ lines line, ordersFile = some lines ∧ line ∈ lines ∧ extract line = none)) :
    (∃ e, splitDonationToOrders fp extract sortImpl donationFile ordersFile = .error e ∧
        (e = .unableToOpenFile ∨ ∃ line, e = .wronglyFormattedLine line ∧
          extract line = none)) ∧
      ∀ (d : Donation) (good : List String) (bad : String) (rest : List String),
        readDonation extract donationFile = .ok d →
        ordersFile = some (good ++ bad :: rest) →
        (∀ l ∈ good, ∃ x, extract l = some x) → extract bad = none →
        splitDonationToOrders fp extract sortImpl donationFile ordersFile =
          .error (.wronglyFormattedLine bad) := by
  have hsecond : ∀ (d : Donation) (good : List String) (bad : String) (rest : List String),
      readDonation extract donationFile = .ok d →
      ordersFile = some (good ++ bad :: rest) →
      (∀ l ∈ good, ∃ x, extract l = some x) → extract bad = none →
      splitDonationToOrders fp extract sortImpl donationFile ordersFile =
        .error (.wronglyFormattedLine bad) := by
    intro d good bad rest hd hfile hgood hnone
    unfold splitDonationToOrders
    simp only [bind, Except.bind, hd, hfile, readOrders,
      readOrderLines_bad_line extract d.productId bad rest hnone good hgood]
  refine ⟨?_, hsecond⟩
  rcases hbad with ⟨lines, hfile, hnone⟩ | ⟨lines, line, hfile, hmem, hnone⟩
  · refine ⟨.wronglyFormattedLine (lines.headD ""), ?_, Or.inr ⟨_, rfl, hnone⟩⟩
    unfold splitDonationToOrders
    simp only [bind, Except.bind, hfile, readDonation, hnone]
  · cases hd : readDonation extract donationFile with
    | error e =>
      refine ⟨e, ?_, ?_⟩
      · unfold splitDonationToOrders
        simp only [bind, Except.bind, hd]
      · unfold readDonation at hd
        split at hd
        · simp only [Except.error.injEq] at hd
          exact Or.inl hd.symm
        · split at hd
          · rename_i hx
            simp only [Except.error.injEq] at hd
            exact Or.inr ⟨_, hd.symm, hx⟩
          · exact absurd hd (by simp)
    | ok d =>
      obtain ⟨good, bad, rest, heq, hgood, hbadline⟩ :=
        exists_first_bad_line extract lines ⟨line, hmem, hnone⟩
      exact ⟨.wronglyFormattedLine bad,
        hsecond d good bad rest hd (by rw [hfile, heq]) hgood hbadline,
        Or.inr ⟨bad, rfl, hbadline⟩⟩

theorem scanLine_malformed : scanLine "3 1 x 2 0 50" = none := by
  rfl

/-- C13 with the libstdc++ extraction on an orders file whose second line has a letter in
place of the quantity: the run ends with the `runtime_error` for that line. -/
theorem no_partial_result_on_error_witness :
    splitDonationToOrders binary64Fpu (extractLine binary64Fpu) (fun comp v => libstdcxxSort comp v)
        (some ["1 1 15 0 0 100"]) (some ["2 1 5 0 0 40", "3 1 x 2 0 50", "4 1 9 0 0 10"]) =
      .error (.wronglyFormattedLine "3 1 x 2 0 50") := by
  have hbadline : extractLine binary64Fpu "3 1 x 2 0 50" = none := by
    simp only [extractLine, scanLine_malformed]
  have hdon : extractLine binary64Fpu "1 1 15 0 0 100" = some (mkData 1 1 15 100) := by
    have hs : scanLine "1 1 15 0 0 100" =
        some ⟨1, 1, 15, ⟨false, 0, 0⟩, ⟨false, 0, 0⟩, 100⟩ := rfl
    simp only [extractLine, hs, toDbl_zero]
    rfl
  have hgood : extractLine binary64Fpu "2 1 5 0 0 40" = some (mkData 2 1 5 40) := by
    have hs : scanLine "2 1 5 0 0 40" =
        some ⟨2, 1, 5, ⟨false, 0, 0⟩, ⟨false, 0, 0⟩, 40⟩ := rfl
    simp only [extractLine, hs, toDbl_zero]
    rfl
  exact (no_partial_result_on_error binary64Fpu (extractLine binary64Fpu)
    (fun comp v => libstdcxxSort comp v) (some ["1 1 15 0 0 100"])
    (some ["2 1 5 0 0 40", "3 1 x 2 0 50", "4 1 9 0 0 10"])
    (Or.inr ⟨_, "3 1 x 2 0 50", rfl, by simp, hbadline⟩)).2
    (mkData 1 1 15 100) ["2 1 5 0 0 40"] "3 1 x 2 0 50" ["4 1 9 0 0 10"]
    (by simp only [readDonation, List.headD_cons, hdon]) rfl
    (by
      intro l hl
      rw [List.mem_singleton] at hl
      subst hl
      exact ⟨_, hgood⟩)
    hbadline

end DonationSplit
